import Mathlib

/-!
A shallow embedding of the `djson` package (`dynamicjson.go`, `strings.go`):
the hybrid ordered-map/array container `DynamicJSON`, its path-based
operations, tombstoning and compaction, freezing, cloning, the compact JSON
serializer, and a model of the JSON parser, together with proofs about them.

Modelling conventions:
* Go strings are lists of characters (`Str`).
* The Go `interface{}` values stored in `DynamicJSON.values` form the closed
  sum `GoAny`: JSON scalars, nested documents, the `gDeletedEntry` tombstone
  sentinel, and a typed-nil `*DynamicJSON`.  Go `float64` and `time.Time`
  values are outside the model (no floating point, no clock).
* The `values []interface{}` slice is the inductive list `ValList`, a sibling
  of `GoAny` in one mutual family so that functions recursing into child
  documents are structurally recursive (and hence computable by `decide`).
* Pointer mutation is modelled by returning the updated document; functions
  returning Go errors return an `Option GoErr` alongside the new state.
* A nil `*DynamicJSON` receiver is `(none : Option DynamicJSON)`.
-/

namespace DJson

/-- Go strings, modelled as lists of characters. -/
abbrev Str := List Char

mutual

/-- The Go `interface{}` values that can sit in a `values` slot or be passed
through the public API: JSON scalars (`null`, `boolean`, `intV` for Go `int`
and `int64`, `number` for `json.Number` verbatim text, `str`), a child
document (`doc`), the `gDeletedEntry` tombstone sentinel (`deletedEntry`),
and a typed-nil `*DynamicJSON` stored in an interface (`nilDoc`). -/
inductive GoAny where
  | null
  | boolean (b : Bool)
  | intV (n : Int)
  | number (s : Str)
  | str (s : Str)
  | doc (d : DynamicJSON)
  | deletedEntry
  | nilDoc

/-- The `values []interface{}` slice of a `DynamicJSON`, as an inductive list
in the same mutual family (so recursion into children is structural). -/
inductive ValList where
  | nil
  | cons (v : GoAny) (vs : ValList)

/-- The `DynamicJSON` struct: `keys` is the Go `map[string]uint32` key index
(`none` exactly when the document is an array, mirroring the nil map),
`ordKeys` the ordered key list, `iterCounter` the reentrancy counter
(negative means frozen), `values` the value slots. -/
inductive DynamicJSON where
  | mk (keys : Option (List (Str × Nat))) (ordKeys : List Str)
      (iterCounter : Int) (values : ValList)

end

mutual

def beqVal : GoAny → GoAny → Bool
  | .null, .null => true
  | .boolean a, .boolean b => a == b
  | .intV a, .intV b => a == b
  | .number a, .number b => a == b
  | .str a, .str b => a == b
  | .doc a, .doc b => beqDoc a b
  | .deletedEntry, .deletedEntry => true
  | .nilDoc, .nilDoc => true
  | _, _ => false

def beqList : ValList → ValList → Bool
  | .nil, .nil => true
  | .cons a as, .cons b bs => beqVal a b && beqList as bs
  | _, _ => false

def beqDoc : DynamicJSON → DynamicJSON → Bool
  | .mk ks oks ic vs, .mk ks2 oks2 ic2 vs2 =>
    ks == ks2 && oks == oks2 && ic == ic2 && beqList vs vs2

end

def DynamicJSON.keys : DynamicJSON → Option (List (Str × Nat))
  | .mk ks _ _ _ => ks

def DynamicJSON.ordKeys : DynamicJSON → List Str
  | .mk _ oks _ _ => oks

def DynamicJSON.iterCounter : DynamicJSON → Int
  | .mk _ _ ic _ => ic

def DynamicJSON.values : DynamicJSON → ValList
  | .mk _ _ _ vs => vs

def ValList.toList : ValList → List GoAny
  | .nil => []
  | .cons v vs => v :: vs.toList

def ValList.ofList : List GoAny → ValList
  | [] => .nil
  | v :: vs => .cons v (ValList.ofList vs)

/-- Slot list of a document, as a plain Lean list. -/
def DynamicJSON.vals (d : DynamicJSON) : List GoAny := d.values.toList

/-- Go `value == gDeletedEntry`: the tombstone sentinel is a distinguished
pointer, so interface equality holds exactly for the sentinel itself. -/
def GoAny.isDeletedEntry : GoAny → Bool
  | .deletedEntry => true
  | _ => false

/-- The distinguished mutation errors raised by `dynamicjson.go` (the Go code
builds them with `fmt.Errorf`; only their identity matters here).
`frozenErr` is the FrozenError family, `arrayKeyErr` the InvalidOperation
raised by `set` for a non-numeric key on an array, `invalidIndexErr` the
InvalidOperation raised by `SetI` for a negative index. -/
inductive GoErr where
  | frozenErr
  | arrayKeyErr
  | invalidIndexErr
  deriving DecidableEq

/-- Decimal digit character for `k < 10` (Go writes `'0' + k`). -/
def digitChar (k : Nat) : Char := Char.ofNat (48 + k)

/-- Most-significant-first decimal digits of `n`; `fuel` bounds the recursion
(`fuel > n` is always enough since `n / 10 < n` for `n ≥ 10`). -/
def natToDigits : Nat → Nat → List Char
  | 0, _ => []
  | fuel + 1, n =>
    if n < 10 then [digitChar n]
    else natToDigits fuel (n / 10) ++ [digitChar (n % 10)]

/-- Decimal representation of a natural number (Go `fmt.Sprint` / `strconv`). -/
def natRepr (n : Nat) : Str := natToDigits (n + 1) n

/-- Decimal representation of a Go `int` (Go `fmt.Sprint` / `strconv.Itoa`). -/
def intRepr : Int → Str
  | .ofNat n => natRepr n
  | .negSucc m => '-' :: natRepr (m + 1)

/-- `key2Index` from `dynamicjson.go`: a string of one to nine bytes, all
ASCII digits, denotes that decimal index; anything else yields `-1`.
The Go loop subtracts `'0'` from each byte and bails out on a non-digit;
the length bound `sLen < 10` keeps the accumulator well inside `int`. -/
def key2IndexLoop : Str → Nat → Int
  | [], n => Int.ofNat n
  | c :: rest, n =>
    if c.isDigit then key2IndexLoop rest (n * 10 + (c.toNat - 48)) else -1

def key2Index (s : Str) : Int :=
  if 0 < s.length ∧ s.length < 10 then key2IndexLoop s 0 else -1

/-- Go map lookup `self.keys[key]` on the association-list model of the
`map[string]uint32` index.  The Go map has no observable iteration order in
this code, so an association list is a faithful model. -/
def lookupKey : List (Str × Nat) → Str → Option Nat
  | [], _ => none
  | (k, n) :: rest, key => if k = key then some n else lookupKey rest key

/-- Go map insert `self.keys[key] = n` (replace an existing binding in place,
otherwise add one). -/
def insertKey : List (Str × Nat) → Str → Nat → List (Str × Nat)
  | [], key, n => [(key, n)]
  | (k, m) :: rest, key, n =>
    if k = key then (key, n) :: rest else (k, m) :: insertKey rest key n

/-- Go map delete `delete(self.keys, key)`. -/
def eraseKey : List (Str × Nat) → Str → List (Str × Nat)
  | [], _ => []
  | (k, m) :: rest, key =>
    if k = key then rest else (k, m) :: eraseKey rest key

/-- `NewMap()`. -/
def NewMap : DynamicJSON := .mk (some []) [] 0 .nil

/-- `NewArray()`. -/
def NewArray : DynamicJSON := .mk none [] 0 .nil

/-- `IsArray` on a non-nil document: the document is an array exactly when
its `keys` map is nil. -/
def DynamicJSON.IsArray (d : DynamicJSON) : Bool := d.keys.isNone

/-- `IsFrozen`: the reentrancy counter is negative. -/
def DynamicJSON.IsFrozen (d : DynamicJSON) : Bool := d.iterCounter < 0

/-- `Len` on a non-nil document: `len(values)` for arrays, `len(keys)` for
maps. -/
def DynamicJSON.Len (d : DynamicJSON) : Nat :=
  match d.keys with
  | none => d.vals.length
  | some ks => ks.length

/-- The internal `get` on a non-nil document.  For an array the key must
denote an in-range index; for a map the key index is consulted.  `none`
models the `(nil, false)` return. -/
def DynamicJSON.get (d : DynamicJSON) (key : Str) : Option GoAny :=
  match d.keys with
  | none =>
    match key2Index key with
    | .ofNat i => d.vals.get? i
    | .negSucc _ => none
  | some ks =>
    match lookupKey ks key with
    | some inx => d.vals.get? inx
    | none => none

/-- The internal `set` on a non-nil document.  Mirrors `dynamicjson.go`:
frozen documents refuse with a FrozenError; arrays demand a numeric key and
zero-extend with nulls (`make([]interface{}, ...)` appends nil interfaces)
up to the addressed index; maps rewrite an existing slot in place or append
a fresh slot and index entry at position `len(values)`.  The pair holds the
returned error and the updated document (unchanged on error). -/
def DynamicJSON.set (d : DynamicJSON) (key : Str) (value : GoAny) :
    Option GoErr × DynamicJSON :=
  if d.iterCounter < 0 then (some .frozenErr, d)
  else
    match d.keys with
    | none =>
      match key2Index key with
      | .negSucc _ => (some .arrayKeyErr, d)
      | .ofNat i =>
        let vs :=
          if d.vals.length ≤ i then
            d.vals ++ List.replicate (i - d.vals.length + 1) GoAny.null
          else d.vals
        (none, .mk d.keys d.ordKeys d.iterCounter (ValList.ofList (vs.set i value)))
    | some ks =>
      match lookupKey ks key with
      | some inx =>
        (none, .mk d.keys (d.ordKeys.set inx key) d.iterCounter
          (ValList.ofList (d.vals.set inx value)))
      | none =>
        (none, .mk (some (insertKey ks key d.vals.length))
          (d.ordKeys ++ [key]) d.iterCounter
          (ValList.ofList (d.vals ++ [value])))

/-- `SetI` on a non-nil document: frozen check, then direct index assignment
with zero-extension for arrays (negative indices refused), and for maps a
redirect to `set` with the printed index. -/
def DynamicJSON.SetI (d : DynamicJSON) (i : Int) (value : GoAny) :
    Option GoErr × DynamicJSON :=
  if d.iterCounter < 0 then (some .frozenErr, d)
  else if d.IsArray then
    match i with
    | .negSucc _ => (some .invalidIndexErr, d)
    | .ofNat i =>
      let vs :=
        if d.vals.length ≤ i then
          d.vals ++ List.replicate (i - d.vals.length + 1) GoAny.null
        else d.vals
      (none, .mk d.keys d.ordKeys d.iterCounter (ValList.ofList (vs.set i value)))
  else d.set (intRepr i) value

/-- `Append` on a non-nil document: appends to an array, does nothing on a
map.  Note the Go code performs no frozen check here and returns nothing. -/
def DynamicJSON.Append (d : DynamicJSON) (v : GoAny) : DynamicJSON :=
  if d.IsArray then .mk d.keys d.ordKeys d.iterCounter (ValList.ofList (d.vals ++ [v]))
  else d

/-- `packing` on a non-nil document: only a map with reentrancy counter
exactly zero, slot count at least 128 and live keys fewer than a third of
the slots is rebuilt; the rebuild keeps the live `(value, key)` pairs in
slot order and renumbers the key index in place.  (The Go loop writes into
slices preallocated at `len(keys)`; on documents satisfying the key-index
invariant that equals the filtered list built here.) -/
def DynamicJSON.packing (d : DynamicJSON) : DynamicJSON :=
  match d.keys with
  | none => d
  | some ks =>
    if d.iterCounter ≠ 0 then d
    else if 128 ≤ d.vals.length ∧ ks.length * 3 < d.vals.length then
      let live := (d.vals.zip d.ordKeys).filter fun p => ¬ p.1.isDeletedEntry
      .mk (some (reindexKeys ks live 0)) (live.map Prod.snd) d.iterCounter
        (ValList.ofList (live.map Prod.fst))
    else d
where
  /-- The renumbering loop `self.keys[ordKeys[j]] = j`. -/
  reindexKeys : List (Str × Nat) → List (GoAny × Str) → Nat → List (Str × Nat)
    | ks, [], _ => ks
    | ks, (_, k) :: rest, j => reindexKeys (insertKey ks k j) rest (j + 1)

/-- The ordered keys of the live slots of a map. -/
def liveKeysOf (vals : List GoAny) (oks : List Str) : List Str :=
  ((vals.zip oks).filter fun p => ¬ p.1.isDeletedEntry).map Prod.snd

/-- `Keys` on a non-nil document: printed indices for an array, the live
ordered keys for a map. -/
def DynamicJSON.Keys (d : DynamicJSON) : List Str :=
  match d.keys with
  | none => (List.range d.vals.length).map natRepr
  | some _ => liveKeysOf d.vals d.ordKeys

/-- `Clear` on a non-nil document (frozen documents are left alone). -/
def DynamicJSON.Clear (d : DynamicJSON) : DynamicJSON :=
  if d.iterCounter < 0 then d
  else .mk (d.keys.map fun _ => []) [] d.iterCounter .nil

mutual

/-- `Freeze` on a non-nil document: an already-frozen document returns at
once; otherwise every child document in the slots is frozen first (for maps
the Go loop skips tombstoned slots, but a tombstone is the bare sentinel and
never a document, so both loops freeze exactly the child documents) and the
counter is then set to the frozen sentinel `-1000`. -/
def freezeDoc : DynamicJSON → DynamicJSON
  | .mk ks oks ic vs =>
    if ic < 0 then .mk ks oks ic vs
    else .mk ks oks (-1000) (freezeList vs)

def freezeList : ValList → ValList
  | .nil => .nil
  | .cons v rest => .cons (freezeVal v) (freezeList rest)

def freezeVal : GoAny → GoAny
  | .doc d => .doc (freezeDoc d)
  | .null => .null
  | .boolean b => .boolean b
  | .intV n => .intV n
  | .number s => .number s
  | .str s => .str s
  | .deletedEntry => .deletedEntry
  | .nilDoc => .nilDoc

end

/-- `Freeze` under its source name. -/
def DynamicJSON.Freeze (d : DynamicJSON) : DynamicJSON := freezeDoc d

/-- `createLevelFromNextPath`: peek at the segment before the next slash; a
numeric segment calls for a fresh array, anything else for a fresh map. -/
def createLevelFromNextPath (path : Str) : DynamicJSON :=
  let name := path.takeWhile (· ≠ '/')
  if 0 ≤ key2Index name then NewArray else NewMap

/-- `level.get(name)` where `level` may be the nil pointer. -/
def levelGet (level : Option DynamicJSON) (name : Str) : Option GoAny :=
  match level with
  | none => none
  | some d => d.get name

/-- `level.set(name, value)` with the returned error discarded, as in `doOp`
and the parser.  A nil level would make the Go code dereference a nil
pointer; that cannot be modelled, and no public call path reaches it with a
well-formed document, so it is modelled as a no-op. -/
def levelSet2 (level : Option DynamicJSON) (name : Str) (value : GoAny) :
    Option DynamicJSON :=
  match level with
  | none => none
  | some d => some (d.set name value).2

/-- Writing back a mutated child: in Go the slot keeps pointing at the child
that was mutated in place, so the model rewrites the slot `get` resolved,
bypassing any frozen check on the parent. -/
def replaceChildSlot (d : DynamicJSON) (name : Str) (c : DynamicJSON) :
    DynamicJSON :=
  match d.keys with
  | none =>
    match key2Index name with
    | .ofNat i => .mk d.keys d.ordKeys d.iterCounter (ValList.ofList (d.vals.set i (.doc c)))
    | .negSucc _ => d
  | some ks =>
    match lookupKey ks name with
    | some inx => .mk d.keys d.ordKeys d.iterCounter (ValList.ofList (d.vals.set inx (.doc c)))
    | none => d

/-- The resolution loop of `doOp`, fuelled by the path length (every
iteration strictly shortens the path, so `path.length + 1` units always
suffice).  Returns the `(value, ok)` result as an `Option GoAny` together
with the updated receiver.  The cases mirror the Go loop: an empty path
returns the current level itself; a leading slash is skipped; a non-final
segment descends into an existing child document (a typed-nil child passes
the type assertion and descent continues on the nil pointer), or on a miss
either synthesizes a level with `createLevelFromNextPath` and `set`s it
(continuing into the fresh level even when the `set` was refused, in which
case the parent keeps its old state) or fails; the final segment performs
the optional `set` followed by a `get`. -/
def doOpLoopF : Nat → Option DynamicJSON → Str → Bool → Bool → GoAny →
    Option GoAny × Option DynamicJSON
  | 0, level, _, _, _, _ => (none, level)
  | fuel + 1, level, path, autoCreate, setValue, value =>
    match path with
    | [] =>
      (some (match level with | some l => .doc l | none => .nilDoc), level)
    | _ :: _ =>
      let name := path.takeWhile (· ≠ '/')
      let tail := path.dropWhile (· ≠ '/')
      match tail with
      | [] =>
        let level1 := if setValue then levelSet2 level path value else level
        (levelGet level1 path, level1)
      | _ :: rest =>
        if name = [] then doOpLoopF fuel level rest autoCreate setValue value
        else
          match levelGet level name with
          | some (.doc next) =>
            let r := doOpLoopF fuel (some next) rest autoCreate setValue value
            (r.1,
              match level, r.2 with
              | some d, some next2 => some (replaceChildSlot d name next2)
              | _, _ => level)
          | some .nilDoc =>
            let r := doOpLoopF fuel none rest autoCreate setValue value
            (r.1, level)
          | _ =>
            if autoCreate then
              let next := createLevelFromNextPath rest
              let r := doOpLoopF fuel (some next) rest autoCreate setValue value
              match r.2 with
              | some next2 => (r.1, levelSet2 level name (.doc next2))
              | none => (r.1, level)
            else (none, level)

/-- `doOp` with its guard: a mutation on a frozen receiver is refused up
front (a mutation on a nil receiver would dereference a nil pointer in Go;
modelled as a failed lookup). -/
def doOp (self : Option DynamicJSON) (path : Str) (autoCreate setValue : Bool)
    (value : GoAny) : Option GoAny × Option DynamicJSON :=
  match self with
  | none =>
    if setValue then (none, none)
    else doOpLoopF (path.length + 1) none path autoCreate setValue value
  | some d =>
    if setValue ∧ d.iterCounter < 0 then (none, some d)
    else doOpLoopF (path.length + 1) (some d) path autoCreate setValue value

/-- `convertToDJ` restricted to the modelled value universe: nil, booleans,
ints, `json.Number`, strings and `*DynamicJSON` (nil or not) all pass
through unchanged; the reflective conversions of native Go aggregates
concern values outside this universe. -/
def convertToDJ (v : GoAny) : GoAny := v

/-- Public `Set`: path resolution with auto-creation, errors discarded. -/
def Set (self : Option DynamicJSON) (path : Str) (value : GoAny) :
    Option DynamicJSON :=
  (doOp self path true true (convertToDJ value)).2

/-- Public `Get`. -/
def Get (self : Option DynamicJSON) (path : Str) : Option GoAny :=
  (doOp self path false false .null).1

/-- Public `Fetch`: the `(value, present)` pair. -/
def Fetch (self : Option DynamicJSON) (path : Str) : Option GoAny × Bool :=
  match (doOp self path false false .null).1 with
  | some v => (some v, true)
  | none => (none, false)

/-- Public `Nested`: the resolved value if it is a document (a typed-nil
child passes the Go type assertion but yields the nil pointer). -/
def Nested (self : Option DynamicJSON) (path : Str) : Option DynamicJSON :=
  match (doOp self path false false .null).1 with
  | some (.doc d) => some d
  | _ => none

/-- Digit accumulator shared by the numeric parsers. -/
def natOfDigits (ds : List Char) : Nat :=
  ds.foldl (fun n c => n * 10 + (c.toNat - 48)) 0

/-- `strconv.ParseInt(s, 10, 64)` (also `json.Number.Int64` and
`strconv.Atoi` on a 64-bit platform): optional sign, then only digits, and
the value must fit a signed 64-bit integer. -/
def parseInt64 (s : Str) : Option Int :=
  let p := match s with
    | '-' :: r => (true, r)
    | '+' :: r => (false, r)
    | _ => (false, s)
  if p.2 ≠ [] ∧ p.2.all Char.isDigit then
    let v : Int := if p.1 then -(natOfDigits p.2 : Int) else natOfDigits p.2
    if -(2 ^ 63) ≤ v ∧ v < 2 ^ 63 then some v else none
  else none

/-- `strings.TrimSuffix(s, ".0")`. -/
def trimSuffixDotZero (s : Str) : Str :=
  match s.reverse with
  | '0' :: '.' :: rest => rest.reverse
  | _ => s

/-- `strconv.ParseFloat(s, 64)`, modelled from the spec as exact rational
arithmetic on the standard decimal-float syntax (strconv is a Go standard
library routine, not part of this repository).  Hexadecimal floats, the
`Inf`/`NaN` literals and overflow-to-error are outside the model. -/
def parseFloatQ (s : Str) : Option ℚ :=
  let p := match s with
    | '-' :: r => (true, r)
    | '+' :: r => (false, r)
    | _ => (false, s)
  let a := p.2.takeWhile Char.isDigit
  let r1 := p.2.dropWhile Char.isDigit
  let q := match r1 with
    | '.' :: t => (t.takeWhile Char.isDigit, t.dropWhile Char.isDigit)
    | _ => ([], r1)
  if a = [] ∧ q.1 = [] then none
  else
    let mant : ℚ := (natOfDigits (a ++ q.1) : ℚ) / (10 : ℚ) ^ q.1.length
    let sm : ℚ := if p.1 then -mant else mant
    match q.2 with
    | [] => some sm
    | e :: t =>
      if e = 'e' ∨ e = 'E' then
        let w := match t with
          | '-' :: u => (true, u)
          | '+' :: u => (false, u)
          | _ => (false, t)
        if w.2 ≠ [] ∧ w.2.all Char.isDigit then
          let ex : Int := if w.1 then -(natOfDigits w.2 : Int) else natOfDigits w.2
          some (sm * (10 : ℚ) ^ ex)
        else none
      else none

/-- `value2int`: the coercion chain `json.Number → (float64) → int → int64 →
string → default`.  Go `int` and `int64` are the single `intV` here, and the
`float64` branch concerns values outside the model. -/
def value2int (v : GoAny) (defaultValue : Int) : Int :=
  match v with
  | .number s =>
    match parseInt64 (trimSuffixDotZero s) with
    | some i => i
    | none => defaultValue
  | .intV n => n
  | .str s =>
    match parseInt64 s with
    | some i => i
    | none => defaultValue
  | _ => defaultValue

/-- `value2string`: strings verbatim, `json.Number` text verbatim, ints
printed.  The `DynamicJSON` case of the Go code asserts on the non-pointer
type and can never match a stored child (children are `*DynamicJSON`), so
documents fall through to the default; booleans and null have no case at
all.  `time.Time` is outside the model. -/
def value2string (v : GoAny) (defaultValue : Str) : Str :=
  match v with
  | .str s => s
  | .number s => s
  | .intV n => intRepr n
  | _ => defaultValue

/-- `GetInt`. -/
def GetInt (self : Option DynamicJSON) (path : Str) (defaultValue : Int) : Int :=
  match (doOp self path false false .null).1 with
  | none => defaultValue
  | some v => value2int v defaultValue

/-- `GetBool`: only an exact boolean is accepted; everything else yields the
caller default. -/
def GetBool (self : Option DynamicJSON) (path : Str) (defaultValue : Bool) : Bool :=
  match (doOp self path false false .null).1 with
  | none => defaultValue
  | some (.boolean b) => b
  | some _ => defaultValue

/-- `GetString`. -/
def GetString (self : Option DynamicJSON) (path : Str) (defaultValue : Str) : Str :=
  match (doOp self path false false .null).1 with
  | none => defaultValue
  | some v => value2string v defaultValue

/-- `GetFloat`: `json.Number` text, then (for values in the model) a string
parse, then the default.  Results are exact rationals, see `parseFloatQ`. -/
def GetFloat (self : Option DynamicJSON) (path : Str) (defaultValue : ℚ) : ℚ :=
  match (doOp self path false false .null).1 with
  | none => defaultValue
  | some (.number s) =>
    match parseFloatQ s with
    | some q => q
    | none => defaultValue
  | some (.str s) =>
    match parseFloatQ s with
    | some q => q
    | none => defaultValue
  | some _ => defaultValue

/-- `Has`, fuelled by the path length: path segments descend through
`Nested`, the final segment checks the index range (array) or key index
(map). -/
def hasF : Nat → Option DynamicJSON → Str → Bool
  | 0, _, _ => false
  | fuel + 1, self, path =>
    match self with
    | none => false
    | some d =>
      let name := path.takeWhile (· ≠ '/')
      let tail := path.dropWhile (· ≠ '/')
      match tail with
      | _ :: rest => hasF fuel (Nested (some d) name) rest
      | [] =>
        match d.keys with
        | none =>
          match key2Index path with
          | .ofNat i => decide (i < d.vals.length)
          | .negSucc _ => false
        | some ks => (lookupKey ks path).isSome

/-- Public `Has`. -/
def Has (self : Option DynamicJSON) (path : Str) : Bool :=
  hasF (path.length + 1) self path

/-- `Delete` on a non-nil receiver, fuelled by the path length.  A slash
descends through `Nested` (errors from the nested delete are discarded and
`nil` is returned, as in Go); otherwise an array deletion removes and shifts
immediately while a map deletion tombstones the slot, drops the index entry
and attempts a compaction. -/
def deleteF : Nat → DynamicJSON → Str → Option GoErr × DynamicJSON
  | 0, d, _ => (none, d)
  | fuel + 1, d, path =>
    if d.iterCounter < 0 then (some .frozenErr, d)
    else
      let name := path.takeWhile (· ≠ '/')
      let tail := path.dropWhile (· ≠ '/')
      match tail with
      | _ :: rest =>
        if name = [] then (none, (deleteF fuel d rest).2)
        else
          match Nested (some d) name with
          | some c => (none, replaceChildSlot d name (deleteF fuel c rest).2)
          | none => (none, d)
      | [] =>
        match d.keys with
        | none =>
          match key2Index path with
          | .ofNat i =>
            if i < d.vals.length then
              (none, .mk d.keys d.ordKeys d.iterCounter
                (ValList.ofList (d.vals.take i ++ d.vals.drop (i + 1))))
            else (none, d)
          | .negSucc _ => (none, d)
        | some ks =>
          match lookupKey ks path with
          | none => (none, d)
          | some inx =>
            (none, (DynamicJSON.mk (some (eraseKey ks path)) d.ordKeys
              d.iterCounter (ValList.ofList (d.vals.set inx .deletedEntry))).packing)

/-- Public `Delete` (nil receivers return at once). -/
def Delete (self : Option DynamicJSON) (path : Str) :
    Option GoErr × Option DynamicJSON :=
  match self with
  | none => (none, none)
  | some d =>
    let r := deleteF (path.length + 1) d path
    (r.1, some r.2)

/-- The sequence of `(key, value)` pairs a full `Iterate` hands to its
callback: every slot (with an empty key) for an array, the live slots in
storage order for a map.  The counter increment/decrement and the post-loop
`packing` attempt leave the document unchanged (the counter is still
positive when `packing` runs, so the compaction never fires from here). -/
def DynamicJSON.iterationOrder (d : DynamicJSON) : List (Str × GoAny) :=
  match d.keys with
  | none => d.vals.map fun v => ([], v)
  | some _ =>
    ((d.vals.zip d.ordKeys).filter fun p => ¬ p.1.isDeletedEntry).map
      fun p => (p.2, p.1)

/-- Public `Iterate` (callback view, nil receivers visit nothing). -/
def Iterate (self : Option DynamicJSON) : List (Str × GoAny) :=
  match self with
  | none => []
  | some d => d.iterationOrder

mutual

/-- `visit`: depth-first `(full path, value)` pairs, parents before
children, tombstoned map slots skipped. -/
def visitDoc (d : DynamicJSON) (path : Str) : List (Str × GoAny) :=
  let pfx := if path = [] then path else path ++ ['/']
  match d with
  | .mk none _ _ vs => visitArrItems vs pfx 0
  | .mk (some _) oks _ vs => visitMapItems vs oks pfx

def visitArrItems : ValList → Str → Nat → List (Str × GoAny)
  | .nil, _, _ => []
  | .cons v rest, pfx, i =>
    (pfx ++ natRepr i, v) :: (visitVal v (pfx ++ natRepr i) ++ visitArrItems rest pfx (i + 1))

def visitMapItems : ValList → List Str → Str → List (Str × GoAny)
  | .nil, _, _ => []
  | .cons v rest, oks, pfx =>
    if v.isDeletedEntry then visitMapItems rest oks.tail pfx
    else
      (pfx ++ oks.headD [], v) ::
        (visitVal v (pfx ++ oks.headD []) ++ visitMapItems rest oks.tail pfx)

def visitVal : GoAny → Str → List (Str × GoAny)
  | .doc d, p => visitDoc d p
  | _, _ => []

end

/-- Public `Visit` (nil receivers visit nothing). -/
def Visit (self : Option DynamicJSON) : List (Str × GoAny) :=
  match self with
  | none => []
  | some d => visitDoc d []

/-- The `x.Set(key, value)` calls `Clone` issues on its fresh accumulator
(the receiver is never nil there). -/
def setPub (d : DynamicJSON) (path : Str) (v : GoAny) : DynamicJSON :=
  match Set (some d) path v with
  | some d2 => d2
  | none => d

mutual

/-- `Clone`: arrays are rebuilt slot by slot through `cloneValue`; maps are
rebuilt by re-`Set`ting every live `(ordKeys[i], cloneValue(values[i]))`
pair, in storage order, on a fresh map — through the public, path-based
`Set`. -/
def cloneDoc : DynamicJSON → DynamicJSON
  | .mk none _ _ vs => .mk none [] 0 (cloneArrItems vs)
  | .mk (some _) oks _ vs => cloneMapEntries vs oks NewMap

def cloneArrItems : ValList → ValList
  | .nil => .nil
  | .cons v rest => .cons (cloneValue v) (cloneArrItems rest)

def cloneMapEntries : ValList → List Str → DynamicJSON → DynamicJSON
  | .nil, _, acc => acc
  | .cons v rest, oks, acc =>
    if v.isDeletedEntry then cloneMapEntries rest oks.tail acc
    else cloneMapEntries rest oks.tail (setPub acc (oks.headD []) (cloneValue v))

/-- `cloneValue`: child documents (including a typed nil, which passes the
type assertion and clones to nil) are cloned, scalars are returned as is. -/
def cloneValue : GoAny → GoAny
  | .doc d => .doc (cloneDoc d)
  | .null => .null
  | .boolean b => .boolean b
  | .intV n => .intV n
  | .number s => .number s
  | .str s => .str s
  | .deletedEntry => .deletedEntry
  | .nilDoc => .nilDoc

end

/-- Public `Clone` (nil receivers clone to nil). -/
def Clone (self : Option DynamicJSON) : Option DynamicJSON :=
  match self with
  | none => none
  | some d => some (cloneDoc d)

/-- Hex digit of `gHex = "0123456789abcdef"`. -/
def hexDigitChar (k : Nat) : Char :=
  if k < 10 then Char.ofNat (48 + k) else Char.ofNat (87 + k)

/-- A `\u00XX` escape for a byte value. -/
def escU00 (n : Nat) : Str :=
  ['\\', 'u', '0', '0', hexDigitChar (n / 16), hexDigitChar (n % 16)]

/-- Per-character escaping of `encodeString` (`strings.go`), with HTML-safe
mode always on as in the source: quote and backslash get two-character
escapes, `\n`/`\r`/`\t` their short forms, the other control bytes and
`<`/`>`/`&` a `\u00XX` escape, U+2028/U+2029 their `\u202X` escapes, and
every other character is written verbatim.  (The `�` branch for invalid
UTF-8 byte sequences cannot arise: model strings hold Unicode scalars.) -/
def escapeChar (c : Char) : Str :=
  if c = '\\' ∨ c = '"' then ['\\', c]
  else if c = '\n' then ['\\', 'n']
  else if c = '\r' then ['\\', 'r']
  else if c = '\t' then ['\\', 't']
  else if c = '<' ∨ c = '>' ∨ c = '&' then escU00 c.toNat
  else if c.toNat < 0x20 then escU00 c.toNat
  else if c = ' ' then ['\\', 'u', '2', '0', '2', '8']
  else if c = ' ' then ['\\', 'u', '2', '0', '2', '9']
  else [c]

/-- `encodeString` (`strings.go`): the quoted, escaped JSON string literal.
The word-at-a-time `escapeIndex` fast path only decides whether any
escaping is needed, so the output is the per-character escaping below. -/
def encodeString (s : Str) : Str :=
  '"' :: s.flatMap escapeChar ++ ['"']

/-- `scalar2str`: the JSON text `njson.Append` produces for a scalar (the
serializer uses the same call for scalar slots).  `json.Number` text is
written verbatim per the serializer contract; ints in decimal; strings
through the escaper; a `*DynamicJSON` is a struct with no exported fields
and encodes as `\x7b\x7d`; a nil pointer encodes as `null`; the tombstone
sentinel is a `*int` pointing at zero (never reachable from a live slot). -/
def scalar2str (v : GoAny) : Str :=
  match v with
  | .null => ['n', 'u', 'l', 'l']
  | .boolean true => ['t', 'r', 'u', 'e']
  | .boolean false => ['f', 'a', 'l', 's', 'e']
  | .intV n => intRepr n
  | .number s => s
  | .str s => encodeString s
  | .doc _ => ['\x7b', '\x7d']
  | .deletedEntry => ['0']
  | .nilDoc => ['n', 'u', 'l', 'l']

mutual

/-- `writeTo` in compact mode (`JSONLine`): empty containers render as the
two-character literals; arrays write every slot, maps write the live slots
in storage order with escaped keys; child documents recurse (a typed-nil
child passes the `*DynamicJSON` assertion and `writeTo` on nil renders
`\x7b\x7d`); scalars go through the `njson.Append` text of `scalar2str`.
A map whose key index is empty renders `\x7b\x7d` outright (`Len() == 0`). -/
def writeDoc : DynamicJSON → Str
  | .mk none _ _ vs =>
    match vs with
    | .nil => ['[', ']']
    | _ => '[' :: (writeArrItems vs true ++ [']'])
  | .mk (some ks) oks _ vs =>
    if ks.length = 0 then ['\x7b', '\x7d']
    else '\x7b' :: (writeMapItems vs oks true ++ ['\x7d'])

def writeArrItems : ValList → Bool → Str
  | .nil, _ => []
  | .cons v rest, first =>
    (if first then [] else [',']) ++ writeOne v ++ writeArrItems rest false

def writeMapItems : ValList → List Str → Bool → Str
  | .nil, _, _ => []
  | .cons v rest, oks, first =>
    if v.isDeletedEntry then writeMapItems rest oks.tail first
    else
      (if first then [] else [',']) ++ encodeString (oks.headD []) ++
        ':' :: writeOne v ++ writeMapItems rest oks.tail false

def writeOne : GoAny → Str
  | .doc d => writeDoc d
  | .nilDoc => ['\x7b', '\x7d']
  | .null => scalar2str .null
  | .boolean b => scalar2str (.boolean b)
  | .intV n => scalar2str (.intV n)
  | .number s => scalar2str (.number s)
  | .str s => scalar2str (.str s)
  | .deletedEntry => scalar2str .deletedEntry

end

/-- `JSONLine`: the compact serialization. -/
def DynamicJSON.JSONLine (d : DynamicJSON) : Str := writeDoc d

/-- `writeMapItems` restated over the live `(key, value)` pairs: the text a
map body writes depends only on those. -/
def writePairs : List (Str × GoAny) → Bool → Str
  | [], _ => []
  | (k, v) :: r, first =>
    (if first then [] else [',']) ++ encodeString k ++
      ':' :: writeOne v ++ writePairs r false

mutual

/-- `IsEqualAsString` on non-nil documents: same variant, arrays pairwise
with equal length, maps with equal key-index size and every live entry of
the receiver found in the other map with a matching value; scalar pairs
compare by their `scalar2str` rendering.  The Go pointer-identity shortcut
is omitted (equal pointers compare equal anyway). -/
def eqStrDoc : DynamicJSON → DynamicJSON → Bool
  | .mk none _ _ vs1, o =>
    match o with
    | .mk none _ _ vs2 => eqStrArr vs1 vs2
    | .mk (some _) _ _ _ => false
  | .mk (some ks1) oks1 _ vs1, o =>
    match o with
    | .mk none _ _ _ => false
    | .mk (some ks2) _ _ vs2 =>
      ks1.length = ks2.length && eqStrMapItems vs1 oks1 ks2 vs2.toList

def eqStrArr : ValList → ValList → Bool
  | .nil, .nil => true
  | .cons v1 r1, .cons v2 r2 => eqStrPair v1 v2 && eqStrArr r1 r2
  | _, _ => false

def eqStrMapItems : ValList → List Str → List (Str × Nat) → List GoAny → Bool
  | .nil, _, _, _ => true
  | .cons v rest, oks, ks2, vals2 =>
    if v.isDeletedEntry then eqStrMapItems rest oks.tail ks2 vals2
    else
      match lookupKey ks2 (oks.headD []) with
      | none => false
      | some inx =>
        match vals2.get? inx with
        | none => false
        | some v2 => eqStrPair v v2 && eqStrMapItems rest oks.tail ks2 vals2

def eqStrPair : GoAny → GoAny → Bool
  | .doc d1, v2 =>
    match v2 with
    | .doc d2 => eqStrDoc d1 d2
    | .nilDoc => false
    | w => scalar2str (.doc d1) == scalar2str w
  | .nilDoc, v2 =>
    match v2 with
    | .doc _ => false
    | .nilDoc => true
    | w => scalar2str .nilDoc == scalar2str w
  | v1, v2 => scalar2str v1 == scalar2str v2

end

/-- `IsEqualAsString` under its source name. -/
def DynamicJSON.IsEqualAsString (d o : DynamicJSON) : Bool := eqStrDoc d o

mutual

/-- `IsEqual` on non-nil documents: like `IsEqualAsString` but scalar pairs
compare with `reflect.DeepEqual`, i.e. structurally. -/
def isEqualDoc : DynamicJSON → DynamicJSON → Bool
  | .mk none _ _ vs1, o =>
    match o with
    | .mk none _ _ vs2 => isEqualArr vs1 vs2
    | .mk (some _) _ _ _ => false
  | .mk (some ks1) oks1 _ vs1, o =>
    match o with
    | .mk none _ _ _ => false
    | .mk (some ks2) _ _ vs2 =>
      ks1.length = ks2.length && isEqualMapItems vs1 oks1 ks2 vs2.toList

def isEqualArr : ValList → ValList → Bool
  | .nil, .nil => true
  | .cons v1 r1, .cons v2 r2 => isEqualPair v1 v2 && isEqualArr r1 r2
  | _, _ => false

def isEqualMapItems : ValList → List Str → List (Str × Nat) → List GoAny → Bool
  | .nil, _, _, _ => true
  | .cons v rest, oks, ks2, vals2 =>
    if v.isDeletedEntry then isEqualMapItems rest oks.tail ks2 vals2
    else
      match lookupKey ks2 (oks.headD []) with
      | none => false
      | some inx =>
        match vals2.get? inx with
        | none => false
        | some v2 => isEqualPair v v2 && isEqualMapItems rest oks.tail ks2 vals2

def isEqualPair : GoAny → GoAny → Bool
  | .doc d1, v2 =>
    match v2 with
    | .doc d2 => isEqualDoc d1 d2
    | _ => false
  | .nilDoc, v2 =>
    match v2 with
    | .nilDoc => true
    | _ => false
  | v1, v2 => beqVal v1 v2

end

/-- `IsEqual` under its source name. -/
def DynamicJSON.IsEqual (d o : DynamicJSON) : Bool := isEqualDoc d o

/-- Characters that may occur in JSON number text. -/
def isNumChar (c : Char) : Bool :=
  c.isDigit || c = '-' || c = '+' || c = '.' || c = 'e' || c = 'E'

/-- Exponent digits: optional sign then at least one digit. -/
def validExpDigits (r : Str) : Bool :=
  let r2 := match r with
    | '+' :: t => t
    | '-' :: t => t
    | _ => r
  r2 ≠ [] && r2.all Char.isDigit

/-- Optional exponent part of a JSON number. -/
def validExpPart : Str → Bool
  | [] => true
  | 'e' :: r => validExpDigits r
  | 'E' :: r => validExpDigits r
  | _ => false

/-- Optional fraction part (then exponent) of a JSON number. -/
def validFracPart : Str → Bool
  | '.' :: r => r.takeWhile Char.isDigit ≠ [] && validExpPart (r.dropWhile Char.isDigit)
  | s => validExpPart s

/-- The JSON number grammar: `-? (0 | [1-9][0-9]*) (. [0-9]+)? ([eE][+-]?[0-9]+)?`. -/
def validNumber (s : Str) : Bool :=
  let s1 := match s with
    | '-' :: r => r
    | _ => s
  match s1 with
  | [] => false
  | '0' :: r => validFracPart r
  | c :: _ => c.isDigit && validFracPart (s1.dropWhile Char.isDigit)

/-- JSON inter-token whitespace. -/
def isWs (c : Char) : Bool :=
  c = ' ' || c = '\t' || c = '\n' || c = '\r'

def skipWs (s : Str) : Str := s.dropWhile isWs

/-- Value of a hexadecimal digit character. -/
def hexVal (c : Char) : Option Nat :=
  if c.isDigit then some (c.toNat - 48)
  else if 'a' ≤ c ∧ c ≤ 'f' then some (c.toNat - 87)
  else if 'A' ≤ c ∧ c ≤ 'F' then some (c.toNat - 55)
  else none

/-- Code point to character; lone surrogates decode to U+FFFD as in the Go
unescaper (surrogate-pair recombination is not modelled — the serializer
never emits surrogate escapes). -/
def charOfCode (n : Nat) : Char :=
  if n.isValidChar then Char.ofNat n else '�'

/-- Modelled from the spec: the string-token scanner of the external
`njson` tokenizer (`github.com/segmentio/encoding/json`, not part of this
repository).  Reads a string body up to the closing quote: unescaped
characters are taken verbatim (the zero-copy `Unescaped` path), and escape
sequences `\" \\ \/ \n \r \t \b \f \uXXXX` are decoded; anything else is a
scan error. -/
def parseStrBody : Str → Option (Str × Str)
  | [] => none
  | '"' :: rest => some ([], rest)
  | '\\' :: rest =>
    match rest with
    | [] => none
    | e :: rest1 =>
      match e with
      | '"' => (parseStrBody rest1).map fun p => ('"' :: p.1, p.2)
      | '\\' => (parseStrBody rest1).map fun p => ('\\' :: p.1, p.2)
      | '/' => (parseStrBody rest1).map fun p => ('/' :: p.1, p.2)
      | 'n' => (parseStrBody rest1).map fun p => ('\n' :: p.1, p.2)
      | 'r' => (parseStrBody rest1).map fun p => ('\r' :: p.1, p.2)
      | 't' => (parseStrBody rest1).map fun p => ('\t' :: p.1, p.2)
      | 'b' => (parseStrBody rest1).map fun p => ('\x08' :: p.1, p.2)
      | 'f' => (parseStrBody rest1).map fun p => ('\x0c' :: p.1, p.2)
      | 'u' =>
        match rest1 with
        | h1 :: h2 :: h3 :: h4 :: rest2 =>
          match hexVal h1, hexVal h2, hexVal h3, hexVal h4 with
          | some a, some b, some c, some d =>
            (parseStrBody rest2).map fun p =>
              (charOfCode (((a * 16 + b) * 16 + c) * 16 + d) :: p.1, p.2)
          | _, _, _, _ => none
        | _ => none
      | _ => none
  | c :: rest => (parseStrBody rest).map fun p => (c :: p.1, p.2)

/-- Scan errors surfaced by `Parse`. -/
inductive ParseErr where
  | notMapOrArray
  | scanErr
  deriving DecidableEq

mutual

/-- Modelled from the spec: `token2value` driven by the external `njson`
tokenizer.  One JSON value is consumed after optional whitespace: an object
or array token recurses (objects insert through the internal map `set`,
accepting keys verbatim), string tokens unescape, `true`/`false`/`null` are
literals, and anything else must be number text, captured verbatim as a
`json.Number` span.  The fuel decreases on every nested value; a fuel of
`input length + 1` always suffices because each step consumes input. -/
def parseVal : Nat → Str → Option (GoAny × Str)
  | 0, _ => none
  | fuel + 1, s =>
    match skipWs s with
    | '\x7b' :: rest => (parseObjBody fuel NewMap rest).map fun p => (.doc p.1, p.2)
    | '[' :: rest => (parseArrBody fuel [] rest).map fun p => (.doc p.1, p.2)
    | '"' :: rest => (parseStrBody rest).map fun p => (.str p.1, p.2)
    | 't' :: 'r' :: 'u' :: 'e' :: rest => some (.boolean true, rest)
    | 'f' :: 'a' :: 'l' :: 's' :: 'e' :: rest => some (.boolean false, rest)
    | 'n' :: 'u' :: 'l' :: 'l' :: rest => some (.null, rest)
    | other =>
      let t := other.takeWhile isNumChar
      if validNumber t then some (.number t, other.dropWhile isNumChar) else none

def parseObjBody : Nat → DynamicJSON → Str → Option (DynamicJSON × Str)
  | 0, _, _ => none
  | fuel + 1, acc, s =>
    match skipWs s with
    | '\x7d' :: rest => some (acc, rest)
    | '"' :: rest =>
      match parseStrBody rest with
      | none => none
      | some (key, rest1) =>
        match skipWs rest1 with
        | ':' :: rest2 =>
          match parseVal fuel rest2 with
          | none => none
          | some (v, rest3) =>
            match skipWs rest3 with
            | ',' :: rest4 => parseObjBody fuel (acc.set key v).2 rest4
            | '\x7d' :: rest4 => some ((acc.set key v).2, rest4)
            | _ => none
        | _ => none
    | _ => none

def parseArrBody : Nat → List GoAny → Str → Option (DynamicJSON × Str)
  | 0, _, _ => none
  | fuel + 1, acc, s =>
    match skipWs s with
    | ']' :: rest => some (.mk none [] 0 (ValList.ofList acc), rest)
    | _ =>
      match parseVal fuel s with
      | none => none
      | some (v, rest1) =>
        match skipWs rest1 with
        | ',' :: rest2 => parseArrBody fuel (acc ++ [v]) rest2
        | ']' :: rest2 => some (.mk none [] 0 (ValList.ofList (acc ++ [v])), rest2)
        | _ => none

end

/-- `Parse`: the first token must open an object or an array, otherwise the
FormatError `notMapOrArray` is returned; then one value is built and any
scanner failure aborts the parse. -/
def Parse (data : Str) : Except ParseErr DynamicJSON :=
  let s := skipWs data
  match s with
  | '\x7b' :: _ =>
    match parseVal (s.length + 1) s with
    | some (.doc d, _) => .ok d
    | _ => .error .scanErr
  | '[' :: _ =>
    match parseVal (s.length + 1) s with
    | some (.doc d, _) => .ok d
    | _ => .error .scanErr
  | _ => .error .notMapOrArray

mutual

/-- The canonical image of a document under `Parse ∘ JSONLine`: arrays lose
their counter, maps are rebuilt from their live entries (dropping
tombstones) through the internal `set`, Go ints become verbatim number
text, and everything else survives unchanged. -/
def canonDoc : DynamicJSON → DynamicJSON
  | .mk none _ _ vs => .mk none [] 0 (canonArr vs)
  | .mk (some _) oks _ vs => canonMapEntries vs oks NewMap

def canonArr : ValList → ValList
  | .nil => .nil
  | .cons v r => .cons (canonVal v) (canonArr r)

def canonMapEntries : ValList → List Str → DynamicJSON → DynamicJSON
  | .nil, _, acc => acc
  | .cons v r, oks, acc =>
    if v.isDeletedEntry then canonMapEntries r oks.tail acc
    else canonMapEntries r oks.tail (acc.set (oks.headD []) (canonVal v)).2

def canonVal : GoAny → GoAny
  | .intV n => .number (intRepr n)
  | .doc d => .doc (canonDoc d)
  | .null => .null
  | .boolean b => .boolean b
  | .number s => .number s
  | .str s => .str s
  | .deletedEntry => .deletedEntry
  | .nilDoc => .doc NewMap

end

/-- Per-node key-index invariant of a map: `ordKeys` runs parallel to the
slots, the key index holds exactly one correctly-numbered entry per live
slot, and the live keys are distinct. -/
def wfMapNode (ks : List (Str × Nat)) (oks : List Str) (vals : List GoAny) : Bool :=
  (oks.length == vals.length) &&
    (let live := (vals.zip oks).enum.filter fun p => ¬ p.2.1.isDeletedEntry
     (ks.length == live.length) &&
       live.all (fun p => lookupKey ks p.2.2 == some p.1) &&
       decide (live.map fun p => p.2.2).Nodup)

mutual

/-- Well-formedness of a document as the public API builds it: maps satisfy
the key-index invariant and hold well-formed values (or tombstones) in their
slots; arrays hold well-formed values only; number text is valid JSON
number syntax; the tombstone sentinel and typed-nil children never appear
as values. -/
def wfDoc : DynamicJSON → Bool
  | .mk none _ _ vs => wfArr vs
  | .mk (some ks) oks _ vs => wfMapNode ks oks vs.toList && wfMapVals vs

def wfArr : ValList → Bool
  | .nil => true
  | .cons v r => wfVal v && wfArr r

def wfMapVals : ValList → Bool
  | .nil => true
  | .cons v r => (v.isDeletedEntry || wfVal v) && wfMapVals r

def wfVal : GoAny → Bool
  | .doc d => wfDoc d
  | .number s => validNumber s
  | .deletedEntry => false
  | .nilDoc => false
  | _ => true

end

/-- `Len` on a possibly-nil receiver (Go returns 0 for nil). -/
def Len (self : Option DynamicJSON) : Nat :=
  match self with
  | none => 0
  | some d => d.Len

/-- `Keys` on a possibly-nil receiver (Go returns nil for nil). -/
def Keys (self : Option DynamicJSON) : List Str :=
  match self with
  | none => []
  | some d => d.Keys

/-- `Freeze` on a possibly-nil receiver (Go returns at once for nil). -/
def Freeze (self : Option DynamicJSON) : Option DynamicJSON :=
  match self with
  | none => none
  | some d => some d.Freeze

mutual

/-- The document and every document reachable from it are frozen. -/
def allFrozenDoc : DynamicJSON → Bool
  | .mk _ _ ic vs => decide (ic < 0) && allFrozenList vs

def allFrozenList : ValList → Bool
  | .nil => true
  | .cons v r => allFrozenVal v && allFrozenList r

def allFrozenVal : GoAny → Bool
  | .doc d => allFrozenDoc d
  | _ => true

end

mutual

/-- Every frozen document reachable from here (itself included) is
hereditarily frozen.  Every state the API can produce satisfies this except
through `Append` on a frozen array, which smuggles unfrozen children into a
frozen document. -/
def frozenClosedDoc : DynamicJSON → Bool
  | .mk _ _ ic vs => (!decide (ic < 0) || allFrozenList vs) && frozenClosedList vs

def frozenClosedList : ValList → Bool
  | .nil => true
  | .cons v r => frozenClosedVal v && frozenClosedList r

def frozenClosedVal : GoAny → Bool
  | .doc d => frozenClosedDoc d
  | _ => true

end

mutual

/-- No document reachable from here (itself included) is frozen. -/
def unfrozenDeepDoc : DynamicJSON → Bool
  | .mk _ _ ic vs => decide (0 ≤ ic) && unfrozenDeepList vs

def unfrozenDeepList : ValList → Bool
  | .nil => true
  | .cons v r => unfrozenDeepVal v && unfrozenDeepList r

def unfrozenDeepVal : GoAny → Bool
  | .doc d => unfrozenDeepDoc d
  | _ => true

end

mutual

/-- Every live map key in the tree is nonempty and free of `/` (such keys
survive the path-based re-insertion `Clone` performs). -/
def goodKeysDoc : DynamicJSON → Bool
  | .mk none _ _ vs => goodKeysList vs
  | .mk (some _) oks _ vs => goodKeysMap vs oks

def goodKeysList : ValList → Bool
  | .nil => true
  | .cons v r => goodKeysVal v && goodKeysList r

def goodKeysMap : ValList → List Str → Bool
  | .nil, _ => true
  | .cons v r, oks =>
    if v.isDeletedEntry then goodKeysMap r oks.tail
    else
      (decide (oks.headD [] ≠ []) && !(oks.headD []).contains '/') &&
        goodKeysVal v && goodKeysMap r oks.tail

def goodKeysVal : GoAny → Bool
  | .doc d => goodKeysDoc d
  | _ => true

end

/-- The live `(key, canonical value)` pairs of a map in slot order. -/
def liveCanon : ValList → List Str → List (Str × GoAny)
  | .nil, _ => []
  | .cons v r, oks =>
    if v.isDeletedEntry then liveCanon r oks.tail
    else (oks.headD [], canonVal v) :: liveCanon r oks.tail

/-- The live `(key, value)` pairs of a map in slot order. -/
def livePairs : ValList → List Str → List (Str × GoAny)
  | .nil, _ => []
  | .cons v r, oks =>
    if v.isDeletedEntry then livePairs r oks.tail
    else (oks.headD [], v) :: livePairs r oks.tail

/-- Repeated internal `set` on an accumulator, as the parser and `canonDoc`
perform it. -/
def foldSet (acc : DynamicJSON) (es : List (Str × GoAny)) : DynamicJSON :=
  es.foldl (fun a p => (a.set p.1 p.2).2) acc

/-- The key index a freshly built map carries: key `k` at position `i`. -/
def enumIndex (es : List (Str × GoAny)) : List (Str × Nat) :=
  es.enum.map fun p => (p.2.1, p.1)

/-- The canonical shape of a map freshly built by `foldSet` from distinct
keys. -/
def canonForm (es : List (Str × GoAny)) : DynamicJSON :=
  .mk (some (enumIndex es)) (es.map Prod.fst) 0 (ValList.ofList (es.map Prod.snd))

/-! The development now turns to proofs.  The three `beq` characterizations
come first because the decidable-equality instances rest on them. -/

mutual

theorem beqVal_eq : ∀ a b, beqVal a b = true ↔ a = b
  | .null, b => by cases b <;> simp [beqVal]
  | .boolean x, b => by cases b <;> simp [beqVal]
  | .intV x, b => by cases b <;> simp [beqVal]
  | .number x, b => by cases b <;> simp [beqVal]
  | .str x, b => by cases b <;> simp [beqVal]
  | .doc d, b => by
    cases b <;> simp [beqVal]
    exact beqDoc_eq d _
  | .deletedEntry, b => by cases b <;> simp [beqVal]
  | .nilDoc, b => by cases b <;> simp [beqVal]

theorem beqList_eq : ∀ a b, beqList a b = true ↔ a = b
  | .nil, b => by cases b <;> simp [beqList]
  | .cons x xs, b => by
    cases b <;> simp [beqList]
    exact and_congr (beqVal_eq x _) (beqList_eq xs _)

theorem beqDoc_eq : ∀ a b, beqDoc a b = true ↔ a = b
  | .mk ks oks ic vs, .mk ks2 oks2 ic2 vs2 => by
    simp [beqDoc, and_assoc]
    intro _ _ _
    exact beqList_eq vs vs2

end

instance : DecidableEq GoAny := fun a b => decidable_of_iff _ (beqVal_eq a b)

instance : DecidableEq DynamicJSON := fun a b => decidable_of_iff _ (beqDoc_eq a b)

instance : DecidableEq ValList := fun a b => decidable_of_iff _ (beqList_eq a b)

instance : DecidableEq (Except ParseErr DynamicJSON) := fun a b =>
  match a, b with
  | .ok x, .ok y => decidable_of_iff (x = y) (by simp)
  | .error x, .error y => decidable_of_iff (x = y) (by simp)
  | .ok _, .error _ => isFalse (by simp)
  | .error _, .ok _ => isFalse (by simp)

@[simp] theorem DynamicJSON.keys_mk (ks oks ic vs) :
    (DynamicJSON.mk ks oks ic vs).keys = ks := rfl

@[simp] theorem DynamicJSON.ordKeys_mk (ks oks ic vs) :
    (DynamicJSON.mk ks oks ic vs).ordKeys = oks := rfl

@[simp] theorem DynamicJSON.iterCounter_mk (ks oks ic vs) :
    (DynamicJSON.mk ks oks ic vs).iterCounter = ic := rfl

@[simp] theorem DynamicJSON.values_mk (ks oks ic vs) :
    (DynamicJSON.mk ks oks ic vs).values = vs := rfl

@[simp] theorem ValList.toList_ofList : ∀ l : List GoAny, (ValList.ofList l).toList = l
  | [] => rfl
  | v :: vs => by simp [ValList.ofList, ValList.toList, ValList.toList_ofList vs]

@[simp] theorem ValList.ofList_toList : ∀ vs : ValList, ValList.ofList vs.toList = vs
  | .nil => rfl
  | .cons v vs => by simp [ValList.ofList, ValList.toList, ValList.ofList_toList vs]

@[simp] theorem DynamicJSON.vals_mk (ks oks ic vs) :
    (DynamicJSON.mk ks oks ic vs).vals = vs.toList := rfl

@[simp] theorem ValList.toList_nil : ValList.nil.toList = [] := rfl

@[simp] theorem ValList.toList_cons (v vs) :
    (ValList.cons v vs).toList = v :: vs.toList := rfl

theorem isFrozen_iff (d : DynamicJSON) : d.IsFrozen = true ↔ d.iterCounter < 0 := by
  simp [DynamicJSON.IsFrozen]

theorem lookupKey_insertKey_self (ks : List (Str × Nat)) (k : Str) (n : Nat) :
    lookupKey (insertKey ks k n) k = some n := by
  induction ks with
  | nil => simp [insertKey, lookupKey]
  | cons p rest ih =>
    by_cases h : p.1 = k
    · simp [insertKey, lookupKey, h]
    · simp [insertKey, lookupKey, h, ih]

theorem lookupKey_insertKey_ne (ks : List (Str × Nat)) {k k2 : Str} (n : Nat)
    (h : k2 ≠ k) : lookupKey (insertKey ks k2 n) k = lookupKey ks k := by
  induction ks with
  | nil => simp [insertKey, lookupKey, h]
  | cons p rest ih =>
    by_cases hp : p.1 = k2
    · simp [insertKey, lookupKey, hp, h]
    · simp [insertKey, lookupKey, hp, ih]

theorem lookupKey_eraseKey_ne (ks : List (Str × Nat)) {k k2 : Str}
    (h : k2 ≠ k) : lookupKey (eraseKey ks k2) k = lookupKey ks k := by
  induction ks with
  | nil => simp [eraseKey, lookupKey]
  | cons p rest ih =>
    by_cases hp : p.1 = k2
    · simp [eraseKey, lookupKey, hp, h]
    · simp [eraseKey, lookupKey, hp, ih]

theorem lookupKey_eraseKey_self (ks : List (Str × Nat)) (k : Str)
    (h : (ks.map Prod.fst).Nodup) : lookupKey (eraseKey ks k) k = none := by
  induction ks with
  | nil => simp [eraseKey, lookupKey]
  | cons p rest ih =>
    simp only [List.map_cons, List.nodup_cons] at h
    by_cases hp : p.1 = k
    · subst hp
      cases hr : lookupKey rest p.1 with
      | none => simp [eraseKey, hr]
      | some n =>
        exfalso
        have : p.1 ∈ rest.map Prod.fst := by
          clear ih h
          induction rest with
          | nil => simp [lookupKey] at hr
          | cons q rr ihh =>
            by_cases hq : q.1 = p.1
            · simp [hq]
            · simp [lookupKey, hq] at hr
              simpa using Or.inr (ihh hr)
        exact h.1 this
    · simp [eraseKey, lookupKey, hp, ih h.2]

theorem lookupKey_none_of_not_mem (ks : List (Str × Nat)) (k : Str)
    (h : k ∉ ks.map Prod.fst) : lookupKey ks k = none := by
  induction ks with
  | nil => rfl
  | cons p rest ih =>
    simp only [List.map_cons, List.mem_cons] at h
    push_neg at h
    have hp : p.1 ≠ k := Ne.symm h.1
    simp [lookupKey, hp, ih h.2]

theorem lookupKey_mem_of_some {ks : List (Str × Nat)} {k : Str} {n : Nat}
    (h : lookupKey ks k = some n) : k ∈ ks.map Prod.fst := by
  induction ks with
  | nil => simp [lookupKey] at h
  | cons p rest ih =>
    by_cases hp : p.1 = k
    · simp [hp]
    · simp only [lookupKey, hp, if_false] at h
      simpa using Or.inr (ih h)

theorem list_set_get?_eq {α : Type} {l : List α} {i : Nat} {a : α}
    (h : l.get? i = some a) : l.set i a = l := by
  induction l generalizing i with
  | nil => simp at h
  | cons x xs ih =>
    cases i with
    | zero =>
      simp only [List.get?_cons_zero, Option.some.injEq] at h
      subst h
      rfl
    | succ j =>
      simp only [List.get?_cons_succ] at h
      simp only [List.set_cons_succ, ih h]

theorem replicate_set_last {α : Type} (x v : α) :
    ∀ i, (List.replicate (i + 1) x).set i v = List.replicate i x ++ [v]
  | 0 => rfl
  | j + 1 => by
    have h1 := replicate_set_last x v j
    rw [List.replicate_succ, List.set_cons_succ, h1,
      List.replicate_succ, List.cons_append]

theorem zero_extend_set {α : Type} (l : List α) (x v : α) {i : Nat}
    (h : l.length ≤ i) :
    (l ++ List.replicate (i - l.length + 1) x).set i v =
      l ++ List.replicate (i - l.length) x ++ [v] := by
  induction l generalizing i with
  | nil =>
    simpa using replicate_set_last x v i
  | cons y ys ih =>
    cases i with
    | zero => simp at h
    | succ j =>
      simp only [List.length_cons] at h
      have := ih (Nat.le_of_succ_le_succ h)
      simp only [List.length_cons, List.cons_append, Nat.succ_sub_succ,
        List.set_cons_succ, this]

/-- C1, counterexample: `Append` performs no frozen check.  A frozen empty
array accepts an appended value — no error is signalled (`Append` returns
nothing at all) and the length changes from 0 to 1. -/
theorem c1_append_frozen_counterexample :
    NewArray.Freeze.IsFrozen = true ∧ NewArray.Freeze.Len = 0 ∧
      (NewArray.Freeze.Append .null).Len = 1 ∧
      (NewArray.Freeze.Append .null).IsFrozen = true := by decide

/-- C1, amended: on a frozen document, `set`, `SetI` and `Delete` fail with
the FrozenError and leave the document (entries, order, length) unchanged,
and the path-based `Set` leaves the document unchanged (its error is only
logged); `Append`, however, performs no frozen check: on a frozen array it
silently appends the value. -/
theorem c1_frozen_mutations (d : DynamicJSON) (h : d.IsFrozen = true)
    (k path : Str) (i : Int) (v : GoAny) :
    d.set k v = (some .frozenErr, d) ∧
    d.SetI i v = (some .frozenErr, d) ∧
    Delete (some d) path = (some .frozenErr, some d) ∧
    Set (some d) path v = some d ∧
    (d.IsArray = true →
      d.Append v = .mk d.keys d.ordKeys d.iterCounter (ValList.ofList (d.vals ++ [v]))) := by
  have hlt : d.iterCounter < 0 := (isFrozen_iff d).mp h
  refine ⟨?_, ?_, ?_, ?_, ?_⟩
  · simp [DynamicJSON.set, hlt]
  · simp [DynamicJSON.SetI, hlt]
  · simp [Delete, deleteF, hlt]
  · simp [Set, doOp, hlt]
  · intro hA
    simp [DynamicJSON.Append, hA]

mutual

theorem freeze_allFrozenDoc : ∀ d, frozenClosedDoc d = true → allFrozenDoc (freezeDoc d) = true
  | .mk ks oks ic vs, h => by
    simp only [frozenClosedDoc, Bool.and_eq_true, Bool.or_eq_true,
      Bool.not_eq_true', decide_eq_false_iff_not] at h
    by_cases hic : ic < 0
    · have hvs : allFrozenList vs = true := by
        rcases h.1 with h1 | h1
        · exact absurd hic h1
        · exact h1
      simp [freezeDoc, if_pos hic, allFrozenDoc, hic, hvs]
    · simp only [freezeDoc, if_neg hic, allFrozenDoc, Bool.and_eq_true]
      exact ⟨by decide, freeze_allFrozenList vs h.2⟩

theorem freeze_allFrozenList : ∀ vs, frozenClosedList vs = true →
    allFrozenList (freezeList vs) = true
  | .nil, _ => rfl
  | .cons v r, h => by
    simp only [frozenClosedList, Bool.and_eq_true] at h
    simp only [freezeList, allFrozenList, Bool.and_eq_true]
    exact ⟨freeze_allFrozenVal v h.1, freeze_allFrozenList r h.2⟩

theorem freeze_allFrozenVal : ∀ v, frozenClosedVal v = true →
    allFrozenVal (freezeVal v) = true
  | .doc d, h => freeze_allFrozenDoc d h
  | .null, _ => rfl
  | .boolean _, _ => rfl
  | .intV _, _ => rfl
  | .number _, _ => rfl
  | .str _, _ => rfl
  | .deletedEntry, _ => rfl
  | .nilDoc, _ => rfl

end

theorem freeze_isFrozen (d : DynamicJSON) : d.Freeze.IsFrozen = true := by
  obtain ⟨ks, oks, ic, vs⟩ := d
  by_cases hic : ic < 0
  · simp [DynamicJSON.Freeze, freezeDoc, hic, DynamicJSON.IsFrozen]
  · simp [DynamicJSON.Freeze, freezeDoc, hic, DynamicJSON.IsFrozen]

/-- C5, counterexample: `Append` on a frozen array inserts an unfrozen
child; `Freeze` then returns at once because the receiver is already
frozen, so the reachable child map stays unfrozen — the document is frozen
yet not hereditarily frozen even right after `Freeze`. -/
theorem c5_freeze_skips_frozen_counterexample :
    (NewArray.Freeze.Append (.doc NewMap)).Freeze = NewArray.Freeze.Append (.doc NewMap) ∧
    (NewArray.Freeze.Append (.doc NewMap)).IsFrozen = true ∧
    (NewArray.Freeze.Append (.doc NewMap)).vals = [.doc NewMap] ∧
    NewMap.IsFrozen = false ∧
    allFrozenDoc (NewArray.Freeze.Append (.doc NewMap)).Freeze = false := by decide

/-- C5, amended: provided no already-frozen subdocument hides an unfrozen
descendant (the only way to build one is `Append` on a frozen array),
`Freeze` leaves the document and every reachable document frozen, and
freezing is irreversible: every modelled operation applied to a frozen
document yields a frozen document — `Freeze`, `set`, `SetI`, `Delete`,
`Set`, `Clear` and `packing` leave it entirely unchanged, and even the
unguarded `Append` preserves the frozen mark.  (The marking order — children
before the receiver — is not observable in a pure model.) -/
theorem c5_freeze_recursive (d : DynamicJSON) (h : frozenClosedDoc d = true)
    (k path : Str) (i : Int) (v : GoAny) :
    allFrozenDoc d.Freeze = true ∧
    d.Freeze.IsFrozen = true ∧
    (∀ d2 : DynamicJSON, d2.IsFrozen = true →
      d2.Freeze = d2 ∧ (d2.set k v).2 = d2 ∧ (d2.SetI i v).2 = d2 ∧
      (Delete (some d2) path).2 = some d2 ∧ Set (some d2) path v = some d2 ∧
      d2.Clear = d2 ∧ d2.packing = d2 ∧ (d2.Append v).IsFrozen = true) := by
  refine ⟨freeze_allFrozenDoc d h, freeze_isFrozen d, ?_⟩
  intro d2 h2
  have hlt : d2.iterCounter < 0 := (isFrozen_iff d2).mp h2
  obtain ⟨ks, oks, ic, vs⟩ := d2
  simp only [DynamicJSON.iterCounter_mk] at hlt
  refine ⟨?_, ?_, ?_, ?_, ?_, ?_, ?_, ?_⟩
  · simp [DynamicJSON.Freeze, freezeDoc, hlt]
  · simp [DynamicJSON.set, hlt]
  · simp [DynamicJSON.SetI, hlt]
  · simp [Delete, deleteF, hlt]
  · simp [Set, doOp, hlt]
  · simp [DynamicJSON.Clear, hlt]
  · cases ks with
    | none => simp [DynamicJSON.packing]
    | some ks0 => simp [DynamicJSON.packing, show ic ≠ 0 by omega]
  · cases ks with
    | none => simp [DynamicJSON.Append, DynamicJSON.IsArray, DynamicJSON.IsFrozen, hlt]
    | some ks0 => simp [DynamicJSON.Append, DynamicJSON.IsArray, DynamicJSON.IsFrozen, hlt]

/-- C5, witness. -/
theorem c5_freeze_recursive_witness :
    allFrozenDoc NewMap.Freeze = true ∧
    NewMap.Freeze.IsFrozen = true ∧
    (∀ d2 : DynamicJSON, d2.IsFrozen = true →
      d2.Freeze = d2 ∧ (d2.set ['a'] .null).2 = d2 ∧ (d2.SetI 0 .null).2 = d2 ∧
      (Delete (some d2) ['a']).2 = some d2 ∧ Set (some d2) ['a'] .null = some d2 ∧
      d2.Clear = d2 ∧ d2.packing = d2 ∧ (d2.Append .null).IsFrozen = true) :=
  c5_freeze_recursive NewMap (by decide) ['a'] ['a'] 0 .null

theorem doOpLoop_none_nonslash : ∀ (fuel : Nat) (path : Str) (v : GoAny),
    path.length < fuel → (∃ c ∈ path, c ≠ '/') →
    doOpLoopF fuel none path false false v = (none, none)
  | fuel + 1, path, v, hf, hc => by
    match path with
    | [] => simp at hc
    | p :: rest =>
      by_cases hp : p = '/'
      · subst hp
        have hlen : rest.length < fuel := by
          simpa using Nat.lt_of_succ_lt_succ hf
        have hc2 : ∃ c ∈ rest, c ≠ '/' := by
          rcases hc with ⟨c, hcmem, hcne⟩
          rcases List.mem_cons.mp hcmem with h1 | h1
          · exact absurd h1 hcne
          · exact ⟨c, h1, hcne⟩
        have ih := doOpLoop_none_nonslash fuel rest v hlen hc2
        simp [doOpLoopF, List.takeWhile_cons, List.dropWhile_cons, ih]
      · simp [doOpLoopF, List.takeWhile_cons, List.dropWhile_cons, hp, levelGet]
        split <;> rfl

theorem doOpLoop_none_result : ∀ (fuel : Nat) (path : Str) (v : GoAny),
    path.length < fuel →
    doOpLoopF fuel none path false false v = (none, none) ∨
      doOpLoopF fuel none path false false v = (some .nilDoc, none)
  | fuel + 1, path, v, hf => by
    match path with
    | [] => right; simp [doOpLoopF]
    | p :: rest =>
      by_cases hp : p = '/'
      · subst hp
        have hlen : rest.length < fuel := by
          simpa using Nat.lt_of_succ_lt_succ hf
        have ih := doOpLoop_none_result fuel rest v hlen
        rcases ih with ih | ih
        · left
          simp [doOpLoopF, List.takeWhile_cons, List.dropWhile_cons, ih]
        · right
          simp [doOpLoopF, List.takeWhile_cons, List.dropWhile_cons, ih]
      · left
        simp [doOpLoopF, List.takeWhile_cons, List.dropWhile_cons, hp, levelGet]
        split <;> rfl

/-- C9, counterexample: `Fetch` (and `Get`) on a nil document with an empty
path return the nil document itself — `Fetch` even reports it as present —
rather than the zero results `(nil, false)`/`nil`. -/
theorem c9_fetch_nil_counterexample :
    Fetch none [] = (some .nilDoc, true) ∧ Get none [] = some .nilDoc := by decide

/-- C9, amended: on a nil document every listed operation returns the
zero/default result — except that `Get` and `Fetch` with a path consisting
solely of slashes (the empty path included) resolve to the nil document
itself, `Fetch` reporting it as present.  For paths containing at least one
non-slash character `Get` and `Fetch` also return the zero results, and
none of these operations panics (all are total in the model). -/
theorem c9_nil_receiver (path : Str) (i : Int) (b : Bool) (s : Str) (q : ℚ)
    (hc : ∃ c ∈ path, c ≠ '/') :
    Get none path = none ∧ Fetch none path = (none, false) ∧
    (∀ p : Str, Has none p = false ∧ Delete none p = (none, none) ∧
      Nested none p = none ∧ GetInt none p i = i ∧ GetBool none p b = b ∧
      GetString none p s = s ∧ GetFloat none p q = q) ∧
    Len none = 0 ∧ Keys none = [] ∧ Iterate none = [] ∧ Visit none = [] ∧
    Freeze none = none ∧ Clone none = none := by
  have hmain := doOpLoop_none_nonslash (path.length + 1) path .null
    (Nat.lt_succ_self _) hc
  refine ⟨?_, ?_, ?_, rfl, rfl, rfl, rfl, rfl, rfl⟩
  · simp [Get, doOp, hmain]
  · simp [Fetch, doOp, hmain]
  · intro p
    have h2 := doOpLoop_none_result (p.length + 1) p .null (Nat.lt_succ_self _)
    refine ⟨?_, rfl, ?_, ?_, ?_, ?_, ?_⟩
    · simp [Has, hasF]
    · rcases h2 with h2 | h2 <;> simp [Nested, doOp, h2]
    · rcases h2 with h2 | h2 <;> simp [GetInt, doOp, h2, value2int]
    · rcases h2 with h2 | h2 <;> simp [GetBool, doOp, h2]
    · rcases h2 with h2 | h2 <;> simp [GetString, doOp, h2, value2string]
    · rcases h2 with h2 | h2 <;> simp [GetFloat, doOp, h2]

/-- C9, witness. -/
theorem c9_nil_receiver_witness :
    Get none ['a'] = none ∧ Fetch none ['a'] = (none, false) ∧
    (∀ p : Str, Has none p = false ∧ Delete none p = (none, none) ∧
      Nested none p = none ∧ GetInt none p 7 = 7 ∧ GetBool none p true = true ∧
      GetString none p ['z'] = ['z'] ∧ GetFloat none p 0 = 0) ∧
    Len none = 0 ∧ Keys none = [] ∧ Iterate none = [] ∧ Visit none = [] ∧
    Freeze none = none ∧ Clone none = none :=
  c9_nil_receiver ['a'] 7 true ['z'] 0 ⟨'a', by decide⟩

theorem isArray_iff (d : DynamicJSON) : d.IsArray = true ↔ d.keys = none := by
  simp [DynamicJSON.IsArray, Option.isNone_iff_eq_none]

theorem isFrozen_false_iff (d : DynamicJSON) :
    d.IsFrozen = false ↔ ¬d.iterCounter < 0 := by
  simp [DynamicJSON.IsFrozen]

theorem key2IndexLoop_all_digits : ∀ (s : Str) (n : Nat),
    (∀ c ∈ s, c.isDigit = true) →
    key2IndexLoop s n = Int.ofNat (s.foldl (fun m c => m * 10 + (c.toNat - 48)) n)
  | [], _, _ => rfl
  | c :: r, n, h => by
    have hc := h c (List.mem_cons_self c r)
    have ih := key2IndexLoop_all_digits r (n * 10 + (c.toNat - 48))
      fun x hx => h x (List.mem_cons_of_mem c hx)
    simp [key2IndexLoop, hc, ih, List.foldl_cons]

theorem key2IndexLoop_nondigit : ∀ (s : Str) (n : Nat),
    (∃ c ∈ s, c.isDigit = false) → key2IndexLoop s n = -1
  | c :: r, n, ⟨w, hw, hwd⟩ => by
    by_cases hc : c.isDigit = true
    · have hwr : w ∈ r := by
        rcases List.mem_cons.mp hw with h1 | h1
        · rw [h1] at hwd; rw [hwd] at hc; exact absurd hc (by simp)
        · exact h1
      simp [key2IndexLoop, hc, key2IndexLoop_nondigit r _ ⟨w, hwr, hwd⟩]
    · simp only [Bool.not_eq_true] at hc
      simp [key2IndexLoop, hc]

theorem key2Index_nonneg_iff (k : Str) :
    (0 ≤ key2Index k ↔ 0 < k.length ∧ k.length < 10 ∧ ∀ c ∈ k, c.isDigit = true) ∧
      (0 ≤ key2Index k → key2Index k = Int.ofNat (natOfDigits k)) := by
  by_cases hlen : 0 < k.length ∧ k.length < 10
  · by_cases hdig : ∀ c ∈ k, c.isDigit = true
    · have h1 : key2Index k = Int.ofNat (natOfDigits k) := by
        simp [key2Index, hlen, key2IndexLoop_all_digits k 0 hdig, natOfDigits]
      constructor
      · rw [h1]
        exact ⟨fun _ => ⟨hlen.1, hlen.2, hdig⟩, fun _ => by simp⟩
      · intro _; exact h1
    · have hex : ∃ c ∈ k, c.isDigit = false := by
        push_neg at hdig
        rcases hdig with ⟨c, hc1, hc2⟩
        exact ⟨c, hc1, by simpa using hc2⟩
      have h1 : key2Index k = -1 := by
        simp [key2Index, hlen, key2IndexLoop_nondigit k 0 hex]
      constructor
      · rw [h1]
        constructor
        · intro h; exact absurd h (by decide)
        · intro h; exact absurd h.2.2 hdig
      · intro h; rw [h1] at h; exact absurd h (by decide)
  · have h1 : key2Index k = -1 := by simp [key2Index, hlen]
    constructor
    · rw [h1]
      constructor
      · intro h; exact absurd h (by decide)
      · intro h; exact absurd ⟨h.1, h.2.1⟩ hlen
    · intro h; rw [h1] at h; exact absurd h (by decide)

/-- C7: on an unfrozen array, a key that does not parse as a non-negative
integer (per `key2Index`: one to nine ASCII digits) is refused with the
InvalidOperation error and the array is unchanged, while a parseable key
`i` stores the value at position `i` — in place when `i` is in range,
otherwise zero-extending with nulls up to and including `i`.  The final
conjunct pins down what "parseable as a non-negative integer" means. -/
theorem c7_array_set (d : DynamicJSON) (hA : d.IsArray = true)
    (hF : d.IsFrozen = false) (k : Str) (v : GoAny) :
    (key2Index k < 0 → d.set k v = (some .arrayKeyErr, d)) ∧
    (∀ i : Nat, key2Index k = Int.ofNat i →
      (d.set k v).1 = none ∧
      (d.vals.length ≤ i →
        (d.set k v).2.vals = d.vals ++ List.replicate (i - d.vals.length) .null ++ [v]) ∧
      (i < d.vals.length → (d.set k v).2.vals = d.vals.set i v) ∧
      (d.set k v).2.keys = d.keys ∧
      (d.set k v).2.iterCounter = d.iterCounter) ∧
    (0 ≤ key2Index k ↔ 0 < k.length ∧ k.length < 10 ∧ ∀ c ∈ k, c.isDigit = true) ∧
    (0 ≤ key2Index k → key2Index k = Int.ofNat (natOfDigits k)) := by
  have hk : d.keys = none := (isArray_iff d).mp hA
  have hic : ¬d.iterCounter < 0 := (isFrozen_false_iff d).mp hF
  refine ⟨?_, ?_, (key2Index_nonneg_iff k).1, (key2Index_nonneg_iff k).2⟩
  · intro hneg
    cases hki : key2Index k with
    | ofNat i => rw [hki] at hneg; exact absurd hneg (by simp)
    | negSucc m => simp [DynamicJSON.set, hic, hk, hki]
  · intro i hki
    refine ⟨?_, ?_, ?_, ?_, ?_⟩
    · by_cases hrange : d.vals.length ≤ i <;>
        simp [DynamicJSON.set, hic, hk, hki, hrange]
    · intro hle
      simp [DynamicJSON.set, hic, hk, hki, hle, replicate_set_last]
    · intro hlt
      simp [DynamicJSON.set, hic, hk, hki, Nat.not_le.mpr hlt]
    · by_cases hrange : d.vals.length ≤ i <;>
        simp [DynamicJSON.set, hic, hk, hki, hrange]
    · by_cases hrange : d.vals.length ≤ i <;>
        simp [DynamicJSON.set, hic, hk, hki, hrange]

/-- C7, witness. -/
theorem c7_array_set_witness :
    ((key2Index ['x'] < 0 → NewArray.set ['x'] .null = (some .arrayKeyErr, NewArray)) ∧
      (∀ i : Nat, key2Index ['x'] = Int.ofNat i →
        (NewArray.set ['x'] .null).1 = none ∧
        (NewArray.vals.length ≤ i →
          (NewArray.set ['x'] .null).2.vals =
            NewArray.vals ++ List.replicate (i - NewArray.vals.length) .null ++ [.null]) ∧
        (i < NewArray.vals.length →
          (NewArray.set ['x'] .null).2.vals = NewArray.vals.set i .null) ∧
        (NewArray.set ['x'] .null).2.keys = NewArray.keys ∧
        (NewArray.set ['x'] .null).2.iterCounter = NewArray.iterCounter) ∧
      (0 ≤ key2Index ['x'] ↔
        0 < (['x'] : Str).length ∧ (['x'] : Str).length < 10 ∧
          ∀ c ∈ (['x'] : Str), c.isDigit = true) ∧
      (0 ≤ key2Index ['x'] → key2Index ['x'] = Int.ofNat (natOfDigits ['x']))) ∧
    (NewArray.set ['2'] (.intV 5)).2.vals = [.null, .null, .intV 5] :=
  ⟨c7_array_set NewArray (by decide) (by decide) ['x'] .null, by decide⟩

theorem liveKeysOf_mem : ∀ (vals : List GoAny) (oks : List Str) (inx : Nat)
    (w : GoAny) (k : Str), vals.get? inx = some w → w.isDeletedEntry = false →
    oks.get? inx = some k → k ∈ liveKeysOf vals oks
  | [], _, inx, _, _, hv, _, _ => by simp at hv
  | _ :: _, [], inx, _, _, _, _, hk => by simp at hk
  | x :: rv, k0 :: rok, 0, w, k, hv, hw, hk => by
    simp only [List.get?_cons_zero, Option.some.injEq] at hv hk
    subst hv; subst hk
    simp [liveKeysOf, hw]
  | x :: rv, k0 :: rok, inx + 1, w, k, hv, hw, hk => by
    simp only [List.get?_cons_succ] at hv hk
    have ih := liveKeysOf_mem rv rok inx w k hv hw hk
    by_cases hx : x.isDeletedEntry
    · simpa [liveKeysOf, hx] using ih
    · simpa [liveKeysOf, hx] using Or.inr ih

theorem liveKeysOf_set_live : ∀ (vals : List GoAny) (oks : List Str) (inx : Nat)
    (w v : GoAny), vals.get? inx = some w → w.isDeletedEntry = false →
    v.isDeletedEntry = false →
    liveKeysOf (vals.set inx v) oks = liveKeysOf vals oks
  | [], _, inx, _, _, hv, _, _ => by simp at hv
  | _ :: _, [], inx, _, _, _, _, _ => by simp [liveKeysOf]
  | x :: rv, k0 :: rok, 0, w, v, hv, hw, hvl => by
    simp only [List.get?_cons_zero, Option.some.injEq] at hv
    subst hv
    simp [liveKeysOf, hw, hvl]
  | x :: rv, k0 :: rok, inx + 1, w, v, hv, hw, hvl => by
    simp only [List.get?_cons_succ] at hv
    have ih := liveKeysOf_set_live rv rok inx w v hv hw hvl
    by_cases hx : x.isDeletedEntry
    · simp [liveKeysOf, List.set_cons_succ, hx]
      simpa [liveKeysOf] using ih
    · simp [liveKeysOf, List.set_cons_succ, hx]
      simpa [liveKeysOf] using ih

theorem liveKeysOf_cons_deleted (x : GoAny) (rv : List GoAny) (k0 : Str)
    (rok : List Str) (hx : x.isDeletedEntry = true) :
    liveKeysOf (x :: rv) (k0 :: rok) = liveKeysOf rv rok := by
  simp [liveKeysOf, hx]

theorem liveKeysOf_cons_live (x : GoAny) (rv : List GoAny) (k0 : Str)
    (rok : List Str) (hx : x.isDeletedEntry = false) :
    liveKeysOf (x :: rv) (k0 :: rok) = k0 :: liveKeysOf rv rok := by
  simp [liveKeysOf, hx]

theorem filter_ne_cons_drop {α : Type} [DecidableEq α] (a : α) (l : List α)
    (h : a ∉ l) : (a :: l).filter (fun x => x ≠ a) = l := by
  have h1 : (a :: l).filter (fun x => x ≠ a) = l.filter (fun x => x ≠ a) := by simp
  rw [h1]
  apply List.filter_eq_self.mpr
  intro b hb
  by_cases e : b = a
  · exact absurd (e ▸ hb) h
  · simp [e]

theorem filter_ne_cons_keep {α : Type} [DecidableEq α] (a c : α) (l : List α)
    (h : c ≠ a) : (c :: l).filter (fun x => x ≠ a) = c :: l.filter (fun x => x ≠ a) := by
  simp [List.filter_cons, h]

theorem liveKeysOf_set_deleted : ∀ (vals : List GoAny) (oks : List Str) (inx : Nat)
    (w : GoAny) (k : Str), vals.get? inx = some w → w.isDeletedEntry = false →
    oks.get? inx = some k → (liveKeysOf vals oks).Nodup →
    liveKeysOf (vals.set inx .deletedEntry) oks =
      (liveKeysOf vals oks).filter (fun x => x ≠ k)
  | [], _, inx, _, _, hv, _, _, _ => by simp at hv
  | _ :: _, [], inx, _, _, _, _, hk, _ => by simp at hk
  | x :: rv, k0 :: rok, 0, w, k, hv, hw, hk, hnd => by
    simp only [List.get?_cons_zero, Option.some.injEq] at hv hk
    subst hv; subst hk
    rw [liveKeysOf_cons_live x rv k0 rok hw] at hnd
    have hnd2 : k0 ∉ liveKeysOf rv rok := (List.nodup_cons.mp hnd).1
    rw [List.set_cons_zero, liveKeysOf_cons_deleted GoAny.deletedEntry rv k0 rok rfl,
      liveKeysOf_cons_live x rv k0 rok hw]
    exact (filter_ne_cons_drop k0 _ hnd2).symm
  | x :: rv, k0 :: rok, inx + 1, w, k, hv, hw, hk, hnd => by
    simp only [List.get?_cons_succ] at hv hk
    by_cases hx : x.isDeletedEntry = true
    · rw [liveKeysOf_cons_deleted x rv k0 rok hx] at hnd
      have ih := liveKeysOf_set_deleted rv rok inx w k hv hw hk hnd
      rw [List.set_cons_succ, liveKeysOf_cons_deleted x _ k0 rok hx,
        liveKeysOf_cons_deleted x rv k0 rok hx]
      exact ih
    · simp only [Bool.not_eq_true] at hx
      rw [liveKeysOf_cons_live x rv k0 rok hx] at hnd
      have hmem := liveKeysOf_mem rv rok inx w k hv hw hk
      have hk0 : k0 ≠ k := fun h => (List.nodup_cons.mp hnd).1 (h ▸ hmem)
      have ih := liveKeysOf_set_deleted rv rok inx w k hv hw hk (List.nodup_cons.mp hnd).2
      rw [List.set_cons_succ, liveKeysOf_cons_live x _ k0 rok hx,
        liveKeysOf_cons_live x rv k0 rok hx, ih, filter_ne_cons_keep k k0 _ hk0]

theorem liveKeysOf_append_live (vals : List GoAny) (oks : List Str) (v : GoAny)
    (k : Str) (hlen : vals.length = oks.length) (hv : v.isDeletedEntry = false) :
    liveKeysOf (vals ++ [v]) (oks ++ [k]) = liveKeysOf vals oks ++ [k] := by
  simp only [liveKeysOf, List.zip_append hlen]
  simp [List.filter_append, hv]

theorem packing_small (ks : List (Str × Nat)) (oks : List Str) (ic : Int)
    (vs : ValList) (h : vs.toList.length < 128) :
    (DynamicJSON.mk (some ks) oks ic vs).packing = .mk (some ks) oks ic vs := by
  by_cases hz : ic = 0
  · simp only [DynamicJSON.packing, DynamicJSON.keys_mk, DynamicJSON.iterCounter_mk,
      DynamicJSON.vals_mk, hz]
    rw [if_neg (by omega : ¬(0 : Int) ≠ 0),
      if_neg (fun hc => (Nat.not_le.mpr h) hc.1)]
  · simp [DynamicJSON.packing, hz]

/-- C6: map iteration order is the insertion order of the live keys.
Updating an existing live key rewrites its slot in place and leaves the key
order unchanged; deleting a key and re-inserting it moves it to the end.
The first two conjuncts are the concrete `a,b,c` scenarios of the spec, the
rest is the general statement for any well-indexed map document. -/
theorem c6_iteration_order (d : DynamicJSON) (ks : List (Str × Nat)) (k : Str)
    (v w : GoAny) (inx : Nat)
    (hkeys : d.keys = some ks) (hlen : d.ordKeys.length = d.vals.length)
    (hnodupIdx : (ks.map Prod.fst).Nodup)
    (hnodupLive : (liveKeysOf d.vals d.ordKeys).Nodup)
    (hlook : lookupKey ks k = some inx)
    (hval : d.vals.get? inx = some w) (hw : w.isDeletedEntry = false)
    (hok : d.ordKeys.get? inx = some k)
    (hv : v.isDeletedEntry = false)
    (hic : d.IsFrozen = false) (hsmall : d.vals.length < 128)
    (hns : '/' ∉ k) :
    ((Set (Set (Set (Set (some NewMap) ['a'] (.intV 1)) ['b'] (.intV 2))
        ['c'] (.intV 3)) ['b'] (.intV 9)).map DynamicJSON.Keys =
      some [['a'], ['b'], ['c']]) ∧
    ((Set ((Delete (Set (Set (Set (some NewMap) ['a'] (.intV 1)) ['b'] (.intV 2))
        ['c'] (.intV 3)) ['b']).2) ['b'] (.intV 9)).map DynamicJSON.Keys =
      some [['a'], ['c'], ['b']]) ∧
    (d.set k v).2.Keys = d.Keys ∧
    ((deleteF (k.length + 1) d k).2.set k v).2.Keys = d.Keys.erase k ++ [k] := by
  have hic2 : ¬d.iterCounter < 0 := (isFrozen_false_iff d).mp hic
  obtain ⟨ks0, oks, ic, vs⟩ := d
  simp only [DynamicJSON.keys_mk] at hkeys
  subst hkeys
  simp only [DynamicJSON.ordKeys_mk, DynamicJSON.vals_mk, DynamicJSON.iterCounter_mk] at *
  refine ⟨by decide, by decide, ?_, ?_⟩
  · -- update in place
    simp only [DynamicJSON.set, DynamicJSON.iterCounter_mk, DynamicJSON.keys_mk,
      DynamicJSON.vals_mk, DynamicJSON.ordKeys_mk, hic2, if_false, hlook]
    simp only [DynamicJSON.Keys, DynamicJSON.keys_mk, DynamicJSON.vals_mk,
      DynamicJSON.ordKeys_mk]
    rw [ValList.toList_ofList]
    rw [list_set_get?_eq hok]
    exact liveKeysOf_set_live _ _ inx w v hval hw hv
  · -- delete then re-insert
    have hdw : (k.dropWhile fun x => decide ¬x = '/') = [] := by
      rw [List.dropWhile_eq_nil_iff]
      intro x hx
      simp only [decide_eq_true_eq]
      intro hx2
      exact hns (hx2 ▸ hx)
    have hdel : (deleteF (k.length + 1) (DynamicJSON.mk (some ks) oks ic vs) k).2 =
        (DynamicJSON.mk (some (eraseKey ks k)) oks ic
          (ValList.ofList (vs.toList.set inx .deletedEntry))).packing := by
      simp only [deleteF, DynamicJSON.iterCounter_mk, hic2, if_false]
      rw [hdw]
      simp [hlook]
    have hpack := packing_small (eraseKey ks k) oks ic
      (ValList.ofList (vs.toList.set inx .deletedEntry))
      (by simpa using hsmall)
    rw [hdel, hpack]
    have hlook2 : lookupKey (eraseKey ks k) k = none :=
      lookupKey_eraseKey_self ks k hnodupIdx
    simp only [DynamicJSON.set, DynamicJSON.iterCounter_mk, hic2, if_false,
      DynamicJSON.keys_mk, hlook2]
    simp only [DynamicJSON.Keys, DynamicJSON.keys_mk, DynamicJSON.vals_mk,
      DynamicJSON.ordKeys_mk]
    rw [ValList.toList_ofList, ValList.toList_ofList]
    rw [liveKeysOf_append_live _ _ v k (by simp [List.length_set, hlen.symm]) hv]
    rw [liveKeysOf_set_deleted vs.toList oks inx w k hval hw hok hnodupLive]
    rw [List.Nodup.erase_eq_filter hnodupLive k]
    congr 1
    apply List.filter_congr
    intro x _
    by_cases hxk : x = k <;> simp [hxk]

/-- C6, witness. -/
theorem c6_iteration_order_witness :
    ((Set (Set (Set (Set (some NewMap) ['a'] (.intV 1)) ['b'] (.intV 2))
        ['c'] (.intV 3)) ['b'] (.intV 9)).map DynamicJSON.Keys =
      some [['a'], ['b'], ['c']]) ∧
    ((Set ((Delete (Set (Set (Set (some NewMap) ['a'] (.intV 1)) ['b'] (.intV 2))
        ['c'] (.intV 3)) ['b']).2) ['b'] (.intV 9)).map DynamicJSON.Keys =
      some [['a'], ['c'], ['b']]) ∧
    ((DynamicJSON.mk (some [(['a'], 0), (['b'], 1)]) [['a'], ['b']] 0
        (.cons (.intV 1) (.cons (.intV 2) .nil))).set ['b'] (.intV 9)).2.Keys =
      (DynamicJSON.mk (some [(['a'], 0), (['b'], 1)]) [['a'], ['b']] 0
        (.cons (.intV 1) (.cons (.intV 2) .nil))).Keys ∧
    ((deleteF ((['b'] : Str).length + 1)
        (DynamicJSON.mk (some [(['a'], 0), (['b'], 1)]) [['a'], ['b']] 0
          (.cons (.intV 1) (.cons (.intV 2) .nil))) ['b']).2.set ['b'] (.intV 9)).2.Keys =
      (DynamicJSON.mk (some [(['a'], 0), (['b'], 1)]) [['a'], ['b']] 0
        (.cons (.intV 1) (.cons (.intV 2) .nil))).Keys.erase ['b'] ++ [['b']] :=
  c6_iteration_order
    (DynamicJSON.mk (some [(['a'], 0), (['b'], 1)]) [['a'], ['b']] 0
      (.cons (.intV 1) (.cons (.intV 2) .nil)))
    [(['a'], 0), (['b'], 1)] ['b'] (.intV 9) (.intV 2) 1
    rfl (by decide) (by decide) (by decide) (by decide) (by decide) (by decide)
    (by decide) (by decide) (by decide) (by decide) (by decide)

theorem zip_fst_snd {α β : Type} : ∀ es : List (α × β),
    (es.map Prod.fst).zip (es.map Prod.snd) = es
  | [] => rfl
  | p :: rest => by simp [zip_fst_snd rest]

theorem reindexKeys_lookup_notmem :
    ∀ (live : List (GoAny × Str)) (ks : List (Str × Nat)) (j0 : Nat) (k : Str),
    k ∉ live.map Prod.snd →
    lookupKey (DynamicJSON.packing.reindexKeys ks live j0) k = lookupKey ks k
  | [], _, _, _, _ => rfl
  | (v, k1) :: rest, ks, j0, k, h => by
    simp only [List.map_cons, List.mem_cons] at h
    push_neg at h
    rw [DynamicJSON.packing.reindexKeys]
    rw [reindexKeys_lookup_notmem rest (insertKey ks k1 j0) (j0 + 1) k h.2]
    exact lookupKey_insertKey_ne ks j0 (Ne.symm h.1)

theorem reindexKeys_lookup :
    ∀ (live : List (GoAny × Str)) (ks : List (Str × Nat)) (j0 : Nat),
    (live.map Prod.snd).Nodup →
    ∀ (j : Nat) (k2 : Str), (live.map Prod.snd).get? j = some k2 →
    lookupKey (DynamicJSON.packing.reindexKeys ks live j0) k2 = some (j0 + j)
  | [], _, _, _, j, _, hj => by simp at hj
  | (v, k1) :: rest, ks, j0, hnd, j, k2, hj => by
    simp only [List.map_cons] at hnd hj
    rw [List.nodup_cons] at hnd
    cases j with
    | zero =>
      simp only [List.get?_cons_zero, Option.some.injEq] at hj
      subst hj
      rw [DynamicJSON.packing.reindexKeys]
      rw [reindexKeys_lookup_notmem rest (insertKey ks k1 j0) (j0 + 1) k1 hnd.1]
      simp [lookupKey_insertKey_self]
    | succ i =>
      simp only [List.get?_cons_succ] at hj
      rw [DynamicJSON.packing.reindexKeys]
      rw [reindexKeys_lookup rest (insertKey ks k1 j0) (j0 + 1) hnd.2 i k2 hj]
      congr 1
      omega

/-- C4: `packing` is a no-op on arrays and whenever the reentrancy counter
is nonzero; a map with counter zero is physically rebuilt exactly when the
slot count is at least 128 and the live key count is below a third of it.
The rebuild keeps exactly the live slots in their existing relative order
(`Keys` is unchanged, tombstones are dropped so the new slot count equals
the live count) and renumbers the key index so each live key maps to its
new slot. -/
theorem c4_packing (d : DynamicJSON) (ks : List (Str × Nat))
    (hkeys : d.keys = some ks) :
    (∀ dd : DynamicJSON, dd.IsArray = true → dd.packing = dd) ∧
    (d.iterCounter ≠ 0 → d.packing = d) ∧
    (d.iterCounter = 0 →
      ¬(128 ≤ d.vals.length ∧ ks.length * 3 < d.vals.length) → d.packing = d) ∧
    (d.iterCounter = 0 → 128 ≤ d.vals.length → ks.length * 3 < d.vals.length →
      d.packing.Keys = d.Keys ∧
      d.packing.vals =
        ((d.vals.zip d.ordKeys).filter fun p => ¬p.1.isDeletedEntry).map Prod.fst ∧
      d.packing.vals.length = d.Keys.length ∧
      ((liveKeysOf d.vals d.ordKeys).Nodup →
        ∃ ks2, d.packing.keys = some ks2 ∧
          ∀ (j : Nat) (k2 : Str), d.packing.ordKeys.get? j = some k2 →
            lookupKey ks2 k2 = some j)) := by
  obtain ⟨ks0, oks, ic, vs⟩ := d
  simp only [DynamicJSON.keys_mk] at hkeys
  subst hkeys
  refine ⟨?_, ?_, ?_, ?_⟩
  · intro dd hdd
    have hk := (isArray_iff dd).mp hdd
    obtain ⟨kk, ooks, iic, vvs⟩ := dd
    simp only [DynamicJSON.keys_mk] at hk
    subst hk
    simp [DynamicJSON.packing]
  · intro hic
    simp only [DynamicJSON.iterCounter_mk] at hic
    simp [DynamicJSON.packing, hic]
  · intro hic hcond
    simp only [DynamicJSON.iterCounter_mk] at hic
    simp only [DynamicJSON.vals_mk] at hcond
    simp only [DynamicJSON.packing, DynamicJSON.keys_mk, DynamicJSON.iterCounter_mk,
      DynamicJSON.vals_mk, DynamicJSON.ordKeys_mk, hic]
    rw [if_neg (by omega : ¬(0 : Int) ≠ 0), if_neg hcond]
  · intro hic hlen hthird
    simp only [DynamicJSON.iterCounter_mk] at hic
    simp only [DynamicJSON.vals_mk] at hlen hthird
    subst hic
    have hrw : (DynamicJSON.mk (some ks) oks 0 vs).packing =
        DynamicJSON.mk
          (some (DynamicJSON.packing.reindexKeys ks
            ((vs.toList.zip oks).filter fun p => ¬p.1.isDeletedEntry) 0))
          (((vs.toList.zip oks).filter fun p => ¬p.1.isDeletedEntry).map Prod.snd) 0
          (ValList.ofList
            (((vs.toList.zip oks).filter fun p => ¬p.1.isDeletedEntry).map Prod.fst)) := by
      simp only [DynamicJSON.packing, DynamicJSON.keys_mk, DynamicJSON.iterCounter_mk,
        DynamicJSON.vals_mk, DynamicJSON.ordKeys_mk]
      rw [if_neg (by omega : ¬(0 : Int) ≠ 0), if_pos ⟨hlen, hthird⟩]
    set live := (vs.toList.zip oks).filter fun p => ¬p.1.isDeletedEntry with hlive
    have hall : ∀ p ∈ live, p.1.isDeletedEntry = false := by
      intro p hp
      have := List.of_mem_filter hp
      simpa using this
    have hKeysNew : liveKeysOf (live.map Prod.fst) (live.map Prod.snd) =
        live.map Prod.snd := by
      unfold liveKeysOf
      rw [zip_fst_snd live]
      rw [List.filter_eq_self.mpr (by intro p hp; simpa using hall p hp)]
    refine ⟨?_, ?_, ?_, ?_⟩
    · rw [hrw]
      simp only [DynamicJSON.Keys, DynamicJSON.keys_mk, DynamicJSON.vals_mk,
        DynamicJSON.ordKeys_mk]
      rw [ValList.toList_ofList]
      exact hKeysNew
    · rw [hrw]
      simp only [DynamicJSON.vals_mk, ValList.toList_ofList, DynamicJSON.ordKeys_mk]
    · rw [hrw]
      simp only [DynamicJSON.Keys, DynamicJSON.keys_mk, DynamicJSON.vals_mk,
        DynamicJSON.ordKeys_mk]
      rw [ValList.toList_ofList]
      rw [hlive]
      simp [liveKeysOf]
    · intro hnd
      have hnd2 : (live.map Prod.snd).Nodup := by
        simpa [liveKeysOf, hlive] using hnd
      refine ⟨_, by rw [hrw]; rfl, ?_⟩
      intro j k2 hj
      rw [hrw] at hj
      simp only [DynamicJSON.ordKeys_mk] at hj
      simpa using reindexKeys_lookup live ks 0 hnd2 j k2 hj

/-- C4, witness: a 128-slot map with a single live key triggers a rebuild. -/
theorem c4_packing_witness :
    (∀ dd : DynamicJSON, dd.IsArray = true → dd.packing = dd) ∧
    ((DynamicJSON.mk (some [(['k'], 0)]) (['k'] :: List.replicate 127 ['d']) 0
        (ValList.ofList (.intV 1 :: List.replicate 127 .deletedEntry))).iterCounter ≠ 0 →
      (DynamicJSON.mk (some [(['k'], 0)]) (['k'] :: List.replicate 127 ['d']) 0
        (ValList.ofList (.intV 1 :: List.replicate 127 .deletedEntry))).packing =
      DynamicJSON.mk (some [(['k'], 0)]) (['k'] :: List.replicate 127 ['d']) 0
        (ValList.ofList (.intV 1 :: List.replicate 127 .deletedEntry))) ∧
    ((DynamicJSON.mk (some [(['k'], 0)]) (['k'] :: List.replicate 127 ['d']) 0
        (ValList.ofList (.intV 1 :: List.replicate 127 .deletedEntry))).iterCounter = 0 →
      ¬(128 ≤ (DynamicJSON.mk (some [(['k'], 0)]) (['k'] :: List.replicate 127 ['d']) 0
          (ValList.ofList (.intV 1 :: List.replicate 127 .deletedEntry))).vals.length ∧
        ([(['k'], 0)] : List (Str × Nat)).length * 3 <
          (DynamicJSON.mk (some [(['k'], 0)]) (['k'] :: List.replicate 127 ['d']) 0
            (ValList.ofList (.intV 1 :: List.replicate 127 .deletedEntry))).vals.length) →
      (DynamicJSON.mk (some [(['k'], 0)]) (['k'] :: List.replicate 127 ['d']) 0
        (ValList.ofList (.intV 1 :: List.replicate 127 .deletedEntry))).packing =
      DynamicJSON.mk (some [(['k'], 0)]) (['k'] :: List.replicate 127 ['d']) 0
        (ValList.ofList (.intV 1 :: List.replicate 127 .deletedEntry))) ∧
    ((DynamicJSON.mk (some [(['k'], 0)]) (['k'] :: List.replicate 127 ['d']) 0
        (ValList.ofList (.intV 1 :: List.replicate 127 .deletedEntry))).iterCounter = 0 →
      128 ≤ (DynamicJSON.mk (some [(['k'], 0)]) (['k'] :: List.replicate 127 ['d']) 0
        (ValList.ofList (.intV 1 :: List.replicate 127 .deletedEntry))).vals.length →
      ([(['k'], 0)] : List (Str × Nat)).length * 3 <
        (DynamicJSON.mk (some [(['k'], 0)]) (['k'] :: List.replicate 127 ['d']) 0
          (ValList.ofList (.intV 1 :: List.replicate 127 .deletedEntry))).vals.length →
      (DynamicJSON.mk (some [(['k'], 0)]) (['k'] :: List.replicate 127 ['d']) 0
        (ValList.ofList (.intV 1 :: List.replicate 127 .deletedEntry))).packing.Keys =
        (DynamicJSON.mk (some [(['k'], 0)]) (['k'] :: List.replicate 127 ['d']) 0
          (ValList.ofList (.intV 1 :: List.replicate 127 .deletedEntry))).Keys ∧
      (DynamicJSON.mk (some [(['k'], 0)]) (['k'] :: List.replicate 127 ['d']) 0
        (ValList.ofList (.intV 1 :: List.replicate 127 .deletedEntry))).packing.vals =
        (((DynamicJSON.mk (some [(['k'], 0)]) (['k'] :: List.replicate 127 ['d']) 0
          (ValList.ofList (.intV 1 :: List.replicate 127 .deletedEntry))).vals.zip
            (DynamicJSON.mk (some [(['k'], 0)]) (['k'] :: List.replicate 127 ['d']) 0
              (ValList.ofList (.intV 1 :: List.replicate 127 .deletedEntry))).ordKeys).filter
          fun p => ¬p.1.isDeletedEntry).map Prod.fst ∧
      (DynamicJSON.mk (some [(['k'], 0)]) (['k'] :: List.replicate 127 ['d']) 0
        (ValList.ofList (.intV 1 :: List.replicate 127 .deletedEntry))).packing.vals.length =
        (DynamicJSON.mk (some [(['k'], 0)]) (['k'] :: List.replicate 127 ['d']) 0
          (ValList.ofList (.intV 1 :: List.replicate 127 .deletedEntry))).Keys.length ∧
      ((liveKeysOf (DynamicJSON.mk (some [(['k'], 0)]) (['k'] :: List.replicate 127 ['d']) 0
          (ValList.ofList (.intV 1 :: List.replicate 127 .deletedEntry))).vals
          (DynamicJSON.mk (some [(['k'], 0)]) (['k'] :: List.replicate 127 ['d']) 0
            (ValList.ofList (.intV 1 :: List.replicate 127 .deletedEntry))).ordKeys).Nodup →
        ∃ ks2, (DynamicJSON.mk (some [(['k'], 0)]) (['k'] :: List.replicate 127 ['d']) 0
            (ValList.ofList (.intV 1 :: List.replicate 127 .deletedEntry))).packing.keys =
            some ks2 ∧
          ∀ (j : Nat) (k2 : Str),
            (DynamicJSON.mk (some [(['k'], 0)]) (['k'] :: List.replicate 127 ['d']) 0
              (ValList.ofList (.intV 1 :: List.replicate 127 .deletedEntry))).packing.ordKeys.get? j =
              some k2 →
            lookupKey ks2 k2 = some j)) :=
  c4_packing
    (DynamicJSON.mk (some [(['k'], 0)]) (['k'] :: List.replicate 127 ['d']) 0
      (ValList.ofList (.intV 1 :: List.replicate 127 .deletedEntry)))
    [(['k'], 0)] rfl

/-- C8, counterexample: `GetBool` attempts no string (or numeric-text)
coercion at all.  On a map holding the string `"true"` under `x`, the Go
code returns the caller default — whichever it is — although the claimed
chain (exact type, then numeric-text parse, then string parse) would parse
the string and return `true`. -/
theorem c8_getbool_counterexample :
    Get (Set (some NewMap) ['x'] (.str ['t', 'r', 'u', 'e'])) ['x'] =
      some (.str ['t', 'r', 'u', 'e']) ∧
    GetBool (Set (some NewMap) ['x'] (.str ['t', 'r', 'u', 'e'])) ['x'] false = false ∧
    GetBool (Set (some NewMap) ['x'] (.str ['t', 'r', 'u', 'e'])) ['x'] true = true := by
  decide

/-- C8, amended: the four typed getters never fail — a missing path or a
failed coercion yields the caller-supplied default.  `GetInt` coerces
through exact Go integers, `json.Number` text (with a trailing `.0`
trimmed) and string text; `GetString` returns strings and stringifies
numeric values; `GetFloat` parses `json.Number` and string text; but
`GetBool` accepts only an exact boolean — it attempts no numeric-text or
string parse and returns the default for every other value. -/
theorem c8_typed_getters (self : Option DynamicJSON) (path : Str)
    (di : Int) (db : Bool) (ds : Str) (dq : ℚ) :
    ((doOp self path false false .null).1 = none →
      GetInt self path di = di ∧ GetBool self path db = db ∧
      GetString self path ds = ds ∧ GetFloat self path dq = dq) ∧
    (∀ v, (doOp self path false false .null).1 = some v →
      GetInt self path di = value2int v di ∧
      GetString self path ds = value2string v ds) ∧
    ((∀ n, value2int (.intV n) di = n) ∧
      (∀ s i, parseInt64 (trimSuffixDotZero s) = some i →
        value2int (.number s) di = i) ∧
      (∀ s, parseInt64 (trimSuffixDotZero s) = none →
        value2int (.number s) di = di) ∧
      (∀ s i, parseInt64 s = some i → value2int (.str s) di = i) ∧
      (∀ s, parseInt64 s = none → value2int (.str s) di = di) ∧
      (∀ b2, value2int (.boolean b2) di = di) ∧
      value2int .null di = di ∧
      (∀ dd, value2int (.doc dd) di = di)) ∧
    ((∀ s, value2string (.str s) ds = s) ∧
      (∀ s, value2string (.number s) ds = s) ∧
      (∀ n, value2string (.intV n) ds = intRepr n) ∧
      (∀ b2, value2string (.boolean b2) ds = ds) ∧
      value2string .null ds = ds ∧
      (∀ dd, value2string (.doc dd) ds = ds)) ∧
    ((∀ b2, (doOp self path false false .null).1 = some (.boolean b2) →
        GetBool self path db = b2) ∧
      (∀ s, (doOp self path false false .null).1 = some (.str s) →
        GetBool self path db = db) ∧
      (∀ s, (doOp self path false false .null).1 = some (.number s) →
        GetBool self path db = db) ∧
      (∀ n, (doOp self path false false .null).1 = some (.intV n) →
        GetBool self path db = db) ∧
      ((doOp self path false false .null).1 = some .null →
        GetBool self path db = db)) ∧
    ((∀ s q2, (doOp self path false false .null).1 = some (.number s) →
        parseFloatQ s = some q2 → GetFloat self path dq = q2) ∧
      (∀ s, (doOp self path false false .null).1 = some (.number s) →
        parseFloatQ s = none → GetFloat self path dq = dq) ∧
      (∀ s q2, (doOp self path false false .null).1 = some (.str s) →
        parseFloatQ s = some q2 → GetFloat self path dq = q2) ∧
      (∀ s, (doOp self path false false .null).1 = some (.str s) →
        parseFloatQ s = none → GetFloat self path dq = dq) ∧
      (∀ n, (doOp self path false false .null).1 = some (.intV n) →
        GetFloat self path dq = dq) ∧
      (∀ b2, (doOp self path false false .null).1 = some (.boolean b2) →
        GetFloat self path dq = dq)) := by
  refine ⟨?_, ?_, ?_, ?_, ?_, ?_⟩
  · intro h
    exact ⟨by simp [GetInt, h], by simp [GetBool, h], by simp [GetString, h],
      by simp [GetFloat, h]⟩
  · intro v h
    constructor
    · simp [GetInt, h]
    · simp [GetString, h]
  · refine ⟨fun n => rfl, ?_, ?_, ?_, ?_, fun b2 => rfl, rfl, fun dd => rfl⟩
    · intro s i h; simp [value2int, h]
    · intro s h; simp [value2int, h]
    · intro s i h; simp [value2int, h]
    · intro s h; simp [value2int, h]
  · exact ⟨fun s => rfl, fun s => rfl, fun n => rfl, fun b2 => rfl, rfl, fun dd => rfl⟩
  · refine ⟨?_, ?_, ?_, ?_, ?_⟩
    · intro b2 h; simp [GetBool, h]
    · intro s h; simp [GetBool, h]
    · intro s h; simp [GetBool, h]
    · intro n h; simp [GetBool, h]
    · intro h; simp [GetBool, h]
  · refine ⟨?_, ?_, ?_, ?_, ?_, ?_⟩
    · intro s q2 h hp; simp [GetFloat, h, hp]
    · intro s h hp; simp [GetFloat, h, hp]
    · intro s q2 h hp; simp [GetFloat, h, hp]
    · intro s h hp; simp [GetFloat, h, hp]
    · intro n h; simp [GetFloat, h]
    · intro b2 h; simp [GetFloat, h]

/-- C8, witness. -/
theorem c8_typed_getters_witness :
    GetInt (some NewMap) ['x'] 7 = 7 ∧ GetBool (some NewMap) ['x'] true = true ∧
    GetString (some NewMap) ['x'] ['z'] = ['z'] ∧
    GetFloat (some NewMap) ['x'] 0 = 0 :=
  (c8_typed_getters (some NewMap) ['x'] 7 true ['z'] 0).1 (by decide)

theorem mk_eta (d : DynamicJSON) :
    DynamicJSON.mk d.keys d.ordKeys d.iterCounter (ValList.ofList d.vals) = d := by
  obtain ⟨ks, oks, ic, vs⟩ := d
  simp [DynamicJSON.vals]

theorem replaceChildSlot_same (d : DynamicJSON) (name : Str) (c : DynamicJSON)
    (h : d.get name = some (.doc c)) : replaceChildSlot d name c = d := by
  obtain ⟨ks, oks, ic, vs⟩ := d
  cases ks with
  | none =>
    cases hki : key2Index name with
    | ofNat i =>
      simp only [DynamicJSON.get, DynamicJSON.keys_mk, hki, DynamicJSON.vals_mk] at h
      simp only [replaceChildSlot, DynamicJSON.keys_mk, hki, DynamicJSON.ordKeys_mk,
        DynamicJSON.iterCounter_mk, DynamicJSON.vals_mk]
      rw [list_set_get?_eq h, ValList.ofList_toList]
    | negSucc m =>
      simp only [replaceChildSlot, DynamicJSON.keys_mk, hki]
  | some ks0 =>
    cases hlk : lookupKey ks0 name with
    | none =>
      simp only [replaceChildSlot, DynamicJSON.keys_mk, hlk]
    | some inx =>
      simp only [DynamicJSON.get, DynamicJSON.keys_mk, hlk, DynamicJSON.vals_mk] at h
      simp only [replaceChildSlot, DynamicJSON.keys_mk, hlk, DynamicJSON.ordKeys_mk,
        DynamicJSON.iterCounter_mk, DynamicJSON.vals_mk]
      rw [list_set_get?_eq h, ValList.ofList_toList]

theorem replaceChildSlot_isArray (d : DynamicJSON) (name : Str) (c : DynamicJSON) :
    (replaceChildSlot d name c).IsArray = d.IsArray := by
  obtain ⟨ks, oks, ic, vs⟩ := d
  cases ks with
  | none =>
    cases hki : key2Index name with
    | ofNat i => simp [replaceChildSlot, hki, DynamicJSON.IsArray]
    | negSucc m => simp [replaceChildSlot, hki]
  | some ks0 =>
    cases hlk : lookupKey ks0 name with
    | none => simp [replaceChildSlot, hlk]
    | some inx => simp [replaceChildSlot, hlk, DynamicJSON.IsArray]

theorem set_preserves_isArray (d : DynamicJSON) (k : Str) (v : GoAny) :
    (d.set k v).2.IsArray = d.IsArray := by
  obtain ⟨ks, oks, ic, vs⟩ := d
  by_cases hic : ic < 0
  · simp [DynamicJSON.set, hic]
  · cases ks with
    | none =>
      cases hki : key2Index k with
      | ofNat i => simp [DynamicJSON.set, hic, hki, DynamicJSON.IsArray]
      | negSucc m => simp [DynamicJSON.set, hic, hki]
    | some ks0 =>
      cases hlk : lookupKey ks0 k with
      | none => simp [DynamicJSON.set, hic, hlk, DynamicJSON.IsArray]
      | some inx => simp [DynamicJSON.set, hic, hlk, DynamicJSON.IsArray]

theorem doOpLoop_get_pure : ∀ (fuel : Nat) (path : Str) (v : GoAny)
    (d : DynamicJSON), path.length < fuel →
    (doOpLoopF fuel (some d) path false false v).2 = some d
  | fuel + 1, path, v, d, hf => by
    match path with
    | [] => simp [doOpLoopF]
    | p :: rest =>
      by_cases hp : p = '/'
      · subst hp
        have hlen : rest.length < fuel := by
          simpa using Nat.lt_of_succ_lt_succ hf
        have ih := doOpLoop_get_pure fuel rest v d hlen
        simp [doOpLoopF, List.takeWhile_cons, List.dropWhile_cons, ih]
      · cases hdw : (p :: rest).dropWhile (fun x => decide ¬x = '/') with
        | nil =>
          simp only [doOpLoopF]
          rw [hdw]
          simp
        | cons t ts =>
          have hname : (p :: rest).takeWhile (fun x => decide ¬x = '/') =
              p :: rest.takeWhile (fun x => decide ¬x = '/') := by
            simp [List.takeWhile_cons, hp]
          simp only [doOpLoopF]
          rw [hdw, hname]
          have hts : ts.length < fuel := by
            have h1 : (p :: rest).dropWhile (fun x => decide ¬x = '/') =
                t :: ts := hdw
            have h2 : (t :: ts).length ≤ (p :: rest).length := by
              rw [← h1]
              exact List.Sublist.length_le (List.dropWhile_sublist _)
            simp only [List.length_cons] at h2 hf
            omega
          simp only [List.cons_ne_nil, if_false]
          cases hget : levelGet (some d)
              (p :: rest.takeWhile (fun x => decide ¬x = '/')) with
          | none => simp
          | some w =>
            cases w with
            | doc next =>
              have ih := doOpLoop_get_pure fuel ts v next hts
              simp only []
              rw [ih]
              simp only []
              rw [replaceChildSlot_same d _ next (by simpa [levelGet] using hget)]
            | nilDoc => simp
            | null => simp
            | boolean b => simp
            | intV n => simp
            | number s => simp
            | str s => simp
            | deletedEntry => simp

theorem takeWhile_slashfree (k : Str) (p : Str) (h : ∀ c ∈ k, c ≠ '/') :
    (k ++ '/' :: p).takeWhile (fun x => decide ¬x = '/') = k ∧
      (k ++ '/' :: p).dropWhile (fun x => decide ¬x = '/') = '/' :: p := by
  induction k with
  | nil => simp [List.takeWhile_cons, List.dropWhile_cons]
  | cons c k2 ih =>
    have hc : c ≠ '/' := h c (List.mem_cons_self c k2)
    have hcd : (decide ¬c = '/') = true := by simp [hc]
    have ih2 := ih fun x hx => h x (List.mem_cons_of_mem c hx)
    constructor
    · rw [List.cons_append, List.takeWhile_cons, if_pos hcd, ih2.1]
    · rw [List.cons_append, List.dropWhile_cons, if_pos hcd, ih2.2]

theorem takeWhile_slashfree_all (k : Str) (h : ∀ c ∈ k, c ≠ '/') :
    k.takeWhile (fun x => decide ¬x = '/') = k ∧
      k.dropWhile (fun x => decide ¬x = '/') = [] := by
  constructor
  · rw [List.takeWhile_eq_self_iff]
    intro x hx
    simpa using h x hx
  · rw [List.dropWhile_eq_nil_iff]
    intro x hx
    simpa using h x hx

theorem createLevel_isArray (p : Str) :
    (createLevelFromNextPath p).IsArray =
      decide (0 ≤ key2Index (p.takeWhile fun x => decide ¬x = '/')) := by
  unfold createLevelFromNextPath
  by_cases h : 0 ≤ key2Index (p.takeWhile fun x => decide ¬x = '/')
  · simp only [h, if_pos]
    simp [h, NewArray, DynamicJSON.IsArray]
  · simp only [h, if_neg]
    simp [h, NewMap, DynamicJSON.IsArray]

theorem doOpLoop_some_isArray : ∀ (fuel : Nat) (path : Str) (a sv : Bool)
    (v : GoAny) (d : DynamicJSON),
    ∃ d2, (doOpLoopF fuel (some d) path a sv v).2 = some d2 ∧
      d2.IsArray = d.IsArray
  | 0, path, a, sv, v, d => ⟨d, rfl, rfl⟩
  | fuel + 1, path, a, sv, v, d => by
    match path with
    | [] => exact ⟨d, by simp [doOpLoopF], rfl⟩
    | p :: rest =>
      cases hdw : (p :: rest).dropWhile (fun x => decide ¬x = '/') with
      | nil =>
        simp only [doOpLoopF]
        rw [hdw]
        cases hsv : sv with
        | false => exact ⟨d, by simp [levelSet2], rfl⟩
        | true =>
          refine ⟨(d.set (p :: rest) v).2, by simp [levelSet2], ?_⟩
          exact set_preserves_isArray d (p :: rest) v
      | cons t ts =>
        simp only [doOpLoopF]
        rw [hdw]
        by_cases hname : (p :: rest).takeWhile (fun x => decide ¬x = '/') = []
        · rw [hname]
          simp only [if_pos rfl]
          exact doOpLoop_some_isArray fuel ts a sv v d
        · simp only [if_neg hname]
          cases hget : levelGet (some d) ((p :: rest).takeWhile fun x => decide ¬x = '/') with
          | some w =>
            cases w with
            | doc next =>
              simp only []
              obtain ⟨n2, hn2, _⟩ := doOpLoop_some_isArray fuel ts a sv v next
              rw [hn2]
              exact ⟨replaceChildSlot d _ n2, rfl, replaceChildSlot_isArray d _ n2⟩
            | nilDoc => exact ⟨d, by simp, rfl⟩
            | null =>
              simp only []
              cases ha : a with
              | false => exact ⟨d, by simp, rfl⟩
              | true =>
                cases hr2 : (doOpLoopF fuel
                    (some (createLevelFromNextPath ts)) ts true sv v).2 with
                | none => exact ⟨d, by simp [hr2], rfl⟩
                | some n2 =>
                  refine ⟨(d.set ((p :: rest).takeWhile fun x => !decide (x = '/')) (.doc n2)).2,
                    by simp [hr2, levelSet2], ?_⟩
                  exact set_preserves_isArray d _ _
            | boolean b =>
              simp only []
              cases ha : a with
              | false => exact ⟨d, by simp, rfl⟩
              | true =>
                cases hr2 : (doOpLoopF fuel
                    (some (createLevelFromNextPath ts)) ts true sv v).2 with
                | none => exact ⟨d, by simp [hr2], rfl⟩
                | some n2 =>
                  refine ⟨(d.set ((p :: rest).takeWhile fun x => !decide (x = '/')) (.doc n2)).2,
                    by simp [hr2, levelSet2], ?_⟩
                  exact set_preserves_isArray d _ _
            | intV n =>
              simp only []
              cases ha : a with
              | false => exact ⟨d, by simp, rfl⟩
              | true =>
                cases hr2 : (doOpLoopF fuel
                    (some (createLevelFromNextPath ts)) ts true sv v).2 with
                | none => exact ⟨d, by simp [hr2], rfl⟩
                | some n2 =>
                  refine ⟨(d.set ((p :: rest).takeWhile fun x => !decide (x = '/')) (.doc n2)).2,
                    by simp [hr2, levelSet2], ?_⟩
                  exact set_preserves_isArray d _ _
            | number s =>
              simp only []
              cases ha : a with
              | false => exact ⟨d, by simp, rfl⟩
              | true =>
                cases hr2 : (doOpLoopF fuel
                    (some (createLevelFromNextPath ts)) ts true sv v).2 with
                | none => exact ⟨d, by simp [hr2], rfl⟩
                | some n2 =>
                  refine ⟨(d.set ((p :: rest).takeWhile fun x => !decide (x = '/')) (.doc n2)).2,
                    by simp [hr2, levelSet2], ?_⟩
                  exact set_preserves_isArray d _ _
            | str s =>
              simp only []
              cases ha : a with
              | false => exact ⟨d, by simp, rfl⟩
              | true =>
                cases hr2 : (doOpLoopF fuel
                    (some (createLevelFromNextPath ts)) ts true sv v).2 with
                | none => exact ⟨d, by simp [hr2], rfl⟩
                | some n2 =>
                  refine ⟨(d.set ((p :: rest).takeWhile fun x => !decide (x = '/')) (.doc n2)).2,
                    by simp [hr2, levelSet2], ?_⟩
                  exact set_preserves_isArray d _ _
            | deletedEntry =>
              simp only []
              cases ha : a with
              | false => exact ⟨d, by simp, rfl⟩
              | true =>
                cases hr2 : (doOpLoopF fuel
                    (some (createLevelFromNextPath ts)) ts true sv v).2 with
                | none => exact ⟨d, by simp [hr2], rfl⟩
                | some n2 =>
                  refine ⟨(d.set ((p :: rest).takeWhile fun x => !decide (x = '/')) (.doc n2)).2,
                    by simp [hr2, levelSet2], ?_⟩
                  exact set_preserves_isArray d _ _
          | none =>
            simp only []
            cases ha : a with
            | false => exact ⟨d, by simp, rfl⟩
            | true =>
              cases hr2 : (doOpLoopF fuel
                  (some (createLevelFromNextPath ts)) ts true sv v).2 with
              | none => exact ⟨d, by simp [hr2], rfl⟩
              | some n2 =>
                refine ⟨(d.set ((p :: rest).takeWhile fun x => !decide (x = '/')) (.doc n2)).2,
                    by simp [hr2, levelSet2], ?_⟩
                exact set_preserves_isArray d _ _

theorem doOpLoopF_final_get (fuel : Nat) (lvl : Option DynamicJSON) (c : Char)
    (k2 : Str) (v : GoAny) (hsl : ∀ x ∈ c :: k2, x ≠ '/') :
    doOpLoopF (fuel + 1) lvl (c :: k2) false false v =
      (levelGet lvl (c :: k2), lvl) := by
  have hall := takeWhile_slashfree_all (c :: k2) hsl
  simp only [decide_not] at hall
  simp [doOpLoopF, hall.1, hall.2]

theorem doOpLoopF_autocreate_miss (fuel : Nat) (d : DynamicJSON) (c : Char)
    (k2 p : Str) (sv : Bool) (v : GoAny) (hsl : ∀ x ∈ c :: k2, x ≠ '/')
    (hget : d.get (c :: k2) = none) :
    doOpLoopF (fuel + 1) (some d) ((c :: k2) ++ '/' :: p) true sv v =
      ((doOpLoopF fuel (some (createLevelFromNextPath p)) p true sv v).1,
        match (doOpLoopF fuel (some (createLevelFromNextPath p)) p true sv v).2 with
        | some next2 => some (d.set (c :: k2) (.doc next2)).2
        | none => some d) := by
  have hs := takeWhile_slashfree (c :: k2) p hsl
  simp only [decide_not, List.cons_append] at hs
  simp [doOpLoopF, hs.1, hs.2, levelGet, hget, levelSet2]
  cases (doOpLoopF fuel (some (createLevelFromNextPath p)) p true sv v).2 <;> rfl

theorem get_none_of_lookup_none (d : DynamicJSON) (k : Str)
    (ks : List (Str × Nat)) (hk : d.keys = some ks)
    (habs : lookupKey ks k = none) : d.get k = none := by
  obtain ⟨ks0, oks, ic, vs⟩ := d
  simp only [DynamicJSON.keys_mk] at hk
  subst hk
  simp only [DynamicJSON.get, DynamicJSON.keys_mk, habs]

theorem set_new_get (d : DynamicJSON) (k : Str) (v : GoAny)
    (ks : List (Str × Nat)) (hk : d.keys = some ks)
    (hfr : ¬ d.iterCounter < 0) (habs : lookupKey ks k = none) :
    (d.set k v).2.get k = some v := by
  obtain ⟨ks0, oks, ic, vs⟩ := d
  simp only [DynamicJSON.keys_mk] at hk
  subst hk
  simp only [DynamicJSON.iterCounter_mk] at hfr
  simp only [DynamicJSON.set, DynamicJSON.iterCounter_mk, if_neg hfr,
    DynamicJSON.keys_mk, habs, DynamicJSON.vals_mk, DynamicJSON.ordKeys_mk]
  simp only [DynamicJSON.get, DynamicJSON.keys_mk, lookupKey_insertKey_self,
    DynamicJSON.vals_mk, ValList.toList_ofList]
  exact List.get?_concat_length _ _

/-- C3: setting through a multi-segment path auto-creates each missing
intermediate level — a fresh array when the next segment parses as a
non-negative integer via `key2Index`, otherwise a fresh map — while a
read (`doOp` with `setValue = false`) never changes the receiver;
concretely, `Set "a/0/b" 1` on an empty map serializes to
`\x7b"a":[\x7b"b":1\x7d]\x7d`. -/
theorem c3_path_autocreate (d : DynamicJSON) (ks : List (Str × Nat))
    (k p : Str) (v w : GoAny)
    (hkne : k ≠ []) (hsl : ∀ x ∈ k, x ≠ '/')
    (hks : d.keys = some ks) (hfr : d.IsFrozen = false)
    (habs : lookupKey ks k = none) :
    ((Set (some NewMap) ("a/0/b".toList) (.intV 1)).map DynamicJSON.JSONLine =
        some ("\x7b\"a\":[\x7b\"b\":1\x7d]\x7d".toList)) ∧
    (∃ lvl, Nested (Set (some d) (k ++ '/' :: p) v) k = some lvl ∧
        lvl.IsArray = decide (0 ≤ key2Index (p.takeWhile (· ≠ '/')))) ∧
    (∀ (d2 : DynamicJSON) (path : Str),
        (doOp (some d2) path false false w).2 = some d2) := by
  refine ⟨by decide, ?_, ?_⟩
  · cases k with
    | nil => exact absurd rfl hkne
    | cons c k2 =>
      have hfr2 : ¬ d.iterCounter < 0 := by
        simpa [DynamicJSON.IsFrozen] using hfr
      have hget : d.get (c :: k2) = none :=
        get_none_of_lookup_none d (c :: k2) ks hks habs
      obtain ⟨n2, hn2, hn2arr⟩ :=
        doOpLoop_some_isArray (((c :: k2) ++ '/' :: p).length) p true true v
          (createLevelFromNextPath p)
      have hguard : ¬(True ∧ d.iterCounter < 0) := fun h => hfr2 h.2
      have hset : Set (some d) ((c :: k2) ++ '/' :: p) v =
          some (d.set (c :: k2) (.doc n2)).2 := by
        simp only [Set, convertToDJ, doOp]
        rw [if_neg hguard]
        rw [doOpLoopF_autocreate_miss (((c :: k2) ++ '/' :: p).length) d c k2 p
          true v hsl hget]
        simp only [hn2]
      have hd2get : (d.set (c :: k2) (.doc n2)).2.get (c :: k2) =
          some (.doc n2) := set_new_get d (c :: k2) (.doc n2) ks hks hfr2 habs
      have hguard2 : ¬(false = true ∧
          (d.set (c :: k2) (.doc n2)).2.iterCounter < 0) :=
        fun h => absurd h.1 (by decide)
      have hnested : Nested (some (d.set (c :: k2) (.doc n2)).2) (c :: k2) =
          some n2 := by
        simp only [Nested, doOp, if_neg hguard2]
        rw [doOpLoopF_final_get ((c :: k2).length) _ c k2 GoAny.null hsl]
        simp only [levelGet, hd2get]
      exact ⟨n2, by rw [hset]; exact hnested,
        hn2arr.trans (createLevel_isArray p)⟩
  · intro d2 path
    have hguard : ¬(false = true ∧ d2.iterCounter < 0) :=
      fun h => absurd h.1 (by decide)
    simp only [doOp, if_neg hguard]
    exact doOpLoop_get_pure (path.length + 1) path w d2 (Nat.lt_succ_self _)

/-- C3, witness. -/
theorem c3_path_autocreate_witness :
    ∃ lvl, Nested (Set (some NewMap) (['a'] ++ '/' :: ['0']) (.intV 7)) ['a'] =
        some lvl ∧
      lvl.IsArray = decide (0 ≤ key2Index (['0'].takeWhile (· ≠ '/'))) :=
  (c3_path_autocreate NewMap [] ['a'] ['0'] (.intV 7) .null (by decide)
    (by decide) rfl rfl rfl).2.1

theorem zip_get?_some {α β : Type} : ∀ (l1 : List α) (l2 : List β) (i : Nat)
    (a : α) (b : β), l1.get? i = some a → l2.get? i = some b →
    (l1.zip l2).get? i = some (a, b)
  | [], _, i, _, _, h1, _ => by simp at h1
  | _ :: _, [], i, _, _, _, h2 => by simp at h2
  | x :: r1, y :: r2, 0, a, b, h1, h2 => by
    rw [List.get?_cons_zero] at h1 h2
    injection h1 with h1
    injection h2 with h2
    subst h1; subst h2
    rfl
  | x :: r1, y :: r2, i + 1, a, b, h1, h2 => by
    rw [List.get?_cons_succ] at h1 h2
    rw [List.zip_cons_cons, List.get?_cons_succ]
    exact zip_get?_some r1 r2 i a b h1 h2

theorem nocontains_slash (k : Str) (h : k.contains '/' = false) :
    ∀ x ∈ k, x ≠ '/' := by
  intro x hx hxe
  subst hxe
  have hm : k.contains '/' = true := List.elem_eq_true_of_mem hx
  rw [hm] at h
  cases h

theorem set_iterCounter_eq (d : DynamicJSON) (k : Str) (v : GoAny) :
    (d.set k v).2.iterCounter = d.iterCounter := by
  obtain ⟨ks, oks, ic, vs⟩ := d
  by_cases hic : ic < 0
  · simp [DynamicJSON.set, hic]
  · cases ks with
    | none =>
      cases hki : key2Index k with
      | ofNat i => simp [DynamicJSON.set, hic, hki]
      | negSucc m => simp [DynamicJSON.set, hic, hki]
    | some ks0 =>
      cases hlk : lookupKey ks0 k with
      | none => simp [DynamicJSON.set, hic, hlk]
      | some inx => simp [DynamicJSON.set, hic, hlk]

theorem doOpLoopF_final_set (fuel : Nat) (lvl : Option DynamicJSON) (c : Char)
    (k2 : Str) (v : GoAny) (hsl : ∀ x ∈ c :: k2, x ≠ '/') :
    doOpLoopF (fuel + 1) lvl (c :: k2) true true v =
      (levelGet (levelSet2 lvl (c :: k2) v) (c :: k2), levelSet2 lvl (c :: k2) v) := by
  have hall := takeWhile_slashfree_all (c :: k2) hsl
  simp only [decide_not] at hall
  simp [doOpLoopF, hall.1, hall.2]

theorem setPub_eq_set (acc : DynamicJSON) (c : Char) (k2 : Str) (v : GoAny)
    (hsl : ∀ x ∈ c :: k2, x ≠ '/') (hfr : ¬ acc.iterCounter < 0) :
    setPub acc (c :: k2) v = (acc.set (c :: k2) v).2 := by
  have hguard : ¬(True ∧ acc.iterCounter < 0) := fun h => hfr h.2
  simp only [setPub, Set, convertToDJ, doOp]
  rw [if_neg hguard]
  rw [doOpLoopF_final_set ((c :: k2).length) (some acc) c k2 v hsl]
  simp [levelSet2]

theorem livePairs_cons_deleted (v : GoAny) (r : ValList) (oks : List Str)
    (h : v.isDeletedEntry = true) :
    livePairs (.cons v r) oks = livePairs r oks.tail := by
  simp [livePairs, h]

theorem livePairs_cons_live (v : GoAny) (r : ValList) (oks : List Str)
    (h : v.isDeletedEntry = false) :
    livePairs (.cons v r) oks = (oks.headD [], v) :: livePairs r oks.tail := by
  simp [livePairs, h]

theorem livePairs_mem_val : ∀ (vs : ValList) (oks : List Str) (k : Str)
    (v : GoAny), (k, v) ∈ livePairs vs oks → v ∈ vs.toList
  | .nil, oks, k, v, h => by simp [livePairs] at h
  | .cons w r, oks, k, v, h => by
    rw [ValList.toList_cons]
    by_cases hdel : w.isDeletedEntry
    · rw [livePairs_cons_deleted w r oks hdel] at h
      exact List.mem_cons_of_mem w (livePairs_mem_val r oks.tail k v h)
    · rw [livePairs_cons_live w r oks (by simpa using hdel)] at h
      rcases List.mem_cons.mp h with he | hm
      · have hv : v = w := congrArg Prod.snd he
        rw [hv]
        exact List.mem_cons_self _ _
      · exact List.mem_cons_of_mem w (livePairs_mem_val r oks.tail k v hm)

theorem livePairs_live : ∀ (vs : ValList) (oks : List Str) (k : Str)
    (v : GoAny), (k, v) ∈ livePairs vs oks → v.isDeletedEntry = false
  | .nil, oks, k, v, h => by simp [livePairs] at h
  | .cons w r, oks, k, v, h => by
    by_cases hdel : w.isDeletedEntry
    · rw [livePairs_cons_deleted w r oks hdel] at h
      exact livePairs_live r oks.tail k v h
    · rw [livePairs_cons_live w r oks (by simpa using hdel)] at h
      rcases List.mem_cons.mp h with he | hm
      · have hv : v = w := congrArg Prod.snd he
        rw [hv]
        simpa using hdel
      · exact livePairs_live r oks.tail k v hm

theorem livePairs_mem_index : ∀ (vs : ValList) (oks : List Str) (k : Str)
    (v : GoAny), vs.toList.length = oks.length → (k, v) ∈ livePairs vs oks →
    ∃ i, vs.toList.get? i = some v ∧ oks.get? i = some k
  | .nil, _, k, v, _, h => by simp [livePairs] at h
  | .cons w r, [], k, v, hl, _ => by simp at hl
  | .cons w r, k0 :: oks, k, v, hl, hm => by
    have hl2 : r.toList.length = oks.length := by simpa using hl
    by_cases hdel : w.isDeletedEntry
    · rw [livePairs_cons_deleted w r (k0 :: oks) hdel] at hm
      obtain ⟨i, h1, h2⟩ := livePairs_mem_index r oks k v hl2 hm
      exact ⟨i + 1, by simpa using h1, by simpa using h2⟩
    · rw [livePairs_cons_live w r (k0 :: oks) (by simpa using hdel)] at hm
      rcases List.mem_cons.mp hm with he | hm2
      · have hk : k = k0 := congrArg Prod.fst he
        have hv : v = w := congrArg Prod.snd he
        exact ⟨0, by simp [hv], by simp [hk]⟩
      · obtain ⟨i, h1, h2⟩ := livePairs_mem_index r oks k v hl2 hm2
        exact ⟨i + 1, by simpa using h1, by simpa using h2⟩

theorem livePairs_keys_eq : ∀ (vs : ValList) (oks : List Str),
    vs.toList.length = oks.length →
    (livePairs vs oks).map Prod.fst = liveKeysOf vs.toList oks
  | .nil, oks, _ => by simp [livePairs, liveKeysOf]
  | .cons w r, [], hl => by simp at hl
  | .cons w r, k0 :: oks, hl => by
    have hl2 : r.toList.length = oks.length := by simpa using hl
    by_cases hdel : w.isDeletedEntry
    · rw [livePairs_cons_deleted w r (k0 :: oks) hdel]
      rw [ValList.toList_cons, liveKeysOf_cons_deleted w r.toList k0 oks hdel]
      exact livePairs_keys_eq r oks hl2
    · have hdel2 : w.isDeletedEntry = false := by simpa using hdel
      rw [livePairs_cons_live w r (k0 :: oks) hdel2]
      rw [ValList.toList_cons, liveKeysOf_cons_live w r.toList k0 oks hdel2]
      simp only [List.map_cons, List.tail_cons, List.headD_cons]
      rw [livePairs_keys_eq r oks hl2]

theorem enumFrom_live_map_snd : ∀ (n : Nat) (l : List (GoAny × Str)),
    ((l.enumFrom n).filter fun p => ¬ p.2.1.isDeletedEntry).map (fun p => p.2.2) =
      (l.filter fun p => ¬ p.1.isDeletedEntry).map Prod.snd := by
  intro n l
  induction l generalizing n with
  | nil => rfl
  | cons x xs ih =>
    rw [show (x :: xs).enumFrom n = (n, x) :: xs.enumFrom (n + 1) from rfl]
    rw [List.filter_cons, List.filter_cons]
    by_cases h : x.1.isDeletedEntry
    · rw [if_neg (by simp [h]), if_neg (by simp [h])]
      exact ih (n + 1)
    · rw [if_pos (by simp [h]), if_pos (by simp [h])]
      rw [List.map_cons, List.map_cons, ih (n + 1)]

theorem insertKey_fresh : ∀ (ks : List (Str × Nat)) (k : Str) (n : Nat),
    lookupKey ks k = none → insertKey ks k n = ks ++ [(k, n)]
  | [], k, n, _ => rfl
  | (k1, n1) :: rest, k, n, h => by
    by_cases hk : k1 = k
    · rw [show lookupKey ((k1, n1) :: rest) k = some n1 from by
        simp [lookupKey, hk]] at h
      cases h
    · rw [show lookupKey ((k1, n1) :: rest) k = lookupKey rest k from by
        simp [lookupKey, hk]] at h
      simp [insertKey, hk, insertKey_fresh rest k n h]

theorem enumIndex_keys (es : List (Str × GoAny)) :
    (enumIndex es).map Prod.fst = es.map Prod.fst := by
  have h2 : ∀ (n : Nat) (l : List (Str × GoAny)),
      ((l.enumFrom n).map fun p => (p.2.1, p.1)).map Prod.fst = l.map Prod.fst := by
    intro n l
    induction l generalizing n with
    | nil => rfl
    | cons x xs ih =>
      rw [show (x :: xs).enumFrom n = (n, x) :: xs.enumFrom (n + 1) from rfl]
      rw [List.map_cons, List.map_cons, List.map_cons, ih (n + 1)]
  exact h2 0 es

theorem enumIndex_length (es : List (Str × GoAny)) :
    (enumIndex es).length = es.length := by
  simp [enumIndex]

theorem enumIndex_append_one (es : List (Str × GoAny)) (k : Str) (v : GoAny) :
    enumIndex (es ++ [(k, v)]) = enumIndex es ++ [(k, es.length)] := by
  simp [enumIndex, List.enum_append, List.enumFrom]

theorem canonForm_set_append (es : List (Str × GoAny)) (k : Str) (v : GoAny)
    (h : k ∉ es.map Prod.fst) :
    ((canonForm es).set k v).2 = canonForm (es ++ [(k, v)]) := by
  have hlk : lookupKey (enumIndex es) k = none :=
    lookupKey_none_of_not_mem _ _ (by rw [enumIndex_keys]; exact h)
  simp only [canonForm, DynamicJSON.set, DynamicJSON.iterCounter_mk,
    DynamicJSON.keys_mk, DynamicJSON.vals_mk, DynamicJSON.ordKeys_mk,
    ValList.toList_ofList, hlk]
  rw [if_neg (by omega : ¬(0 : Int) < 0)]
  rw [insertKey_fresh _ _ _ hlk, List.length_map]
  rw [enumIndex_append_one es k v]
  simp

theorem foldSet_canonForm : ∀ (es2 es1 : List (Str × GoAny)),
    ((es1 ++ es2).map Prod.fst).Nodup →
    foldSet (canonForm es1) es2 = canonForm (es1 ++ es2)
  | [], es1, _ => by simp [foldSet]
  | (k, v) :: es2, es1, h => by
    have hk : k ∉ es1.map Prod.fst := by
      simp only [List.map_append, List.map_cons] at h
      intro hmem
      exact (List.nodup_append.mp h).2.2 hmem (List.mem_cons_self _ _)
    have h2 : (((es1 ++ [(k, v)]) ++ es2).map Prod.fst).Nodup := by
      simpa [List.append_assoc] using h
    have hrec := foldSet_canonForm es2 (es1 ++ [(k, v)]) h2
    rw [show foldSet (canonForm es1) ((k, v) :: es2) =
        foldSet ((canonForm es1).set k v).2 es2 from rfl]
    rw [canonForm_set_append es1 k v hk, hrec, List.append_assoc]
    rfl

theorem cloneMapEntries_foldSet : ∀ (vs : ValList) (oks : List Str)
    (acc : DynamicJSON), goodKeysMap vs oks = true → ¬ acc.iterCounter < 0 →
    cloneMapEntries vs oks acc =
      foldSet acc ((livePairs vs oks).map fun p => (p.1, cloneValue p.2))
  | .nil, oks, acc, _, _ => by simp [cloneMapEntries, livePairs, foldSet]
  | .cons v r, oks, acc, hg, hfr => by
    by_cases hdel : v.isDeletedEntry
    · rw [show cloneMapEntries (.cons v r) oks acc =
          cloneMapEntries r oks.tail acc from by simp [cloneMapEntries, hdel]]
      rw [livePairs_cons_deleted v r oks hdel]
      exact cloneMapEntries_foldSet r oks.tail acc
        (by simpa [goodKeysMap, hdel] using hg) hfr
    · have hdel2 : v.isDeletedEntry = false := by simpa using hdel
      have hg2 : ((decide (oks.headD [] ≠ []) && !(oks.headD []).contains '/') &&
          goodKeysVal v && goodKeysMap r oks.tail) = true := by
        simpa [goodKeysMap, hdel2] using hg
      simp only [Bool.and_eq_true, Bool.not_eq_true', decide_eq_true_eq] at hg2
      obtain ⟨⟨⟨hne, hnc⟩, hgv⟩, hgr⟩ := hg2
      obtain ⟨c, k2, hck⟩ : ∃ c k2, oks.headD [] = c :: k2 := by
        cases hok : oks.headD [] with
        | nil => exact absurd hok hne
        | cons c k2 => exact ⟨c, k2, rfl⟩
      have hsl : ∀ x ∈ oks.headD [], x ≠ '/' := nocontains_slash _ hnc
      have hsetp : setPub acc (oks.headD []) (cloneValue v) =
          (acc.set (oks.headD []) (cloneValue v)).2 := by
        rw [hck]
        exact setPub_eq_set acc c k2 _ (hck ▸ hsl) hfr
      rw [show cloneMapEntries (.cons v r) oks acc =
          cloneMapEntries r oks.tail (setPub acc (oks.headD []) (cloneValue v))
          from by simp [cloneMapEntries, hdel2]]
      rw [hsetp]
      have hfr2 : ¬ (acc.set (oks.headD []) (cloneValue v)).2.iterCounter < 0 := by
        rw [set_iterCounter_eq]
        exact hfr
      rw [cloneMapEntries_foldSet r oks.tail _ hgr hfr2]
      rw [livePairs_cons_live v r oks hdel2]
      simp [foldSet]

theorem cloneDoc_map_canonForm (ks : List (Str × Nat)) (oks : List Str)
    (ic : Int) (vs : ValList) (hg : goodKeysMap vs oks = true)
    (hnd : ((livePairs vs oks).map Prod.fst).Nodup) :
    cloneDoc (.mk (some ks) oks ic vs) =
      canonForm ((livePairs vs oks).map fun p => (p.1, cloneValue p.2)) := by
  rw [show cloneDoc (.mk (some ks) oks ic vs) = cloneMapEntries vs oks NewMap
      from rfl]
  rw [cloneMapEntries_foldSet vs oks NewMap hg (by simp [NewMap])]
  have hnd2 : ((([] : List (Str × GoAny)) ++
      (livePairs vs oks).map fun p => (p.1, cloneValue p.2)).map Prod.fst).Nodup := by
    simpa [List.map_map] using hnd
  have hfold := foldSet_canonForm
    ((livePairs vs oks).map fun p => (p.1, cloneValue p.2)) [] hnd2
  rw [show canonForm [] = NewMap from rfl] at hfold
  rw [hfold]
  simp

theorem liveKeysOf_maps : ∀ (es : List (Str × GoAny)),
    (∀ p ∈ es, p.2.isDeletedEntry = false) →
    liveKeysOf (es.map Prod.snd) (es.map Prod.fst) = es.map Prod.fst
  | [], _ => rfl
  | p :: es, h => by
    rw [List.map_cons, List.map_cons,
      liveKeysOf_cons_live p.2 _ p.1 _ (h p (List.mem_cons_self _ _))]
    rw [liveKeysOf_maps es fun q hq => h q (List.mem_cons_of_mem _ hq)]

theorem canonForm_Keys (es : List (Str × GoAny))
    (h : ∀ p ∈ es, p.2.isDeletedEntry = false) :
    (canonForm es).Keys = es.map Prod.fst := by
  rw [show (canonForm es).Keys = liveKeysOf (es.map Prod.snd) (es.map Prod.fst)
      from by simp [canonForm, DynamicJSON.Keys]]
  exact liveKeysOf_maps es h

theorem cloneValue_isDeletedEntry : ∀ v : GoAny,
    (cloneValue v).isDeletedEntry = v.isDeletedEntry
  | .null => rfl
  | .boolean _ => rfl
  | .intV _ => rfl
  | .number _ => rfl
  | .str _ => rfl
  | .doc _ => rfl
  | .deletedEntry => rfl
  | .nilDoc => rfl

theorem cloneArrItems_toList : ∀ vs : ValList,
    (cloneArrItems vs).toList = vs.toList.map cloneValue
  | .nil => rfl
  | .cons v r => by
    simp [cloneArrItems, ValList.toList_cons, cloneArrItems_toList r]

theorem isEqualArr_of_pointwise : ∀ vs : ValList,
    (∀ v ∈ vs.toList, isEqualPair (cloneValue v) v = true) →
    isEqualArr (cloneArrItems vs) vs = true
  | .nil, _ => rfl
  | .cons w r, h => by
    have hw := h w (by rw [ValList.toList_cons]; exact List.mem_cons_self _ _)
    have hr := isEqualArr_of_pointwise r fun v hv =>
      h v (by rw [ValList.toList_cons]; exact List.mem_cons_of_mem _ hv)
    simp [cloneArrItems, isEqualArr, hw, hr]

theorem unfrozenDeepList_of_all : ∀ vs : ValList,
    (∀ v ∈ vs.toList, unfrozenDeepVal v = true) → unfrozenDeepList vs = true
  | .nil, _ => rfl
  | .cons w r, h => by
    have hw := h w (by rw [ValList.toList_cons]; exact List.mem_cons_self _ _)
    have hr := unfrozenDeepList_of_all r fun v hv =>
      h v (by rw [ValList.toList_cons]; exact List.mem_cons_of_mem _ hv)
    simp [unfrozenDeepList, hw, hr]

theorem wfMapNode_parts {ks : List (Str × Nat)} {oks : List Str}
    {vals : List GoAny} (h : wfMapNode ks oks vals = true) :
    oks.length = vals.length ∧
    ks.length = ((vals.zip oks).enum.filter fun p => ¬ p.2.1.isDeletedEntry).length ∧
    (∀ p ∈ (vals.zip oks).enum.filter fun p => ¬ p.2.1.isDeletedEntry,
        lookupKey ks p.2.2 = some p.1) ∧
    (((vals.zip oks).enum.filter fun p => ¬ p.2.1.isDeletedEntry).map
        fun p => p.2.2).Nodup := by
  simp only [wfMapNode, Bool.and_eq_true, beq_iff_eq, List.all_eq_true,
    decide_eq_true_eq] at h
  obtain ⟨h1, ⟨h2, h3⟩, h4⟩ := h
  exact ⟨h1, h2, fun p hp => by simpa using h3 p hp, h4⟩

theorem wfMapNode_lookup {ks : List (Str × Nat)} {oks : List Str}
    {vals : List GoAny} (h : wfMapNode ks oks vals = true)
    (i : Nat) (v : GoAny) (k : Str) (hv : vals.get? i = some v)
    (hk : oks.get? i = some k) (hl : v.isDeletedEntry = false) :
    lookupKey ks k = some i := by
  obtain ⟨h1, h2, h3, h4⟩ := wfMapNode_parts h
  have hzip : (vals.zip oks).get? i = some (v, k) := zip_get?_some _ _ i v k hv hk
  have henum : (vals.zip oks).enum.get? i = some (i, (v, k)) := by
    rw [List.enum_get?, hzip]
    rfl
  have hmem : (i, (v, k)) ∈ (vals.zip oks).enum := List.get?_mem henum
  have hmemf : (i, (v, k)) ∈
      (vals.zip oks).enum.filter fun p => ¬ p.2.1.isDeletedEntry := by
    rw [List.mem_filter]
    exact ⟨hmem, by simp [hl]⟩
  exact h3 _ hmemf

theorem wfMapNode_liveKeys {ks : List (Str × Nat)} {oks : List Str}
    {vals : List GoAny} (h : wfMapNode ks oks vals = true) :
    (liveKeysOf vals oks).Nodup ∧ ks.length = (liveKeysOf vals oks).length := by
  obtain ⟨h1, h2, h3, h4⟩ := wfMapNode_parts h
  have hb : (((vals.zip oks).enum.filter fun p => ¬ p.2.1.isDeletedEntry).map
      fun p => p.2.2) = liveKeysOf vals oks := by
    rw [show (vals.zip oks).enum = (vals.zip oks).enumFrom 0 from rfl]
    exact enumFrom_live_map_snd 0 (vals.zip oks)
  constructor
  · rw [← hb]
    exact h4
  · rw [← hb, List.length_map]
    exact h2

theorem isEqualMapItems_of_found : ∀ (es : List (Str × GoAny))
    (ks : List (Str × Nat)) (vals2 : List GoAny),
    (∀ p ∈ es, p.2.isDeletedEntry = false ∧
      ∃ i v2, lookupKey ks p.1 = some i ∧ vals2.get? i = some v2 ∧
        isEqualPair p.2 v2 = true) →
    isEqualMapItems (ValList.ofList (es.map Prod.snd)) (es.map Prod.fst) ks
      vals2 = true
  | [], ks, vals2, _ => rfl
  | (k, v) :: es, ks, vals2, h => by
    obtain ⟨hlive, i, v2, hlk, hv2, heq⟩ := h (k, v) (List.mem_cons_self _ _)
    rw [show ValList.ofList (((k, v) :: es).map Prod.snd) =
        ValList.cons v (ValList.ofList (es.map Prod.snd)) from rfl]
    rw [show ((k, v) :: es).map Prod.fst = k :: es.map Prod.fst from rfl]
    simp only [isEqualMapItems, hlive, Bool.false_eq_true, if_false,
      List.headD_cons, hlk, hv2, List.tail_cons]
    rw [heq, isEqualMapItems_of_found es ks vals2
      fun p hp => h p (List.mem_cons_of_mem _ hp)]
    rfl

theorem canonForm_def (es : List (Str × GoAny)) : canonForm es =
    .mk (some (enumIndex es)) (es.map Prod.fst) 0
      (ValList.ofList (es.map Prod.snd)) := rfl

theorem isEqualDoc_mk_mk (ks1 : List (Str × Nat)) (oks1 : List Str) (ic1 : Int)
    (vs1 : ValList) (ks2 : List (Str × Nat)) (oks2 : List Str) (ic2 : Int)
    (vs2 : ValList) :
    isEqualDoc (.mk (some ks1) oks1 ic1 vs1) (.mk (some ks2) oks2 ic2 vs2) =
      (decide (ks1.length = ks2.length) &&
        isEqualMapItems vs1 oks1 ks2 vs2.toList) := rfl

theorem unfrozenDeepDoc_mk (a : Option (List (Str × Nat))) (b : List Str)
    (ic : Int) (vs : ValList) : unfrozenDeepDoc (.mk a b ic vs) =
      (decide (0 ≤ ic) && unfrozenDeepList vs) := rfl

mutual

theorem cloneVal_facts : ∀ v : GoAny, goodKeysVal v = true → wfVal v = true →
    isEqualPair (cloneValue v) v = true ∧ unfrozenDeepVal (cloneValue v) = true
  | .null, _, _ => ⟨rfl, rfl⟩
  | .boolean b, _, _ => ⟨by simp [cloneValue, isEqualPair, beqVal], rfl⟩
  | .intV n, _, _ => ⟨by simp [cloneValue, isEqualPair, beqVal], rfl⟩
  | .number s, _, _ => ⟨by simp [cloneValue, isEqualPair, beqVal], rfl⟩
  | .str s, _, _ => ⟨by simp [cloneValue, isEqualPair, beqVal], rfl⟩
  | .deletedEntry, _, hw => nomatch hw
  | .nilDoc, _, hw => nomatch hw
  | .doc d, hg, hw => by
    have hd := cloneDoc_facts d hg hw
    exact ⟨hd.1, hd.2⟩

theorem cloneArrSlots_facts : ∀ (vs : ValList),
    goodKeysList vs = true → wfArr vs = true →
    ∀ v ∈ vs.toList, isEqualPair (cloneValue v) v = true ∧
      unfrozenDeepVal (cloneValue v) = true
  | .nil, _, _ => by
    intro v hv
    rw [ValList.toList_nil] at hv
    cases hv
  | .cons w r, hg, hw => by
    intro v hv
    rw [ValList.toList_cons] at hv
    obtain ⟨hg1, hg2⟩ : goodKeysVal w = true ∧ goodKeysList r = true := by
      simpa [goodKeysList, Bool.and_eq_true] using hg
    obtain ⟨hw1, hw2⟩ : wfVal w = true ∧ wfArr r = true := by
      simpa [wfArr, Bool.and_eq_true] using hw
    rcases List.mem_cons.mp hv with heq | hv2
    · subst heq
      exact cloneVal_facts v hg1 hw1
    · exact cloneArrSlots_facts r hg2 hw2 v hv2

theorem cloneMapSlots_facts : ∀ (vs : ValList) (oks : List Str),
    goodKeysMap vs oks = true → wfMapVals vs = true →
    ∀ v ∈ vs.toList, isEqualPair (cloneValue v) v = true ∧
      unfrozenDeepVal (cloneValue v) = true
  | .nil, _, _, _ => by
    intro v hv
    rw [ValList.toList_nil] at hv
    cases hv
  | .cons w r, oks, hg, hw => by
    intro v hv
    rw [ValList.toList_cons] at hv
    obtain ⟨hw1, hw2⟩ : (w.isDeletedEntry || wfVal w) = true ∧
        wfMapVals r = true := by
      simpa [wfMapVals, Bool.and_eq_true] using hw
    by_cases hdel : w.isDeletedEntry
    · have hwdel : w = .deletedEntry := by
        cases w with
        | deletedEntry => rfl
        | null => simp [GoAny.isDeletedEntry] at hdel
        | boolean b => simp [GoAny.isDeletedEntry] at hdel
        | intV n => simp [GoAny.isDeletedEntry] at hdel
        | number s => simp [GoAny.isDeletedEntry] at hdel
        | str s => simp [GoAny.isDeletedEntry] at hdel
        | doc d2 => simp [GoAny.isDeletedEntry] at hdel
        | nilDoc => simp [GoAny.isDeletedEntry] at hdel
      have hgr : goodKeysMap r oks.tail = true := by
        simpa [goodKeysMap, hdel] using hg
      rcases List.mem_cons.mp hv with heq | hv2
      · subst heq
        rw [hwdel]
        exact ⟨rfl, rfl⟩
      · exact cloneMapSlots_facts r oks.tail hgr hw2 v hv2
    · have hdel2 : w.isDeletedEntry = false := by simpa using hdel
      have hg2 : ((decide (oks.headD [] ≠ []) && !(oks.headD []).contains '/') &&
          goodKeysVal w && goodKeysMap r oks.tail) = true := by
        simpa [goodKeysMap, hdel2] using hg
      simp only [Bool.and_eq_true, Bool.not_eq_true', decide_eq_true_eq] at hg2
      obtain ⟨⟨hgk, hgv⟩, hgr⟩ := hg2
      have hwv : wfVal w = true := by
        rw [hdel2] at hw1
        simpa using hw1
      rcases List.mem_cons.mp hv with heq | hv2
      · subst heq
        exact cloneVal_facts v hgv hwv
      · exact cloneMapSlots_facts r oks.tail hgr hw2 v hv2

theorem cloneDoc_facts : ∀ d : DynamicJSON, goodKeysDoc d = true →
    wfDoc d = true →
    isEqualDoc (cloneDoc d) d = true ∧ unfrozenDeepDoc (cloneDoc d) = true
  | .mk none oks ic vs, hg, hw => by
    have hga : goodKeysList vs = true := by simpa [goodKeysDoc] using hg
    have hwa : wfArr vs = true := by simpa [wfDoc] using hw
    have hpt := cloneArrSlots_facts vs hga hwa
    refine ⟨isEqualArr_of_pointwise vs fun v hv => (hpt v hv).1, ?_⟩
    rw [show cloneDoc (.mk none oks ic vs) = .mk none [] 0 (cloneArrItems vs)
        from rfl]
    rw [unfrozenDeepDoc_mk]
    have hlist : unfrozenDeepList (cloneArrItems vs) = true := by
      apply unfrozenDeepList_of_all
      intro v hv
      rw [cloneArrItems_toList] at hv
      obtain ⟨w, hwm, rfl⟩ := List.mem_map.mp hv
      exact (hpt w hwm).2
    simp [hlist]
  | .mk (some ks) oks ic vs, hg, hw => by
    have hgm : goodKeysMap vs oks = true := by simpa [goodKeysDoc] using hg
    obtain ⟨hwn, hwv⟩ : wfMapNode ks oks vs.toList = true ∧
        wfMapVals vs = true := by
      simpa [wfDoc, Bool.and_eq_true] using hw
    have hpt := cloneMapSlots_facts vs oks hgm hwv
    have hlen : vs.toList.length = oks.length := ((wfMapNode_parts hwn).1).symm
    have hlk := wfMapNode_liveKeys hwn
    have hkeq := livePairs_keys_eq vs oks hlen
    have hnd : ((livePairs vs oks).map Prod.fst).Nodup := by
      rw [hkeq]
      exact hlk.1
    have hcanon := cloneDoc_map_canonForm ks oks ic vs hgm hnd
    have hlenks : ks.length = (livePairs vs oks).length := by
      have h5 := hlk.2
      rw [← hkeq, List.length_map] at h5
      exact h5
    constructor
    · rw [show isEqualDoc (cloneDoc (.mk (some ks) oks ic vs))
          (.mk (some ks) oks ic vs) =
          isEqualDoc (cloneDoc (.mk (some ks) oks ic vs))
            (.mk (some ks) oks ic vs) from rfl]
      rw [hcanon, canonForm_def, isEqualDoc_mk_mk]
      have hfound : ∀ p ∈ (livePairs vs oks).map fun p => (p.1, cloneValue p.2),
          p.2.isDeletedEntry = false ∧
          ∃ i v2, lookupKey ks p.1 = some i ∧ vs.toList.get? i = some v2 ∧
            isEqualPair p.2 v2 = true := by
        intro p hp
        obtain ⟨q, hq, rfl⟩ := List.mem_map.mp hp
        obtain ⟨k1, v1⟩ := q
        have hlive := livePairs_live vs oks k1 v1 hq
        obtain ⟨i, hgi, hki⟩ := livePairs_mem_index vs oks k1 v1 hlen hq
        refine ⟨by rw [cloneValue_isDeletedEntry]; exact hlive, i, v1, ?_, hgi, ?_⟩
        · exact wfMapNode_lookup hwn i v1 k1 hgi hki hlive
        · exact (hpt v1 (livePairs_mem_val vs oks k1 v1 hq)).1
      rw [isEqualMapItems_of_found _ ks vs.toList hfound]
      simp only [enumIndex_length, List.length_map, Bool.and_true,
        decide_eq_true_eq]
      exact hlenks.symm
    · rw [hcanon, canonForm_def, unfrozenDeepDoc_mk]
      have hl2 : unfrozenDeepList (ValList.ofList
          (((livePairs vs oks).map fun p => (p.1, cloneValue p.2)).map
            Prod.snd)) = true := by
        apply unfrozenDeepList_of_all
        rw [ValList.toList_ofList]
        intro v hv
        obtain ⟨q, hq, rfl⟩ := List.mem_map.mp hv
        obtain ⟨q2, hq2, rfl⟩ := List.mem_map.mp hq
        obtain ⟨k1, v1⟩ := q2
        exact (hpt v1 (livePairs_mem_val vs oks k1 v1 hq2)).2
      rw [hl2]
      rfl

end

theorem clone_keys_len : ∀ (d : DynamicJSON), goodKeysDoc d = true →
    wfDoc d = true →
    (cloneDoc d).Keys = d.Keys ∧ (cloneDoc d).Len = d.Keys.length
  | .mk none oks ic vs, _, _ => by
    constructor
    · rw [show cloneDoc (.mk none oks ic vs) = .mk none [] 0 (cloneArrItems vs)
          from rfl]
      rw [show (DynamicJSON.mk none [] 0 (cloneArrItems vs)).Keys =
          (List.range (cloneArrItems vs).toList.length).map natRepr from rfl]
      rw [show (DynamicJSON.mk none oks ic vs).Keys =
          (List.range vs.toList.length).map natRepr from rfl]
      rw [cloneArrItems_toList, List.length_map]
    · rw [show cloneDoc (.mk none oks ic vs) = .mk none [] 0 (cloneArrItems vs)
          from rfl]
      rw [show (DynamicJSON.mk none [] 0 (cloneArrItems vs)).Len =
          (cloneArrItems vs).toList.length from rfl]
      rw [show (DynamicJSON.mk none oks ic vs).Keys =
          (List.range vs.toList.length).map natRepr from rfl]
      rw [cloneArrItems_toList, List.length_map, List.length_map,
        List.length_range]
  | .mk (some ks) oks ic vs, hg, hw => by
    have hgm : goodKeysMap vs oks = true := by simpa [goodKeysDoc] using hg
    obtain ⟨hwn, hwv⟩ : wfMapNode ks oks vs.toList = true ∧
        wfMapVals vs = true := by
      simpa [wfDoc, Bool.and_eq_true] using hw
    have hlen : vs.toList.length = oks.length := ((wfMapNode_parts hwn).1).symm
    have hlk := wfMapNode_liveKeys hwn
    have hkeq := livePairs_keys_eq vs oks hlen
    have hnd : ((livePairs vs oks).map Prod.fst).Nodup := by
      rw [hkeq]
      exact hlk.1
    have hcanon := cloneDoc_map_canonForm ks oks ic vs hgm hnd
    have hlivecl : ∀ p ∈ (livePairs vs oks).map fun p => (p.1, cloneValue p.2),
        p.2.isDeletedEntry = false := by
      intro p hp
      obtain ⟨q, hq, rfl⟩ := List.mem_map.mp hp
      obtain ⟨k1, v1⟩ := q
      rw [cloneValue_isDeletedEntry]
      exact livePairs_live vs oks k1 v1 hq
    have hkeys : (cloneDoc (.mk (some ks) oks ic vs)).Keys =
        liveKeysOf vs.toList oks := by
      rw [hcanon, canonForm_Keys _ hlivecl]
      rw [show ((livePairs vs oks).map fun p => (p.1, cloneValue p.2)).map
          Prod.fst = (livePairs vs oks).map Prod.fst from by
        simp [List.map_map]]
      exact hkeq
    constructor
    · rw [hkeys]
      rfl
    · rw [show (DynamicJSON.mk (some ks) oks ic vs).Keys =
          liveKeysOf vs.toList oks from rfl]
      rw [hcanon, canonForm_def]
      rw [show (DynamicJSON.mk (some (enumIndex ((livePairs vs oks).map
            fun p => (p.1, cloneValue p.2))))
          (((livePairs vs oks).map fun p => (p.1, cloneValue p.2)).map Prod.fst)
          0 (ValList.ofList (((livePairs vs oks).map
            fun p => (p.1, cloneValue p.2)).map Prod.snd))).Len =
          (enumIndex ((livePairs vs oks).map
            fun p => (p.1, cloneValue p.2))).length from rfl]
      rw [enumIndex_length, List.length_map]
      rw [← hkeq, List.length_map]

/-- C10 counterexample: `Clone` rebuilds a map by re-`Set`ting every live
key through the public, path-based `Set`, so a key containing `/`
(reachable through `Parse`, whose object loop inserts keys verbatim) is
reinterpreted as a path: cloning the document parsed from `\x7b"a/b":1\x7d`
yields live key `a`, not `a/b`. -/
theorem c10_clone_slash_key_counterexample :
    ((Parse ("\x7b\"a/b\":1\x7d".toList)).toOption.map fun d =>
        (Keys (Clone (some d)), Keys (some d))) =
      some ([['a']], [['a', '/', 'b']]) := by decide

/-- C10 (amended): for a document whose live map keys are all nonempty and
free of `/` (`goodKeysDoc`) and whose nodes satisfy the key-index invariant
(`wfDoc`), `Clone` returns a rebuilt document with the same live keys in
the same order, exactly one slot per live key (every tombstone dropped),
`IsEqual` to the original, and unfrozen everywhere — so the clone accepts
mutations even when the original is frozen.  (Aliasing is not expressible
in this value model; the clone is a structural rebuild by construction.) -/
theorem c10_clone_deep_copy (d : DynamicJSON)
    (hg : goodKeysDoc d = true) (hw : wfDoc d = true) :
    ∃ c, Clone (some d) = some c ∧ c.Keys = d.Keys ∧ c.Len = d.Keys.length ∧
      c.IsEqual d = true ∧ unfrozenDeepDoc c = true := by
  obtain ⟨h1, h2⟩ := clone_keys_len d hg hw
  obtain ⟨h3, h4⟩ := cloneDoc_facts d hg hw
  exact ⟨cloneDoc d, rfl, h1, h2, h3, h4⟩

/-- C10, witness: cloning a frozen one-entry map. -/
theorem c10_clone_deep_copy_witness :
    ∃ c, Clone (some (DynamicJSON.mk (some [(['a'], 0)]) [['a']] (-1000)
        (.cons (.intV 3) .nil))) = some c ∧
      c.Keys = (DynamicJSON.mk (some [(['a'], 0)]) [['a']] (-1000)
        (.cons (.intV 3) .nil)).Keys ∧
      c.Len = (DynamicJSON.mk (some [(['a'], 0)]) [['a']] (-1000)
        (.cons (.intV 3) .nil)).Keys.length ∧
      c.IsEqual (DynamicJSON.mk (some [(['a'], 0)]) [['a']] (-1000)
        (.cons (.intV 3) .nil)) = true ∧
      unfrozenDeepDoc c = true :=
  c10_clone_deep_copy _ (by decide) (by decide)

theorem canonVal_isDeletedEntry : ∀ v : GoAny,
    (canonVal v).isDeletedEntry = v.isDeletedEntry
  | .null => rfl
  | .boolean _ => rfl
  | .intV _ => rfl
  | .number _ => rfl
  | .str _ => rfl
  | .doc _ => rfl
  | .deletedEntry => rfl
  | .nilDoc => rfl

theorem canonArr_toList : ∀ vs : ValList,
    (canonArr vs).toList = vs.toList.map canonVal
  | .nil => rfl
  | .cons v r => by
    simp [canonArr, ValList.toList_cons, canonArr_toList r]

theorem canonMapEntries_foldSet : ∀ (vs : ValList) (oks : List Str)
    (acc : DynamicJSON),
    canonMapEntries vs oks acc =
      foldSet acc ((livePairs vs oks).map fun p => (p.1, canonVal p.2))
  | .nil, oks, acc => by simp [canonMapEntries, livePairs, foldSet]
  | .cons v r, oks, acc => by
    by_cases hdel : v.isDeletedEntry
    · rw [show canonMapEntries (.cons v r) oks acc =
          canonMapEntries r oks.tail acc from by simp [canonMapEntries, hdel]]
      rw [livePairs_cons_deleted v r oks hdel]
      exact canonMapEntries_foldSet r oks.tail acc
    · have hdel2 : v.isDeletedEntry = false := by simpa using hdel
      rw [show canonMapEntries (.cons v r) oks acc =
          canonMapEntries r oks.tail (acc.set (oks.headD []) (canonVal v)).2
          from by simp [canonMapEntries, hdel2]]
      rw [canonMapEntries_foldSet r oks.tail _]
      rw [livePairs_cons_live v r oks hdel2]
      simp [foldSet]

theorem canonDoc_map_canonForm (ks : List (Str × Nat)) (oks : List Str)
    (ic : Int) (vs : ValList)
    (hnd : ((livePairs vs oks).map Prod.fst).Nodup) :
    canonDoc (.mk (some ks) oks ic vs) =
      canonForm ((livePairs vs oks).map fun p => (p.1, canonVal p.2)) := by
  rw [show canonDoc (.mk (some ks) oks ic vs) = canonMapEntries vs oks NewMap
      from rfl]
  rw [canonMapEntries_foldSet vs oks NewMap]
  have hnd2 : ((([] : List (Str × GoAny)) ++
      (livePairs vs oks).map fun p => (p.1, canonVal p.2)).map Prod.fst).Nodup := by
    simpa [List.map_map] using hnd
  have hfold := foldSet_canonForm
    ((livePairs vs oks).map fun p => (p.1, canonVal p.2)) [] hnd2
  rw [show canonForm [] = NewMap from rfl] at hfold
  rw [hfold]
  simp

theorem eqStrArr_of_pointwise : ∀ vs : ValList,
    (∀ v ∈ vs.toList, eqStrPair (canonVal v) v = true) →
    eqStrArr (canonArr vs) vs = true
  | .nil, _ => rfl
  | .cons w r, h => by
    have hw := h w (by rw [ValList.toList_cons]; exact List.mem_cons_self _ _)
    have hr := eqStrArr_of_pointwise r fun v hv =>
      h v (by rw [ValList.toList_cons]; exact List.mem_cons_of_mem _ hv)
    simp [canonArr, eqStrArr, hw, hr]

theorem eqStrMapItems_of_found : ∀ (es : List (Str × GoAny))
    (ks : List (Str × Nat)) (vals2 : List GoAny),
    (∀ p ∈ es, p.2.isDeletedEntry = false ∧
      ∃ i v2, lookupKey ks p.1 = some i ∧ vals2.get? i = some v2 ∧
        eqStrPair p.2 v2 = true) →
    eqStrMapItems (ValList.ofList (es.map Prod.snd)) (es.map Prod.fst) ks
      vals2 = true
  | [], ks, vals2, _ => rfl
  | (k, v) :: es, ks, vals2, h => by
    obtain ⟨hlive, i, v2, hlk, hv2, heq⟩ := h (k, v) (List.mem_cons_self _ _)
    rw [show ValList.ofList (((k, v) :: es).map Prod.snd) =
        ValList.cons v (ValList.ofList (es.map Prod.snd)) from rfl]
    rw [show ((k, v) :: es).map Prod.fst = k :: es.map Prod.fst from rfl]
    simp only [eqStrMapItems, hlive, Bool.false_eq_true, if_false,
      List.headD_cons, hlk, hv2, List.tail_cons]
    rw [heq, eqStrMapItems_of_found es ks vals2
      fun p hp => h p (List.mem_cons_of_mem _ hp)]
    rfl

theorem wfMapVals_mem : ∀ (vs : ValList), wfMapVals vs = true →
    ∀ v ∈ vs.toList, v.isDeletedEntry = false → wfVal v = true
  | .nil, _ => by
    intro v hv _
    rw [ValList.toList_nil] at hv
    cases hv
  | .cons w r, h => by
    intro v hv hlive
    rw [ValList.toList_cons] at hv
    obtain ⟨h1, h2⟩ : (w.isDeletedEntry || wfVal w) = true ∧
        wfMapVals r = true := by
      simpa [wfMapVals, Bool.and_eq_true] using h
    rcases List.mem_cons.mp hv with heq | hv2
    · subst heq
      rw [hlive] at h1
      simpa using h1
    · exact wfMapVals_mem r h2 v hv2 hlive

theorem eqStrDoc_mk_mk (ks1 : List (Str × Nat)) (oks1 : List Str) (ic1 : Int)
    (vs1 : ValList) (ks2 : List (Str × Nat)) (oks2 : List Str) (ic2 : Int)
    (vs2 : ValList) :
    eqStrDoc (.mk (some ks1) oks1 ic1 vs1) (.mk (some ks2) oks2 ic2 vs2) =
      (decide (ks1.length = ks2.length) &&
        eqStrMapItems vs1 oks1 ks2 vs2.toList) := rfl

mutual

theorem canonVal_eqStr : ∀ v : GoAny, wfVal v = true →
    eqStrPair (canonVal v) v = true
  | .null, _ => by simp [canonVal, eqStrPair]
  | .boolean b, _ => by simp [canonVal, eqStrPair]
  | .intV n, _ => by simp [canonVal, eqStrPair, scalar2str]
  | .number s, _ => by simp [canonVal, eqStrPair]
  | .str s, _ => by simp [canonVal, eqStrPair]
  | .deletedEntry, hw => nomatch hw
  | .nilDoc, hw => nomatch hw
  | .doc d, hw => canonDoc_eqStr d hw

theorem canonArrSlots_eqStr : ∀ (vs : ValList), wfArr vs = true →
    ∀ v ∈ vs.toList, eqStrPair (canonVal v) v = true
  | .nil, _ => by
    intro v hv
    rw [ValList.toList_nil] at hv
    cases hv
  | .cons w r, hw => by
    intro v hv
    rw [ValList.toList_cons] at hv
    obtain ⟨hw1, hw2⟩ : wfVal w = true ∧ wfArr r = true := by
      simpa [wfArr, Bool.and_eq_true] using hw
    rcases List.mem_cons.mp hv with heq | hv2
    · subst heq
      exact canonVal_eqStr v hw1
    · exact canonArrSlots_eqStr r hw2 v hv2

theorem canonMapSlots_eqStr : ∀ (vs : ValList), wfMapVals vs = true →
    ∀ v ∈ vs.toList, v.isDeletedEntry = false →
      eqStrPair (canonVal v) v = true
  | .nil, _ => by
    intro v hv _
    rw [ValList.toList_nil] at hv
    cases hv
  | .cons w r, hw => by
    intro v hv hlive
    rw [ValList.toList_cons] at hv
    obtain ⟨hw1, hw2⟩ : (w.isDeletedEntry || wfVal w) = true ∧
        wfMapVals r = true := by
      simpa [wfMapVals, Bool.and_eq_true] using hw
    rcases List.mem_cons.mp hv with heq | hv2
    · subst heq
      rw [hlive] at hw1
      exact canonVal_eqStr v (by simpa using hw1)
    · exact canonMapSlots_eqStr r hw2 v hv2 hlive

theorem canonDoc_eqStr : ∀ d : DynamicJSON, wfDoc d = true →
    eqStrDoc (canonDoc d) d = true
  | .mk none oks ic vs, hw => by
    have hwa : wfArr vs = true := by simpa [wfDoc] using hw
    exact eqStrArr_of_pointwise vs fun v hv => canonArrSlots_eqStr vs hwa v hv
  | .mk (some ks) oks ic vs, hw => by
    obtain ⟨hwn, hwv⟩ : wfMapNode ks oks vs.toList = true ∧
        wfMapVals vs = true := by
      simpa [wfDoc, Bool.and_eq_true] using hw
    have hlen : vs.toList.length = oks.length := ((wfMapNode_parts hwn).1).symm
    have hlk := wfMapNode_liveKeys hwn
    have hkeq := livePairs_keys_eq vs oks hlen
    have hnd : ((livePairs vs oks).map Prod.fst).Nodup := by
      rw [hkeq]
      exact hlk.1
    have hcanon := canonDoc_map_canonForm ks oks ic vs hnd
    have hlenks : ks.length = (livePairs vs oks).length := by
      have h5 := hlk.2
      rw [← hkeq, List.length_map] at h5
      exact h5
    rw [hcanon, canonForm_def, eqStrDoc_mk_mk]
    have hfound : ∀ p ∈ (livePairs vs oks).map fun p => (p.1, canonVal p.2),
        p.2.isDeletedEntry = false ∧
        ∃ i v2, lookupKey ks p.1 = some i ∧ vs.toList.get? i = some v2 ∧
          eqStrPair p.2 v2 = true := by
      intro p hp
      obtain ⟨q, hq, rfl⟩ := List.mem_map.mp hp
      obtain ⟨k1, v1⟩ := q
      have hlive := livePairs_live vs oks k1 v1 hq
      obtain ⟨i, hgi, hki⟩ := livePairs_mem_index vs oks k1 v1 hlen hq
      refine ⟨by rw [canonVal_isDeletedEntry]; exact hlive, i, v1, ?_, hgi, ?_⟩
      · exact wfMapNode_lookup hwn i v1 k1 hgi hki hlive
      · exact canonMapSlots_eqStr vs hwv v1
          (livePairs_mem_val vs oks k1 v1 hq) hlive
    rw [eqStrMapItems_of_found _ ks vs.toList hfound]
    simp only [enumIndex_length, List.length_map, Bool.and_true,
      decide_eq_true_eq]
    exact hlenks.symm

end

theorem canonDoc_keys : ∀ (d : DynamicJSON), wfDoc d = true →
    (canonDoc d).Keys = d.Keys
  | .mk none oks ic vs, _ => by
    rw [show canonDoc (.mk none oks ic vs) = .mk none [] 0 (canonArr vs)
        from rfl]
    rw [show (DynamicJSON.mk none [] 0 (canonArr vs)).Keys =
        (List.range (canonArr vs).toList.length).map natRepr from rfl]
    rw [show (DynamicJSON.mk none oks ic vs).Keys =
        (List.range vs.toList.length).map natRepr from rfl]
    rw [canonArr_toList, List.length_map]
  | .mk (some ks) oks ic vs, hw => by
    obtain ⟨hwn, hwv⟩ : wfMapNode ks oks vs.toList = true ∧
        wfMapVals vs = true := by
      simpa [wfDoc, Bool.and_eq_true] using hw
    have hlen : vs.toList.length = oks.length := ((wfMapNode_parts hwn).1).symm
    have hlk := wfMapNode_liveKeys hwn
    have hkeq := livePairs_keys_eq vs oks hlen
    have hnd : ((livePairs vs oks).map Prod.fst).Nodup := by
      rw [hkeq]
      exact hlk.1
    have hcanon := canonDoc_map_canonForm ks oks ic vs hnd
    have hlivecl : ∀ p ∈ (livePairs vs oks).map fun p => (p.1, canonVal p.2),
        p.2.isDeletedEntry = false := by
      intro p hp
      obtain ⟨q, hq, rfl⟩ := List.mem_map.mp hp
      obtain ⟨k1, v1⟩ := q
      rw [canonVal_isDeletedEntry]
      exact livePairs_live vs oks k1 v1 hq
    rw [hcanon, canonForm_Keys _ hlivecl]
    rw [show ((livePairs vs oks).map fun p => (p.1, canonVal p.2)).map
        Prod.fst = (livePairs vs oks).map Prod.fst from by
      simp [List.map_map]]
    rw [hkeq]
    rfl

theorem skipWs_cons (c : Char) (s : Str) (h : isWs c = false) :
    skipWs (c :: s) = c :: s := by
  simp [skipWs, List.dropWhile_cons, h]

theorem hexVal_hexDigitChar (k : Nat) (hk : k < 16) :
    hexVal (hexDigitChar k) = some k := by
  interval_cases k <;> decide

theorem charOfCode_toNat (c : Char) : charOfCode c.toNat = c := by
  unfold charOfCode
  rw [if_pos (show c.toNat.isValidChar from c.valid), Char.ofNat_toNat]

theorem parseStrBody_escU00 (n : Nat) (hn : n < 256) (tail : Str) :
    parseStrBody (escU00 n ++ tail) =
      (parseStrBody tail).map fun p => (charOfCode n :: p.1, p.2) := by
  have h1 : hexVal (hexDigitChar (n / 16)) = some (n / 16) :=
    hexVal_hexDigitChar _ (by omega)
  have h2 : hexVal (hexDigitChar (n % 16)) = some (n % 16) :=
    hexVal_hexDigitChar _ (by omega)
  have h0 : hexVal '0' = some 0 := by decide
  have harith : ((0 * 16 + 0) * 16 + n / 16) * 16 + n % 16 = n := by omega
  simp only [escU00, List.cons_append, parseStrBody, h0, h1, h2]
  rw [harith]
  rfl

theorem parseStrBody_escape (c : Char) (tail : Str) :
    parseStrBody (escapeChar c ++ tail) =
      (parseStrBody tail).map fun p => (c :: p.1, p.2) := by
  by_cases h1 : c = '\\' ∨ c = '"'
  · rcases h1 with h | h <;> subst h <;> simp [escapeChar, parseStrBody]
  · by_cases h2 : c = '\n'
    · subst h2
      simp [escapeChar, parseStrBody]
    · by_cases h3 : c = '\r'
      · subst h3
        simp [escapeChar, parseStrBody]
      · by_cases h4 : c = '\t'
        · subst h4
          simp [escapeChar, parseStrBody]
        · by_cases h5 : c = '<' ∨ c = '>' ∨ c = '&'
          · have hesc : escapeChar c = escU00 c.toNat := by
              rcases h5 with h | h | h <;> subst h <;> decide
            have hlt : c.toNat < 256 := by
              rcases h5 with h | h | h <;> subst h <;> decide
            rw [hesc, parseStrBody_escU00 c.toNat hlt tail, charOfCode_toNat c]
          · by_cases h6 : c.toNat < 0x20
            · have hesc : escapeChar c = escU00 c.toNat := by
                simp [escapeChar, h1, h2, h3, h4, h5, h6]
              rw [hesc, parseStrBody_escU00 c.toNat (by omega) tail,
                charOfCode_toNat c]
            · by_cases h7 : c = ' '
              · subst h7
                rw [show escapeChar ' ' =
                    ['\\', 'u', '2', '0', '2', '8'] from by decide]
                simp [parseStrBody, show hexVal '2' = some 2 from by decide,
                  show hexVal '0' = some 0 from by decide,
                  show hexVal '8' = some 8 from by decide,
                  show charOfCode (((2 * 16 + 0) * 16 + 2) * 16 + 8) = ' '
                    from by decide]
              · by_cases h8 : c = ' '
                · subst h8
                  rw [show escapeChar ' ' =
                      ['\\', 'u', '2', '0', '2', '9'] from by decide]
                  simp [parseStrBody, show hexVal '2' = some 2 from by decide,
                    show hexVal '0' = some 0 from by decide,
                    show hexVal '9' = some 9 from by decide,
                    show charOfCode (((2 * 16 + 0) * 16 + 2) * 16 + 9) = ' '
                      from by decide]
                · have hesc : escapeChar c = [c] := by
                    simp [escapeChar, h1, h2, h3, h4, h5, h6, h7, h8]
                  have hnb : c ≠ '\\' := fun he => h1 (Or.inl he)
                  have hnq : c ≠ '"' := fun he => h1 (Or.inr he)
                  rw [hesc]
                  simp [parseStrBody, hnb, hnq]

theorem parseStrBody_flatMap : ∀ (s rest : Str),
    parseStrBody (s.flatMap escapeChar ++ '"' :: rest) = some (s, rest)
  | [], rest => by simp [parseStrBody]
  | c :: s, rest => by
    rw [show (c :: s).flatMap escapeChar =
        escapeChar c ++ s.flatMap escapeChar from by simp]
    rw [List.append_assoc, parseStrBody_escape c _,
      parseStrBody_flatMap s rest]
    rfl

theorem all_digit_numChar (l : Str) (h : l.all Char.isDigit = true) :
    l.all isNumChar = true := by
  rw [List.all_eq_true] at h ⊢
  intro c hc
  have h2 := h c hc
  simp only [decide_eq_true_eq] at h2 ⊢
  simp [isNumChar, h2]

theorem all_takeWhile (p : Char → Bool) : ∀ (l : Str),
    (l.takeWhile p).all p = true
  | [] => rfl
  | c :: t => by
    rw [List.takeWhile_cons]
    by_cases hc : p c = true
    · rw [if_pos hc, List.all_cons, hc, all_takeWhile p t]
      rfl
    · rw [if_neg hc]
      rfl

theorem all_numChar_validExpDigits (r : Str) (h : validExpDigits r = true) :
    r.all isNumChar = true := by
  match r with
  | [] => rfl
  | c :: t =>
    by_cases hp : c = '+'
    · subst hp
      simp only [validExpDigits, Bool.and_eq_true, decide_eq_true_eq] at h
      rw [List.all_cons, all_digit_numChar t h.2]
      rfl
    · by_cases hm : c = '-'
      · subst hm
        simp only [validExpDigits, Bool.and_eq_true, decide_eq_true_eq] at h
        rw [List.all_cons, all_digit_numChar t h.2]
        rfl
      · have hred : validExpDigits (c :: t) =
            (decide (c :: t ≠ []) && (c :: t).all Char.isDigit) := by
          simp [validExpDigits, hp, hm]
        rw [hred, Bool.and_eq_true] at h
        exact all_digit_numChar _ h.2

theorem all_numChar_validExpPart (s : Str) (h : validExpPart s = true) :
    s.all isNumChar = true := by
  match s with
  | [] => rfl
  | c :: t =>
    by_cases he : c = 'e'
    · subst he
      rw [show validExpPart ('e' :: t) = validExpDigits t from rfl] at h
      rw [List.all_cons, all_numChar_validExpDigits t h]
      rfl
    · by_cases hE : c = 'E'
      · subst hE
        rw [show validExpPart ('E' :: t) = validExpDigits t from rfl] at h
        rw [List.all_cons, all_numChar_validExpDigits t h]
        rfl
      · have hred : validExpPart (c :: t) = false := by
          simp [validExpPart, he, hE]
        rw [hred] at h
        exact Bool.noConfusion h

theorem all_numChar_validFracPart (s : Str) (h : validFracPart s = true) :
    s.all isNumChar = true := by
  match s with
  | [] => rfl
  | c :: t =>
    by_cases hd : c = '.'
    · subst hd
      rw [show validFracPart ('.' :: t) =
          (decide (t.takeWhile Char.isDigit ≠ []) &&
            validExpPart (t.dropWhile Char.isDigit)) from rfl] at h
      simp only [Bool.and_eq_true, decide_eq_true_eq] at h
      rw [List.all_cons]
      have hsplit : t.takeWhile Char.isDigit ++ t.dropWhile Char.isDigit = t :=
        List.takeWhile_append_dropWhile _ _
      have ht : t.all isNumChar = true := by
        rw [← hsplit, List.all_append]
        rw [all_digit_numChar _ (all_takeWhile Char.isDigit t),
          all_numChar_validExpPart _ h.2]
        rfl
      rw [ht]
      rfl
    · have hred : validFracPart (c :: t) = validExpPart (c :: t) := by
        simp [validFracPart, hd]
      rw [hred] at h
      exact all_numChar_validExpPart _ h

theorem all_numChar_validNumber (s : Str) (h : validNumber s = true) :
    s.all isNumChar = true := by
  match s with
  | [] => rfl
  | c :: t =>
    by_cases hm : c = '-'
    · subst hm
      rw [List.all_cons]
      have ht : t.all isNumChar = true := by
        match t with
        | [] => rfl
        | c2 :: t2 =>
          by_cases h0 : c2 = '0'
          · subst h0
            have hred : validNumber ('-' :: '0' :: t2) = validFracPart t2 := by
              simp [validNumber]
            rw [hred] at h
            rw [List.all_cons, all_numChar_validFracPart t2 h]
            rfl
          · have hred : validNumber ('-' :: c2 :: t2) = (c2.isDigit &&
                validFracPart ((c2 :: t2).dropWhile Char.isDigit)) := by
              simp [validNumber, h0]
            rw [hred, Bool.and_eq_true] at h
            have hsplit : (c2 :: t2).takeWhile Char.isDigit ++
                (c2 :: t2).dropWhile Char.isDigit = c2 :: t2 :=
              List.takeWhile_append_dropWhile _ _
            rw [← hsplit, List.all_append]
            rw [all_digit_numChar _ (all_takeWhile Char.isDigit _),
              all_numChar_validFracPart _ h.2]
            rfl
      rw [ht]
      rfl
    · by_cases h0 : c = '0'
      · subst h0
        have hred : validNumber ('0' :: t) = validFracPart t := by
          simp [validNumber]
        rw [hred] at h
        rw [List.all_cons, all_numChar_validFracPart t h]
        rfl
      · have hred : validNumber (c :: t) = (c.isDigit &&
            validFracPart ((c :: t).dropWhile Char.isDigit)) := by
          simp [validNumber, hm, h0]
        rw [hred, Bool.and_eq_true] at h
        have hsplit : (c :: t).takeWhile Char.isDigit ++
            (c :: t).dropWhile Char.isDigit = c :: t :=
          List.takeWhile_append_dropWhile _ _
        rw [← hsplit, List.all_append]
        rw [all_digit_numChar _ (all_takeWhile Char.isDigit _),
          all_numChar_validFracPart _ h.2]
        rfl

theorem validNumber_shape (s : Str) (h : validNumber s = true) :
    ∃ c t, s = c :: t ∧ (c = '-' ∨ c.isDigit = true) := by
  match s with
  | [] => exact absurd h (by decide)
  | c :: t =>
    by_cases hm : c = '-'
    · exact ⟨c, t, rfl, Or.inl hm⟩
    · refine ⟨c, t, rfl, Or.inr ?_⟩
      by_cases h0 : c = '0'
      · subst h0
        decide
      · have hred : validNumber (c :: t) = (c.isDigit &&
            validFracPart ((c :: t).dropWhile Char.isDigit)) := by
          simp [validNumber, hm, h0]
        rw [hred, Bool.and_eq_true] at h
        exact h.1

theorem digit_not_special (c : Char) (h : c.isDigit = true) (d : Char)
    (hd : d.isDigit = false) : c ≠ d := by
  intro he
  subst he
  rw [h] at hd
  cases hd

theorem digit_not_ws (c : Char) (h : c.isDigit = true) : isWs c = false := by
  have h1 : c ≠ ' ' := digit_not_special c h ' ' (by decide)
  have h2 : c ≠ '\t' := digit_not_special c h '\t' (by decide)
  have h3 : c ≠ '\n' := digit_not_special c h '\n' (by decide)
  have h4 : c ≠ '\r' := digit_not_special c h '\r' (by decide)
  simp [isWs, h1, h2, h3, h4]

theorem takeWhile_append_all (p : Char → Bool) : ∀ (t rest : Str),
    t.all p = true →
    (t ++ rest).takeWhile p = t ++ rest.takeWhile p ∧
      (t ++ rest).dropWhile p = rest.dropWhile p
  | [], rest, _ => ⟨rfl, rfl⟩
  | c :: t, rest, h => by
    obtain ⟨hc, ht⟩ : p c = true ∧ t.all p = true := by
      simpa [List.all_cons, Bool.and_eq_true] using h
    have ih := takeWhile_append_all p t rest ht
    constructor
    · rw [List.cons_append, List.takeWhile_cons, if_pos hc, ih.1,
        List.cons_append]
    · rw [List.cons_append, List.dropWhile_cons, if_pos hc, ih.2]

theorem dropWhile_eq_self_of_takeWhile_nil (p : Char → Bool) (l : Str)
    (h : l.takeWhile p = []) : l.dropWhile p = l := by
  match l with
  | [] => rfl
  | c :: t =>
    rw [List.takeWhile_cons] at h
    by_cases hc : p c = true
    · rw [if_pos hc] at h
      simp at h
    · rw [List.dropWhile_cons, if_neg hc]

set_option maxHeartbeats 1000000 in
theorem parseVal_number (fuel : Nat) (t rest : Str)
    (hv : validNumber t = true) (hb : rest.takeWhile isNumChar = []) :
    parseVal (fuel + 1) (t ++ rest) = some (.number t, rest) := by
  obtain ⟨c, t2, rfl, hc⟩ := validNumber_shape t hv
  have hall : (c :: t2).all isNumChar = true := all_numChar_validNumber _ hv
  have hsplit := takeWhile_append_all isNumChar (c :: t2) rest hall
  have hdw : rest.dropWhile isNumChar = rest :=
    dropWhile_eq_self_of_takeWhile_nil isNumChar rest hb
  have hws : isWs c = false := by
    rcases hc with h | h
    · subst h; decide
    · exact digit_not_ws c h
  have hb1 : c ≠ '\x7b' := by
    rcases hc with h | h
    · subst h; decide
    · exact digit_not_special c h '\x7b' (by decide)
  have hb2 : c ≠ '[' := by
    rcases hc with h | h
    · subst h; decide
    · exact digit_not_special c h '[' (by decide)
  have hb3 : c ≠ '"' := by
    rcases hc with h | h
    · subst h; decide
    · exact digit_not_special c h '"' (by decide)
  have hb4 : c ≠ 't' := by
    rcases hc with h | h
    · subst h; decide
    · exact digit_not_special c h 't' (by decide)
  have hb5 : c ≠ 'f' := by
    rcases hc with h | h
    · subst h; decide
    · exact digit_not_special c h 'f' (by decide)
  have hb6 : c ≠ 'n' := by
    rcases hc with h | h
    · subst h; decide
    · exact digit_not_special c h 'n' (by decide)
  have hsw : skipWs (c :: (t2 ++ rest)) = c :: (t2 ++ rest) :=
    skipWs_cons _ _ hws
  simp only [List.cons_append] at hsplit ⊢
  simp [parseVal, hsw, hb1, hb2, hb3, hb4, hb5, hb6, hsplit.1, hsplit.2,
    hb, hdw, hv]

theorem digitChar_isDigit (k : Nat) (hk : k < 10) :
    (digitChar k).isDigit = true := by
  interval_cases k <;> decide

theorem natToDigits_facts : ∀ (fuel n : Nat), n < fuel →
    natToDigits fuel n ≠ [] ∧ (natToDigits fuel n).all Char.isDigit = true ∧
      (1 ≤ n → ∃ m, 1 ≤ m ∧ m ≤ 9 ∧
        (natToDigits fuel n).head? = some (digitChar m))
  | 0, n, hf => absurd hf (by omega)
  | fuel + 1, n, hf => by
    by_cases h10 : n < 10
    · rw [show natToDigits (fuel + 1) n = [digitChar n] from by
        simp [natToDigits, h10]]
      refine ⟨by simp, ?_, ?_⟩
      · rw [List.all_cons, digitChar_isDigit n h10]
        rfl
      · intro h1
        exact ⟨n, h1, by omega, rfl⟩
    · rw [show natToDigits (fuel + 1) n =
          natToDigits fuel (n / 10) ++ [digitChar (n % 10)] from by
        simp [natToDigits, h10]]
      have hlt : n / 10 < fuel := by omega
      obtain ⟨hne, hall, hhead⟩ := natToDigits_facts fuel (n / 10) hlt
      refine ⟨by simp, ?_, ?_⟩
      · rw [List.all_append, hall]
        rw [show ([digitChar (n % 10)]).all Char.isDigit = true from by
          rw [List.all_cons, digitChar_isDigit (n % 10) (by omega)]; rfl]
        rfl
      · intro _
        obtain ⟨m, hm1, hm2, hm3⟩ := hhead (by omega)
        refine ⟨m, hm1, hm2, ?_⟩
        rw [List.head?_append, hm3]
        rfl

theorem validNumber_of_digits (c : Char) (t : Str) (hc : c.isDigit = true)
    (hall : (c :: t).all Char.isDigit = true)
    (h0 : c = '0' → t = []) :
    validNumber (c :: t) = true := by
  have hm : c ≠ '-' := digit_not_special c hc '-' (by decide)
  by_cases h00 : c = '0'
  · subst h00
    rw [h0 rfl]
    decide
  · have hdw : (c :: t).dropWhile Char.isDigit = [] := by
      rw [List.dropWhile_eq_nil_iff]
      intro x hx
      exact (List.all_eq_true.mp hall) x hx
    have hred : validNumber (c :: t) = (c.isDigit &&
        validFracPart ((c :: t).dropWhile Char.isDigit)) := by
      simp [validNumber, hm, h00]
    rw [hred, hdw, hc]
    rfl

theorem validNumber_natRepr (n : Nat) : validNumber (natRepr n) = true := by
  obtain ⟨hne, hall, hhead⟩ := natToDigits_facts (n + 1) n (Nat.lt_succ_self n)
  by_cases h1 : 1 ≤ n
  · obtain ⟨m, hm1, hm2, hm3⟩ := hhead h1
    obtain ⟨c, t, hct⟩ : ∃ c t, natRepr n = c :: t := by
      cases hx : natRepr n with
      | nil => exact absurd hx hne
      | cons c t => exact ⟨c, t, rfl⟩
    have hcm : c = digitChar m := by
      rw [show natRepr n = natToDigits (n + 1) n from rfl] at hct
      rw [hct] at hm3
      simpa using hm3
    rw [show natRepr n = natToDigits (n + 1) n from rfl] at hct ⊢
    rw [hct]
    rw [hct] at hall
    apply validNumber_of_digits c t (by
      rw [List.all_cons, Bool.and_eq_true] at hall
      exact hall.1) hall
    intro he
    rw [hcm] at he
    have : ¬ digitChar m = '0' := by
      interval_cases m <;> decide
    exact absurd he this
  · have hn0 : n = 0 := by omega
    subst hn0
    decide

theorem validNumber_neg (c : Char) (t : Str) (hc : c ≠ '-') :
    validNumber ('-' :: c :: t) = validNumber (c :: t) := by
  simp [validNumber, hc]

theorem validNumber_intRepr (n : Int) : validNumber (intRepr n) = true := by
  cases n with
  | ofNat m => exact validNumber_natRepr m
  | negSucc m =>
    rw [show intRepr (.negSucc m) = '-' :: natRepr (m + 1) from rfl]
    obtain ⟨c, t, hct, hc⟩ := validNumber_shape _ (validNumber_natRepr (m + 1))
    rw [hct]
    have hcm : c ≠ '-' := by
      rcases hc with h | h
      · rw [show natRepr (m + 1) = natToDigits (m + 2) (m + 1) from rfl] at hct
        obtain ⟨_, hall, _⟩ :=
          natToDigits_facts (m + 2) (m + 1) (by omega)
        rw [hct, List.all_cons, Bool.and_eq_true] at hall
        rw [h] at hall
        exact absurd hall.1 (by decide)
      · exact digit_not_special c h '-' (by decide)
    rw [validNumber_neg c t hcm, ← hct]
    exact validNumber_natRepr (m + 1)

theorem writeMapItems_eq_writePairs : ∀ (vs : ValList) (oks : List Str)
    (first : Bool),
    writeMapItems vs oks first = writePairs (livePairs vs oks) first
  | .nil, _, _ => rfl
  | .cons v r, oks, first => by
    by_cases hdel : v.isDeletedEntry
    · rw [show writeMapItems (.cons v r) oks first =
          writeMapItems r oks.tail first from by simp [writeMapItems, hdel]]
      rw [livePairs_cons_deleted v r oks hdel]
      exact writeMapItems_eq_writePairs r oks.tail first
    · have hdel2 : v.isDeletedEntry = false := by simpa using hdel
      rw [show writeMapItems (.cons v r) oks first =
          ((if first then [] else [',']) ++ encodeString (oks.headD []) ++
            ':' :: writeOne v ++ writeMapItems r oks.tail false) from by
        simp [writeMapItems, hdel2]]
      rw [livePairs_cons_live v r oks hdel2]
      rw [writeMapItems_eq_writePairs r oks.tail false]
      rfl

theorem writePairs_false (ps : List (Str × GoAny)) :
    writePairs ps false =
      (if ps = [] then [] else ',' :: writePairs ps true) := by
  match ps with
  | [] => rfl
  | (k, v) :: r => simp [writePairs]

theorem writeArrItems_false : ∀ (vs : ValList),
    writeArrItems vs false =
      (if vs = .nil then [] else ',' :: writeArrItems vs true)
  | .nil => rfl
  | .cons v r => by
    rw [if_neg (show ¬ValList.cons v r = ValList.nil from
      fun h => ValList.noConfusion h)]
    simp [writeArrItems]

theorem pairsTail_boundary (ps : List (Str × GoAny)) (rest : Str) :
    (writePairs ps false ++ '\x7d' :: rest).takeWhile isNumChar = [] := by
  rw [writePairs_false]
  by_cases h : ps = []
  · rw [if_pos h, List.nil_append, List.takeWhile_cons, if_neg (by decide)]
  · rw [if_neg h, List.cons_append, List.takeWhile_cons, if_neg (by decide)]

theorem arrTail_boundary (vs : ValList) (rest : Str) :
    (writeArrItems vs false ++ ']' :: rest).takeWhile isNumChar = [] := by
  rw [writeArrItems_false]
  by_cases h : vs = .nil
  · rw [if_pos h, List.nil_append, List.takeWhile_cons, if_neg (by decide)]
  · rw [if_neg h, List.cons_append, List.takeWhile_cons, if_neg (by decide)]

theorem writeDoc_shape (d : DynamicJSON) :
    ∃ t, writeDoc d = '\x7b' :: t ∨ writeDoc d = '[' :: t := by
  obtain ⟨ks, oks, ic, vs⟩ := d
  cases ks with
  | none =>
    cases vs with
    | nil => exact ⟨[']'], Or.inr rfl⟩
    | cons w r =>
      exact ⟨writeArrItems (.cons w r) true ++ [']'], Or.inr (by
        simp [writeDoc])⟩
  | some ks0 =>
    by_cases h : ks0.length = 0
    · exact ⟨['\x7d'], Or.inl (by simp [writeDoc, h])⟩
    · exact ⟨writeMapItems vs oks true ++ ['\x7d'], Or.inl (by
        simp [writeDoc, h])⟩

theorem writeOne_shape (v : GoAny) (hw : wfVal v = true) :
    ∃ c t, writeOne v = c :: t ∧ isWs c = false ∧ c ≠ ']' := by
  cases v with
  | null => exact ⟨'n', _, rfl, by decide, by decide⟩
  | boolean b =>
    cases b with
    | true => exact ⟨'t', _, rfl, by decide, by decide⟩
    | false => exact ⟨'f', _, rfl, by decide, by decide⟩
  | intV n =>
    obtain ⟨c, t, hct, hc⟩ := validNumber_shape _ (validNumber_intRepr n)
    refine ⟨c, t, ?_, ?_, ?_⟩
    · rw [show writeOne (.intV n) = intRepr n from rfl, hct]
    · rcases hc with h | h
      · subst h; decide
      · exact digit_not_ws c h
    · rcases hc with h | h
      · subst h; decide
      · exact digit_not_special c h ']' (by decide)
  | number s =>
    obtain ⟨c, t, hct, hc⟩ := validNumber_shape s (by simpa [wfVal] using hw)
    refine ⟨c, t, ?_, ?_, ?_⟩
    · rw [show writeOne (.number s) = s from rfl, hct]
    · rcases hc with h | h
      · subst h; decide
      · exact digit_not_ws c h
    · rcases hc with h | h
      · subst h; decide
      · exact digit_not_special c h ']' (by decide)
  | str s => exact ⟨'"', _, rfl, by decide, by decide⟩
  | doc d =>
    obtain ⟨t, h | h⟩ := writeDoc_shape d
    · exact ⟨'\x7b', t,
        by rw [show writeOne (.doc d) = writeDoc d from rfl, h],
        by decide, by decide⟩
    · exact ⟨'[', t,
        by rw [show writeOne (.doc d) = writeDoc d from rfl, h],
        by decide, by decide⟩
  | deletedEntry => exact absurd hw (by decide)
  | nilDoc => exact absurd hw (by decide)

theorem encodeString_length_ge (s : Str) : 2 ≤ (encodeString s).length := by
  simp [encodeString]

mutual

theorem parse_writeOne : ∀ (fuel : Nat) (v : GoAny) (rest : Str),
    wfVal v = true → rest.takeWhile isNumChar = [] →
    (writeOne v).length ≤ fuel →
    parseVal fuel (writeOne v ++ rest) = some (canonVal v, rest)
  | 0, v, rest, hw, _, hf => by
    obtain ⟨c, t, hct, _, _⟩ := writeOne_shape v hw
    rw [hct] at hf
    simp at hf
  | fuel + 1, v, rest, hw, hb, hf => by
    cases v with
    | null =>
      have hsw := skipWs_cons 'n' ('u' :: 'l' :: 'l' :: rest) (by decide)
      simp [writeOne, scalar2str, parseVal, hsw, canonVal]
    | boolean b =>
      cases b with
      | true =>
        have hsw := skipWs_cons 't' ('r' :: 'u' :: 'e' :: rest) (by decide)
        simp [writeOne, scalar2str, parseVal, hsw, canonVal]
      | false =>
        have hsw := skipWs_cons 'f' ('a' :: 'l' :: 's' :: 'e' :: rest)
          (by decide)
        simp [writeOne, scalar2str, parseVal, hsw, canonVal]
    | intV n =>
      rw [show writeOne (.intV n) = intRepr n from rfl]
      rw [parseVal_number fuel (intRepr n) rest (validNumber_intRepr n) hb]
      rfl
    | number s =>
      have hv : validNumber s = true := by simpa [wfVal] using hw
      rw [show writeOne (.number s) = s from rfl]
      rw [parseVal_number fuel s rest hv hb]
      rfl
    | str s =>
      rw [show writeOne (.str s) ++ rest =
          '"' :: (s.flatMap escapeChar ++ '"' :: rest) from by
        simp [writeOne, scalar2str, encodeString]]
      have hsw := skipWs_cons '"' (s.flatMap escapeChar ++ '"' :: rest)
        (by decide)
      simp [parseVal, hsw, parseStrBody_flatMap s rest, canonVal]
    | doc d =>
      obtain ⟨ks, oks, ic, vs⟩ := d
      have hwd : wfDoc (.mk ks oks ic vs) = true := by simpa [wfVal] using hw
      cases ks with
      | none =>
        cases vs with
        | nil =>
          rw [show writeOne (.doc (.mk none oks ic .nil)) ++ rest =
              '[' :: ']' :: rest from by simp [writeOne, writeDoc]]
          obtain ⟨f2, hf2⟩ : ∃ f2, fuel = f2 + 1 := by
            rw [show writeOne (.doc (.mk none oks ic .nil)) = ['[', ']']
              from by simp [writeOne, writeDoc]] at hf
            cases fuel with
            | zero => simp at hf
            | succ f2 => exact ⟨f2, rfl⟩
          subst hf2
          have hsw := skipWs_cons '[' (']' :: rest) (by decide)
          have hsw2 := skipWs_cons ']' rest (by decide)
          simp [parseVal, hsw, parseArrBody, hsw2, canonVal, canonDoc,
            canonArr, ValList.ofList]
        | cons w r =>
          have hwa : wfArr (.cons w r) = true := by simpa [wfDoc] using hwd
          have htext : writeOne (.doc (.mk none oks ic (.cons w r))) ++ rest =
              '[' :: (writeArrItems (.cons w r) true ++ ']' :: rest) := by
            simp [writeOne, writeDoc]
          rw [htext]
          have hlen : (writeArrItems (.cons w r) true ++ [']']).length ≤
              fuel := by
            rw [show writeOne (.doc (.mk none oks ic (.cons w r))) =
                '[' :: (writeArrItems (.cons w r) true ++ [']']) from by
              simp [writeDoc, writeOne]] at hf
            rw [List.length_cons] at hf
            omega
          have hsw := skipWs_cons '['
            (writeArrItems (.cons w r) true ++ ']' :: rest) (by decide)
          have harr := parse_writeArr fuel (.cons w r) [] rest hwa hlen
          simp [parseVal, hsw, harr, canonVal, canonDoc,
            ValList.ofList_toList]
      | some ks0 =>
        obtain ⟨hwn, hwv⟩ : wfMapNode ks0 oks vs.toList = true ∧
            wfMapVals vs = true := by
          simpa [wfDoc, Bool.and_eq_true] using hwd
        have hlen0 : vs.toList.length = oks.length :=
          ((wfMapNode_parts hwn).1).symm
        have hlk := wfMapNode_liveKeys hwn
        have hkeq := livePairs_keys_eq vs oks hlen0
        have hlenks : ks0.length = (livePairs vs oks).length := by
          have h5 := hlk.2
          rw [← hkeq, List.length_map] at h5
          exact h5
        by_cases hk0 : ks0.length = 0
        · have hlp : livePairs vs oks = [] := by
            rw [hk0] at hlenks
            exact List.length_eq_zero.mp hlenks.symm
          have hcm : canonMapEntries vs oks NewMap = NewMap := by
            rw [canonMapEntries_foldSet, hlp]
            rfl
          rw [show writeOne (.doc (.mk (some ks0) oks ic vs)) ++ rest =
              '\x7b' :: '\x7d' :: rest from by simp [writeOne, writeDoc, hk0]]
          obtain ⟨f2, hf2⟩ : ∃ f2, fuel = f2 + 1 := by
            rw [show writeOne (.doc (.mk (some ks0) oks ic vs)) =
                ['\x7b', '\x7d'] from by simp [writeOne, writeDoc, hk0]] at hf
            cases fuel with
            | zero => simp at hf
            | succ f2 => exact ⟨f2, rfl⟩
          subst hf2
          have hsw := skipWs_cons '\x7b' ('\x7d' :: rest) (by decide)
          have hsw2 := skipWs_cons '\x7d' rest (by decide)
          simp [parseVal, hsw, parseObjBody, hsw2, canonVal, canonDoc, hcm]
        · have htext : writeOne (.doc (.mk (some ks0) oks ic vs)) ++ rest =
              '\x7b' :: (writePairs (livePairs vs oks) true ++
                '\x7d' :: rest) := by
            simp [writeOne, writeDoc, hk0, writeMapItems_eq_writePairs]
          rw [htext]
          have hlen : (writePairs (livePairs vs oks) true ++
              ['\x7d']).length ≤ fuel := by
            rw [show writeOne (.doc (.mk (some ks0) oks ic vs)) =
                '\x7b' :: (writePairs (livePairs vs oks) true ++ ['\x7d'])
              from by simp [writeDoc, writeOne, hk0,
                writeMapItems_eq_writePairs]] at hf
            rw [List.length_cons] at hf
            omega
          have hwfp : ∀ p ∈ livePairs vs oks, wfVal p.2 = true := by
            intro p hp
            obtain ⟨k1, v1⟩ := p
            exact wfMapVals_mem vs hwv v1
              (livePairs_mem_val vs oks k1 v1 hp)
              (livePairs_live vs oks k1 v1 hp)
          have hsw := skipWs_cons '\x7b'
            (writePairs (livePairs vs oks) true ++ '\x7d' :: rest) (by decide)
          have hobj := parse_writePairs fuel (livePairs vs oks) NewMap rest
            hwfp hlen
          have hcm : canonMapEntries vs oks NewMap =
              foldSet NewMap ((livePairs vs oks).map
                fun p => (p.1, canonVal p.2)) := canonMapEntries_foldSet vs oks NewMap
          simp [parseVal, hsw, hobj, canonVal, canonDoc, hcm]
    | deletedEntry => exact absurd hw (by decide)
    | nilDoc => exact absurd hw (by decide)

theorem parse_writePairs : ∀ (fuel : Nat) (ps : List (Str × GoAny))
    (acc : DynamicJSON) (rest : Str),
    (∀ p ∈ ps, wfVal p.2 = true) →
    (writePairs ps true ++ ['\x7d']).length ≤ fuel →
    parseObjBody fuel acc (writePairs ps true ++ '\x7d' :: rest) =
      some (foldSet acc (ps.map fun p => (p.1, canonVal p.2)), rest)
  | 0, ps, acc, rest, _, hf => by
    rw [List.length_append] at hf
    simp at hf
  | fuel + 1, [], acc, rest, _, _ => by
    have hsw := skipWs_cons '\x7d' rest (by decide)
    simp [writePairs, parseObjBody, hsw, foldSet]
  | fuel + 1, (k, v) :: ps, acc, rest, hwf, hf => by
    have hwv : wfVal v = true := hwf (k, v) (List.mem_cons_self _ _)
    have henc := encodeString_length_ge k
    have hlen_eq : (writePairs ((k, v) :: ps) true ++ ['\x7d']).length =
        (encodeString k).length + 1 + (writeOne v).length +
          (writePairs ps false).length + 1 := by
      simp [writePairs]
      omega
    rw [hlen_eq] at hf
    cases ps with
    | nil =>
      have htext : writePairs ((k, v) :: ([] : List (Str × GoAny))) true ++
          '\x7d' :: rest =
          '"' :: (k.flatMap escapeChar ++ '"' ::
            (':' :: (writeOne v ++ '\x7d' :: rest))) := by
        simp [writePairs, encodeString]
      rw [htext]
      have hsw := skipWs_cons '"' (k.flatMap escapeChar ++ '"' ::
        (':' :: (writeOne v ++ '\x7d' :: rest))) (by decide)
      have hstr := parseStrBody_flatMap k
        (':' :: (writeOne v ++ '\x7d' :: rest))
      have hsw2 := skipWs_cons ':' (writeOne v ++ '\x7d' :: rest) (by decide)
      have hbY : ('\x7d' :: rest).takeWhile isNumChar = [] := by
        rw [List.takeWhile_cons, if_neg (by decide)]
      have hval := parse_writeOne fuel v ('\x7d' :: rest) hwv hbY (by omega)
      have hsw3 := skipWs_cons '\x7d' rest (by decide)
      simp [parseObjBody, hsw, hstr, hsw2, hval, hsw3, foldSet]
    | cons p2 ps2 =>
      obtain ⟨k2, v2⟩ := p2
      have hwp : writePairs ((k2, v2) :: ps2) false =
          ',' :: writePairs ((k2, v2) :: ps2) true := by
        rw [writePairs_false, if_neg (by simp)]
      have htext : writePairs ((k, v) :: (k2, v2) :: ps2) true ++
          '\x7d' :: rest =
          '"' :: (k.flatMap escapeChar ++ '"' ::
            (':' :: (writeOne v ++ ',' ::
              (writePairs ((k2, v2) :: ps2) true ++ '\x7d' :: rest)))) := by
        rw [show writePairs ((k, v) :: (k2, v2) :: ps2) true =
            ([] : Str) ++ encodeString k ++ ':' :: writeOne v ++
              writePairs ((k2, v2) :: ps2) false from rfl]
        rw [hwp]
        simp [encodeString]
      rw [htext]
      have hsw := skipWs_cons '"' (k.flatMap escapeChar ++ '"' ::
        (':' :: (writeOne v ++ ',' ::
          (writePairs ((k2, v2) :: ps2) true ++ '\x7d' :: rest)))) (by decide)
      have hstr := parseStrBody_flatMap k (':' :: (writeOne v ++ ',' ::
        (writePairs ((k2, v2) :: ps2) true ++ '\x7d' :: rest)))
      have hsw2 := skipWs_cons ':' (writeOne v ++ ',' ::
        (writePairs ((k2, v2) :: ps2) true ++ '\x7d' :: rest)) (by decide)
      have hbY : (',' :: (writePairs ((k2, v2) :: ps2) true ++
          '\x7d' :: rest)).takeWhile isNumChar = [] := by
        rw [List.takeWhile_cons, if_neg (by decide)]
      have hwps_len : (writePairs ((k2, v2) :: ps2) false).length =
          (writePairs ((k2, v2) :: ps2) true).length + 1 := by
        rw [hwp]
        rfl
      have hval := parse_writeOne fuel v (',' ::
        (writePairs ((k2, v2) :: ps2) true ++ '\x7d' :: rest)) hwv hbY
        (by omega)
      have hsw3 := skipWs_cons ','
        (writePairs ((k2, v2) :: ps2) true ++ '\x7d' :: rest) (by decide)
      have hlen2 : (writePairs ((k2, v2) :: ps2) true ++ ['\x7d']).length ≤
          fuel := by
        rw [List.length_append]
        have h1 : (['\x7d'] : Str).length = 1 := rfl
        rw [h1]
        omega
      have hrec := parse_writePairs fuel ((k2, v2) :: ps2)
        (acc.set k (canonVal v)).2 rest
        (fun p hp => hwf p (List.mem_cons_of_mem _ hp)) hlen2
      simp [parseObjBody, hsw, hstr, hsw2, hval, hsw3, hrec, foldSet]

theorem parse_writeArr : ∀ (fuel : Nat) (vs : ValList) (acc : List GoAny)
    (rest : Str), wfArr vs = true →
    (writeArrItems vs true ++ [']']).length ≤ fuel →
    parseArrBody fuel acc (writeArrItems vs true ++ ']' :: rest) =
      some (.mk none [] 0 (ValList.ofList (acc ++ (canonArr vs).toList)),
        rest)
  | 0, vs, acc, rest, _, hf => by
    rw [List.length_append] at hf
    simp at hf
  | fuel + 1, .nil, acc, rest, _, _ => by
    have hsw := skipWs_cons ']' rest (by decide)
    simp [writeArrItems, parseArrBody, hsw, canonArr]
  | fuel + 1, .cons w r, acc, rest, hwf, hf => by
    obtain ⟨hw1, hw2⟩ : wfVal w = true ∧ wfArr r = true := by
      simpa [wfArr, Bool.and_eq_true] using hwf
    obtain ⟨c, t, hct, hcw, hcb⟩ := writeOne_shape w hw1
    have hlen_eq : (writeArrItems (.cons w r) true ++ [']']).length =
        (writeOne w).length + (writeArrItems r false).length + 1 := by
      simp [writeArrItems]
      omega
    rw [hlen_eq] at hf
    cases r with
    | nil =>
      have htext : writeArrItems (.cons w .nil) true ++ ']' :: rest =
          writeOne w ++ ']' :: rest := by
        simp [writeArrItems]
      rw [htext, hct, List.cons_append]
      have hb3 : (']' :: rest).takeWhile isNumChar = [] := by
        rw [List.takeWhile_cons, if_neg (by decide)]
      have hval := parse_writeOne fuel w (']' :: rest) hw1 hb3 (by
        rw [show (writeArrItems ValList.nil false).length = 0 from rfl] at hf
        omega)
      rw [hct, List.cons_append] at hval
      have hsw := skipWs_cons c (t ++ ']' :: rest) hcw
      have hsw3 := skipWs_cons ']' rest (by decide)
      simp [parseArrBody, hsw, hcb, hval, hsw3, canonArr]
    | cons w2 r2 =>
      have hwa : writeArrItems (.cons w2 r2) false =
          ',' :: writeArrItems (.cons w2 r2) true := by
        rw [writeArrItems_false, if_neg (show ¬ValList.cons w2 r2 = .nil
          from fun h => ValList.noConfusion h)]
      have htext : writeArrItems (.cons w (.cons w2 r2)) true ++
          ']' :: rest = writeOne w ++ ',' ::
            (writeArrItems (.cons w2 r2) true ++ ']' :: rest) := by
        rw [show writeArrItems (.cons w (.cons w2 r2)) true =
            ([] : Str) ++ writeOne w ++ writeArrItems (.cons w2 r2) false
          from rfl]
        rw [hwa]
        simp
      rw [htext, hct, List.cons_append]
      have hb3 : (',' :: (writeArrItems (.cons w2 r2) true ++
          ']' :: rest)).takeWhile isNumChar = [] := by
        rw [List.takeWhile_cons, if_neg (by decide)]
      have hwa_len : (writeArrItems (.cons w2 r2) false).length =
          (writeArrItems (.cons w2 r2) true).length + 1 := by
        rw [hwa]
        rfl
      have hval := parse_writeOne fuel w (',' ::
        (writeArrItems (.cons w2 r2) true ++ ']' :: rest)) hw1 hb3 (by omega)
      rw [hct, List.cons_append] at hval
      have hsw := skipWs_cons c (t ++ ',' ::
        (writeArrItems (.cons w2 r2) true ++ ']' :: rest)) hcw
      have hsw3 := skipWs_cons ','
        (writeArrItems (.cons w2 r2) true ++ ']' :: rest) (by decide)
      have hlen2 : (writeArrItems (.cons w2 r2) true ++ [']']).length ≤
          fuel := by
        rw [List.length_append]
        have h1 : (([']'] : Str)).length = 1 := rfl
        rw [h1]
        omega
      have hrec := parse_writeArr fuel (.cons w2 r2) (acc ++ [canonVal w])
        rest hw2 hlen2
      simp [parseArrBody, hsw, hcb, hval, hsw3, hrec, canonArr]

end

theorem parse_JSONLine (d : DynamicJSON) (hw : wfDoc d = true) :
    Parse d.JSONLine = .ok (canonDoc d) := by
  have hwv : wfVal (.doc d) = true := by simpa [wfVal] using hw
  have hone := parse_writeOne (d.JSONLine.length + 1) (.doc d) [] hwv rfl
    (by rw [show writeOne (.doc d) = d.JSONLine from rfl]; omega)
  rw [List.append_nil] at hone
  rw [show writeOne (.doc d) = writeDoc d from rfl] at hone
  rw [show canonVal (.doc d) = .doc (canonDoc d) from rfl] at hone
  rw [show DynamicJSON.JSONLine d = writeDoc d from rfl] at hone
  obtain ⟨t, h | h⟩ := writeDoc_shape d
  · have hsw := skipWs_cons '\x7b' t (by decide)
    rw [h] at hone
    simp only [List.length_cons] at hone
    rw [show DynamicJSON.JSONLine d = writeDoc d from rfl, h]
    simp [Parse, hsw, hone]
  · have hsw := skipWs_cons '[' t (by decide)
    rw [h] at hone
    simp only [List.length_cons] at hone
    rw [show DynamicJSON.JSONLine d = writeDoc d from rfl, h]
    simp [Parse, hsw, hone]

/-- C2 counterexample: a `json.Number` value is serialized verbatim, so a
Document holding the number text `]` — accepted unchecked by `Set` —
serializes to `\x7b"x":]\x7d`, which `Parse` rejects with a scan error:
the unrestricted round trip fails. -/
theorem c2_roundtrip_counterexample :
    ((Set (some NewMap) (['x']) (.number [']'])).map fun d =>
        Parse d.JSONLine) = some (.error .scanErr) := by decide

/-- C2 (amended): for every well-formed document — every `json.Number`
holds valid JSON number text, no tombstone sentinel or typed-nil child
appears as a value, and each map node satisfies the key-index invariant —
`Parse` of the compact serialization succeeds and returns the canonical
image `canonDoc d`: a document that is string-equal to `d` under
scalar-text normalization (`IsEqualAsString`) and carries the same live
keys in the same order. -/
theorem c2_roundtrip (d : DynamicJSON) (hw : wfDoc d = true) :
    Parse d.JSONLine = .ok (canonDoc d) ∧
    (canonDoc d).IsEqualAsString d = true ∧
    (canonDoc d).Keys = d.Keys :=
  ⟨parse_JSONLine d hw, canonDoc_eqStr d hw, canonDoc_keys d hw⟩

/-- C2, witness. -/
theorem c2_roundtrip_witness :
    Parse (DynamicJSON.mk (some [(['a'], 0)]) [['a']] 0
        (.cons (.intV 3) .nil)).JSONLine =
      .ok (canonDoc (DynamicJSON.mk (some [(['a'], 0)]) [['a']] 0
        (.cons (.intV 3) .nil))) ∧
    (canonDoc (DynamicJSON.mk (some [(['a'], 0)]) [['a']] 0
        (.cons (.intV 3) .nil))).IsEqualAsString
      (DynamicJSON.mk (some [(['a'], 0)]) [['a']] 0
        (.cons (.intV 3) .nil)) = true ∧
    (canonDoc (DynamicJSON.mk (some [(['a'], 0)]) [['a']] 0
        (.cons (.intV 3) .nil))).Keys =
      (DynamicJSON.mk (some [(['a'], 0)]) [['a']] 0
        (.cons (.intV 3) .nil)).Keys :=
  c2_roundtrip _ (by decide)

/-- C1, witness. -/
theorem c1_frozen_mutations_witness :
    NewMap.Freeze.set ['a'] .null = (some .frozenErr, NewMap.Freeze) ∧
    NewMap.Freeze.SetI 0 .null = (some .frozenErr, NewMap.Freeze) ∧
    Delete (some NewMap.Freeze) ['a'] = (some .frozenErr, some NewMap.Freeze) ∧
    Set (some NewMap.Freeze) ['a'] .null = some NewMap.Freeze ∧
    (NewMap.Freeze.IsArray = true →
      NewMap.Freeze.Append .null =
        .mk NewMap.Freeze.keys NewMap.Freeze.ordKeys NewMap.Freeze.iterCounter
          (ValList.ofList (NewMap.Freeze.vals ++ [.null]))) :=
  c1_frozen_mutations NewMap.Freeze (by decide) ['a'] ['a'] 0 .null

end DJson
